import Mathlib

/-!
# gostatsd receiver: `statsd/receiver.go`

A shallow embedding of `metricReceiver.Receive` and `metricReceiver.handlePacket`
and a verification of the receiver's documented behaviour.

Conventions of the embedding

* Byte slices and the source address string are `List UInt8`; strings the receiver
  never looks into (names, tags, the namespace) are `String`.
* Unsigned machine integers are `Nat` with an explicit `% 2 ^ w` at every increment.
* The lexer (`lexer.run`), the handler (`Handler`) and the wall clock (`time.Now`)
  are collaborators that are not part of `receiver.go`; they are parameters,
  gathered in `Env`.  The handler is a state machine over an arbitrary state `σ`.
* The loops of the receiver are modelled with fuel (`handleLoop`) or by recursion
  over the sequence of socket reads (`Receive`).
* Every call to the lexer and to the handler is recorded in a ghost trace, each
  entry tagged with the number of the loop iteration (the line number) making it.
-/

namespace Gostatsd

variable {σ : Type}

/-! ## Data model -/

/-- A Go byte. -/
abbrev Byte := UInt8

/-- The line feed byte, `'\n'`. -/
def LF : Byte := 10

/-- The colon byte, `':'`. -/
def COLON : Byte := 58

/-- `types.Tags`: an ordered sequence of strings. -/
abbrev Tags := List String

/-- `types.IP`: a string; the empty string is the unset value. -/
abbrev IP := List Byte

/-- Go `error` values the receiver can see or build.
`canceled` is `context.Canceled`, `deadlineExceeded` is `context.DeadlineExceeded`,
`errorf` is a value built by `fmt.Errorf`, `other` is any other error value. -/
inductive GoError
  | canceled
  | deadlineExceeded
  | errorf (msg : String)
  | other (id : Nat)
  deriving DecidableEq

/-- `types.Metric`, with the fields the receiver writes (`Tags`, `SourceIP`); the
name stands for the fields the receiver only passes through. -/
structure Metric where
  Name : String
  Tags : Tags
  SourceIP : IP
  deriving DecidableEq

/-- `types.Event`, with the fields the receiver reads or writes. `DateHappened` is
an `int64` number of epoch seconds, zero meaning unset. -/
structure Event where
  Title : String
  Text : String
  DateHappened : Int
  Tags : Tags
  SourceIP : IP
  deriving DecidableEq

/-- What `lexer.run` returns: `(*types.Metric, *types.Event, error)`, each of which
may be nil. -/
structure LexResult where
  metric : Option Metric
  event : Option Event
  err : Option GoError
  deriving DecidableEq

/-- The two readings of a `time.Time` the receiver takes: `Unix()` and `UnixNano()`. -/
structure Time where
  Unix : Int
  UnixNano : Int
  deriving DecidableEq

/-- Ghost record of a call made by `handlePacket`, with the number of the loop
iteration (zero based line number) that made it. -/
inductive Call
  | parseLine (lineNo : Nat) (line : List Byte) (res : LexResult)
  | DispatchMetric (lineNo : Nat) (m : Metric) (res : Option GoError)
  | DispatchEvent (lineNo : Nat) (e : Event) (res : Option GoError)
  deriving DecidableEq

/-- The collaborators of the receiver. `run line ns` is `lexer{}.run(line, ns)`;
`DispatchMetric` and `DispatchEvent` are the two methods of the `Handler`
interface acting on the handler's state; `now k` is the value of the `k`-th call
of `time.Now()`. -/
structure Env (σ : Type) where
  run : List Byte → String → LexResult
  DispatchMetric : σ → Metric → σ × Option GoError
  DispatchEvent : σ → Event → σ × Option GoError
  now : Nat → Time

/-- The `metricReceiver` struct together with the state of the world around it:
the five counters, the configuration (`namespace_`, `tags`), the state of the
handler, the number of clock readings taken so far and the ghost trace. -/
structure metricReceiver (σ : Type) where
  lastPacket : Int
  badLines : Nat
  packetsReceived : Nat
  metricsReceived : Nat
  eventsReceived : Nat
  handler : σ
  namespace_ : String
  tags : Tags
  clockReads : Nat
  trace : List Call

/-- `packetSizeUDP = 0xffff`. -/
def packetSizeUDP : Nat := 0xffff

/-- The error of `bytes.Buffer.ReadBytes`. -/
inductive ReadErr
  | EOF
  | other
  deriving DecidableEq

/-- How an execution of `handlePacket` (or of its loop) ends: it returns
`exitError`, or `log.Panic` panics; `outOfFuel` is the model running out of fuel. -/
inductive Exit
  | ret (exitError : Option GoError)
  | panic
  | outOfFuel
  deriving DecidableEq

/-! ## Library functions -/

/-- `bytes.IndexByte`: index of the first `c` in `s`, or `-1`. -/
def indexByte : List Byte → Byte → Int
  | [], _ => -1
  | b :: bs, c =>
    if b = c then 0
    else
      let i := indexByte bs c
      if i < 0 then -1 else i + 1

/-- The loop of `strings.LastIndexByte`, scanning downwards from index `i - 1`. -/
def lastIndexByteFrom (s : List Byte) (c : Byte) : Nat → Int
  | 0 => -1
  | i + 1 => if s.get? i = some c then (i : Int) else lastIndexByteFrom s c i

/-- `strings.LastIndexByte`: index of the last `c` in `s`, or `-1`. -/
def lastIndexByte (s : List Byte) (c : Byte) : Int :=
  lastIndexByteFrom s c s.length

/-- `bytes.Buffer.ReadBytes` on the unread part `buf` of the buffer: the bytes up
to and including the first `delim` with a nil error, or all of `buf` with `io.EOF`
when there is no `delim`. Returns the line, the error and the new unread part. -/
def readBytes (buf : List Byte) (delim : Byte) : List Byte × Option ReadErr × List Byte :=
  let i := indexByte buf delim
  if i < 0 then (buf, some ReadErr.EOF, [])
  else (buf.take (i.toNat + 1), none, buf.drop (i.toNat + 1))

/-! ## The receiver -/

/-- `metricReceiver.parseLine`: runs a fresh lexer on the line with the receiver's
namespace. -/
def parseLine (env : Env σ) (mr : metricReceiver σ) (line : List Byte) : LexResult :=
  env.run line mr.namespace_

/-- The `for` loop of `handlePacket` (lines 131-181). The arguments after the fuel
are the unread part of `buf`, the ghost line number, the locals `numMetrics` and
`numEvents` (`uint16`) and the receiver. -/
def handleLoop (env : Env σ) (ip : IP) :
    Nat → List Byte → Nat → Nat → Nat → metricReceiver σ → Exit × Nat × Nat × metricReceiver σ
  | 0, _, _, numMetrics, numEvents, mr => (Exit.outOfFuel, numMetrics, numEvents, mr)
  | fuel + 1, buf, lineNo, numMetrics, numEvents, mr =>
    match readBytes buf LF with
    | (line, readerr, buf) =>
      if readerr ≠ none ∧ readerr ≠ some ReadErr.EOF then
        (Exit.ret (some (GoError.errorf "error reading message")), numMetrics, numEvents, mr)
      else
        let line :=
          if readerr ≠ some ReadErr.EOF then
            (if line.length > 0 then line.take (line.length - 1) else line)
          else line
        if line.length > 1 then
          let res := parseLine env mr line
          let mr := { mr with trace := mr.trace ++ [Call.parseLine lineNo line res] }
          match res.err with
          | some _ =>
            let mr := { mr with badLines := (mr.badLines + 1) % 2 ^ 64 }
            handleLoop env ip fuel buf (lineNo + 1) numMetrics numEvents mr
          | none =>
            match res.metric with
            | some metric =>
              let numMetrics := (numMetrics + 1) % 2 ^ 16
              let metric := { metric with Tags := metric.Tags ++ mr.tags }
              let metric := { metric with SourceIP := ip }
              let (h, err) := env.DispatchMetric mr.handler metric
              let mr := { mr with handler := h,
                                  trace := mr.trace ++ [Call.DispatchMetric lineNo metric err] }
              if err ≠ none then (Exit.ret err, numMetrics, numEvents, mr)
              else if readerr = some ReadErr.EOF then (Exit.ret none, numMetrics, numEvents, mr)
              else handleLoop env ip fuel buf (lineNo + 1) numMetrics numEvents mr
            | none =>
              match res.event with
              | some event =>
                let numEvents := (numEvents + 1) % 2 ^ 16
                let event := { event with Tags := event.Tags ++ mr.tags }
                let event := { event with SourceIP := ip }
                let stamp := decide (event.DateHappened = 0)
                let event :=
                  if stamp then { event with DateHappened := (env.now mr.clockReads).Unix }
                  else event
                let mr := if stamp then { mr with clockReads := mr.clockReads + 1 } else mr
                let (h, err) := env.DispatchEvent mr.handler event
                let mr := { mr with handler := h,
                                    trace := mr.trace ++ [Call.DispatchEvent lineNo event err] }
                if err ≠ none then (Exit.ret err, numMetrics, numEvents, mr)
                else if readerr = some ReadErr.EOF then (Exit.ret none, numMetrics, numEvents, mr)
                else handleLoop env ip fuel buf (lineNo + 1) numMetrics numEvents mr
              | none => (Exit.panic, numMetrics, numEvents, mr)
        else if readerr = some ReadErr.EOF then (Exit.ret none, numMetrics, numEvents, mr)
        else handleLoop env ip fuel buf (lineNo + 1) numMetrics numEvents mr

/-- The source IP `handlePacket` computes from `addr.String()` (lines 123-130):
the bytes before the last colon, or the unset value when `LastIndexByte` is not
positive. -/
def sourceIP (addrStr : List Byte) : IP :=
  let n := lastIndexByte addrStr COLON
  if n ≤ 0 then [] else addrStr.take n.toNat

/-- `metricReceiver.handlePacket`: the source address is given as its string
`addr.String()`. The loop gets more fuel than it can use: every iteration but the
last takes at least one byte off the buffer (`handleLoop_eq_processLines`). On a
panic the two final atomic adds do not run. -/
def handlePacket (env : Env σ) (mr : metricReceiver σ) (addr : List Byte) (msg : List Byte) :
    Exit × metricReceiver σ :=
  let ip := sourceIP addr
  match handleLoop env ip (msg.length + 2) msg 0 0 0 mr with
  | (Exit.ret exitError, numMetrics, numEvents, mr) =>
    let mr := { mr with metricsReceived := (mr.metricsReceived + numMetrics) % 2 ^ 64 }
    let mr := { mr with eventsReceived := (mr.eventsReceived + numEvents) % 2 ^ 64 }
    (Exit.ret exitError, mr)
  | (e, _, _, mr) => (e, mr)

/-- The error of `net.PacketConn.ReadFrom`: whether it implements `net.Error` and,
if it does, what its `Temporary()` method answers. -/
structure ReadError where
  isNetError : Bool
  temporary : Bool
  deriving DecidableEq

/-- One call of `c.ReadFrom(buf)` as `Receive` sees it: the datagram and the source
address, or an error; `ctxDone` tells whether `ctx.Done()` is closed when the
`select` of line 94 runs. -/
inductive ReadFrom
  | ok (data : List Byte) (addr : List Byte)
  | fail (err : ReadError) (ctxDone : Bool)
  deriving DecidableEq

/-- How an execution of `Receive` over a finite sequence of reads ends: it returns
an error or nil, a panic of `handlePacket` goes through it, or it is in
`ReadFrom` waiting for a read the sequence does not have. -/
inductive ReceiveExit
  | ret (err : Option GoError)
  | panic
  | reading
  deriving DecidableEq

/-- `metricReceiver.Receive` over the sequence of results of `c.ReadFrom`. The
buffer has `packetSizeUDP` bytes, so a datagram is cut to that size. A panic of
`handlePacket` ends `Receive` (the last case, which also takes the exit
`outOfFuel` that `handlePacket` never returns). -/
def Receive (env : Env σ) : List ReadFrom → metricReceiver σ → ReceiveExit × metricReceiver σ
  | [], mr => (ReceiveExit.reading, mr)
  | ReadFrom.fail err ctxDone :: reads, mr =>
    if err.isNetError ∧ ¬ err.temporary then
      if ctxDone then (ReceiveExit.ret none, mr)
      else (ReceiveExit.ret (some (GoError.errorf "non-temporary error reading from socket")), mr)
    else Receive env reads mr
  | ReadFrom.ok data addr :: reads, mr =>
    let mr := { mr with packetsReceived := (mr.packetsReceived + 1) % 2 ^ 64 }
    let mr := { mr with lastPacket := (env.now mr.clockReads).UnixNano,
                        clockReads := mr.clockReads + 1 }
    match handlePacket env mr addr (data.take packetSizeUDP) with
    | (Exit.ret (some err), mr) =>
      if err = GoError.canceled ∨ err = GoError.deadlineExceeded then
        (ReceiveExit.ret (some err), mr)
      else Receive env reads mr
    | (Exit.ret none, mr) => Receive env reads mr
    | (_, mr) => (ReceiveExit.panic, mr)

/-! ## The loop over lines -/

/-- The lines of a datagram: the maximal runs of bytes between line feeds. -/
def splitLines : List Byte → List (List Byte)
  | [] => [[]]
  | b :: bs =>
    if b = LF then [] :: splitLines bs
    else
      match splitLines bs with
      | [] => [[b]]
      | l :: ls => (b :: l) :: ls

/-- What one iteration of the loop of `handlePacket` does with the line it has
read (lines 145-175): `none` in the first component when the loop goes on to the
next line, `some e` when the loop is left with `e`. -/
def lineStep (env : Env σ) (ip : IP) (lineNo : Nat) (line : List Byte)
    (numMetrics numEvents : Nat) (mr : metricReceiver σ) :
    Option Exit × Nat × Nat × metricReceiver σ :=
  if line.length > 1 then
    let res := parseLine env mr line
    let mr := { mr with trace := mr.trace ++ [Call.parseLine lineNo line res] }
    match res.err with
    | some _ => (none, numMetrics, numEvents, { mr with badLines := (mr.badLines + 1) % 2 ^ 64 })
    | none =>
      match res.metric with
      | some metric =>
        let metric := { metric with Tags := metric.Tags ++ mr.tags, SourceIP := ip }
        let r := env.DispatchMetric mr.handler metric
        let mr := { mr with handler := r.1,
                            trace := mr.trace ++ [Call.DispatchMetric lineNo metric r.2] }
        (if r.2 ≠ none then some (Exit.ret r.2) else none, (numMetrics + 1) % 2 ^ 16, numEvents, mr)
      | none =>
        match res.event with
        | some event =>
          let event := { event with Tags := event.Tags ++ mr.tags, SourceIP := ip }
          let stamp := decide (event.DateHappened = 0)
          let event :=
            if stamp then { event with DateHappened := (env.now mr.clockReads).Unix } else event
          let mr := if stamp then { mr with clockReads := mr.clockReads + 1 } else mr
          let r := env.DispatchEvent mr.handler event
          let mr := { mr with handler := r.1,
                              trace := mr.trace ++ [Call.DispatchEvent lineNo event r.2] }
          (if r.2 ≠ none then some (Exit.ret r.2) else none, numMetrics, (numEvents + 1) % 2 ^ 16, mr)
        | none => (some Exit.panic, numMetrics, numEvents, mr)
  else (none, numMetrics, numEvents, mr)

/-- The loop of `handlePacket` over the lines of the datagram instead of the buffer. -/
def processLines (env : Env σ) (ip : IP) :
    List (List Byte) → Nat → Nat → Nat → metricReceiver σ → Exit × Nat × Nat × metricReceiver σ
  | [], _, numMetrics, numEvents, mr => (Exit.ret none, numMetrics, numEvents, mr)
  | line :: lines, lineNo, numMetrics, numEvents, mr =>
    match lineStep env ip lineNo line numMetrics numEvents mr with
    | (some e, numMetrics, numEvents, mr) => (e, numMetrics, numEvents, mr)
    | (none, numMetrics, numEvents, mr) =>
      processLines env ip lines (lineNo + 1) numMetrics numEvents mr

/-- The calls one iteration of the loop makes for a line: what `lineStep` appends
to the trace. -/
def lineCalls (env : Env σ) (ip : IP) (lineNo : Nat) (line : List Byte)
    (numMetrics numEvents : Nat) (mr : metricReceiver σ) : List Call :=
  (lineStep env ip lineNo line numMetrics numEvents mr).2.2.2.trace.drop mr.trace.length

/-- The calls the loop makes over a list of lines: what `processLines` appends to
the trace. -/
def linesCalls (env : Env σ) (ip : IP) (lines : List (List Byte)) (lineNo : Nat)
    (numMetrics numEvents : Nat) (mr : metricReceiver σ) : List Call :=
  (processLines env ip lines lineNo numMetrics numEvents mr).2.2.2.trace.drop mr.trace.length

/-- The line number of a recorded call. -/
def Call.lineNo : Call → Nat
  | Call.parseLine i _ _ => i
  | Call.DispatchMetric i _ _ => i
  | Call.DispatchEvent i _ _ => i

/-- Whether a recorded call is a call of the handler. -/
def Call.isDispatch : Call → Bool
  | Call.parseLine _ _ _ => false
  | Call.DispatchMetric _ _ _ => true
  | Call.DispatchEvent _ _ _ => true

/-- Whether a recorded call is a call of the lexer. -/
def Call.isParseLine : Call → Bool
  | Call.parseLine _ _ _ => true
  | Call.DispatchMetric _ _ _ => false
  | Call.DispatchEvent _ _ _ => false

/-- A recorded call is one `handlePacket` makes for `line`, for a receiver with
namespace `ns` and tags `tags`, a packet with source IP `ip` and clock readings
numbered from `lo` up to `hi` (excluded): a lexer call is on the line and records
its result; a dispatched metric is the metric the lexer returned without error,
with the tags appended and the source IP set; a dispatched event is the event the
lexer returned without error and without metric, with the tags appended, the
source IP set and the date stamped by a clock reading when it was zero. -/
def Call.madeFor (env : Env σ) (ns : String) (tags : Tags) (ip : IP) (lo hi : Nat)
    (line : List Byte) : Call → Prop
  | Call.parseLine _ l res => l = line ∧ res = env.run line ns
  | Call.DispatchMetric _ m _ =>
    (env.run line ns).err = none ∧
      ∃ m0, (env.run line ns).metric = some m0 ∧
        m = { m0 with Tags := m0.Tags ++ tags, SourceIP := ip }
  | Call.DispatchEvent _ e _ =>
    (env.run line ns).err = none ∧ (env.run line ns).metric = none ∧
      ∃ e0, (env.run line ns).event = some e0 ∧
        e.Title = e0.Title ∧ e.Text = e0.Text ∧ e.Tags = e0.Tags ++ tags ∧ e.SourceIP = ip ∧
        (e0.DateHappened ≠ 0 → e.DateHappened = e0.DateHappened) ∧
        (e0.DateHappened = 0 → ∃ k, lo ≤ k ∧ k < hi ∧ e.DateHappened = (env.now k).Unix)

/-- The error a recorded call of the handler returned, if any. -/
def Call.dispatchError : Call → Option GoError
  | Call.parseLine _ _ _ => none
  | Call.DispatchMetric _ _ res => res
  | Call.DispatchEvent _ _ res => res

/-- Whether a recorded call is a call of the lexer that returned an error. -/
def Call.isBadLine : Call → Bool
  | Call.parseLine _ _ res => res.err.isSome
  | Call.DispatchMetric _ _ _ => false
  | Call.DispatchEvent _ _ _ => false

/-- Whether a recorded call is a call of `DispatchMetric`. -/
def Call.isDispatchMetric : Call → Bool
  | Call.parseLine _ _ _ => false
  | Call.DispatchMetric _ _ _ => true
  | Call.DispatchEvent _ _ _ => false

/-- Whether a recorded call is a call of `DispatchEvent`. -/
def Call.isDispatchEvent : Call → Bool
  | Call.parseLine _ _ _ => false
  | Call.DispatchMetric _ _ _ => false
  | Call.DispatchEvent _ _ _ => true

/-- The handler's state after a recorded call, from its state before: the call is
made again on the handler. -/
def Call.replay (env : Env σ) (h : σ) : Call → σ
  | Call.parseLine _ _ _ => h
  | Call.DispatchMetric _ m _ => (env.DispatchMetric h m).1
  | Call.DispatchEvent _ e _ => (env.DispatchEvent h e).1

/-- The number of lines the loop reads before it is left, over a list of lines. -/
def linesDone (env : Env σ) (ip : IP) :
    List (List Byte) → Nat → Nat → Nat → metricReceiver σ → Nat
  | [], _, _, _, _ => 0
  | line :: lines, lineNo, numMetrics, numEvents, mr =>
    match lineStep env ip lineNo line numMetrics numEvents mr with
    | (some _, _, _, _) => 1
    | (none, numMetrics, numEvents, mr) =>
      linesDone env ip lines (lineNo + 1) numMetrics numEvents mr + 1

/-- One call comes before another in a packet: it is made for an earlier line, or
it is the lexer call of the line the other one dispatches. -/
def Call.before (a b : Call) : Prop :=
  a.lineNo < b.lineNo ∨ (a.lineNo = b.lineNo ∧ a.isParseLine = true ∧ b.isDispatch = true)

/-- The handler's state after a list of recorded calls. -/
def replayCalls (env : Env σ) (h : σ) (cs : List Call) : σ :=
  cs.foldl (Call.replay env) h

/-- The line a recorded lexer call was made on. -/
def Call.lexedLine : Call → Option (List Byte)
  | Call.parseLine _ line _ => some line
  | Call.DispatchMetric _ _ _ => none
  | Call.DispatchEvent _ _ _ => none

/-- A line the loop reads gives a unit to dispatch when it is longer than one byte
and the lexer, run with namespace `ns`, returns no error for it. -/
def yieldsUnit (env : Env σ) (ns : String) (line : List Byte) : Bool :=
  decide (1 < line.length) && (env.run line ns).err.isNone

/-- A line the loop reads is a bad line when it is longer than one byte and the
lexer, run with namespace `ns`, returns an error for it. -/
def isBadLine (env : Env σ) (ns : String) (line : List Byte) : Bool :=
  decide (1 < line.length) && (env.run line ns).err.isSome

/-- The calls `handlePacket` makes: what it appends to the trace. -/
def packetCalls (env : Env σ) (mr : metricReceiver σ) (addr msg : List Byte) : List Call :=
  (handlePacket env mr addr msg).2.trace.drop mr.trace.length

/-- The calls of the handler `handlePacket` makes, in the order it makes them. -/
def dispatchCalls (env : Env σ) (mr : metricReceiver σ) (addr msg : List Byte) : List Call :=
  (packetCalls env mr addr msg).filter Call.isDispatch

/-- The lines `handlePacket` passes to the lexer, in the order it does. -/
def lexedLines (env : Env σ) (mr : metricReceiver σ) (addr msg : List Byte) :
    List (List Byte) :=
  (packetCalls env mr addr msg).filterMap Call.lexedLine

/-- The number of lines of the datagram `handlePacket` reads: all of them when it
returns nil, and otherwise the lines up to the one of its last call. -/
def linesRead (env : Env σ) (mr : metricReceiver σ) (addr msg : List Byte) : Nat :=
  match (handlePacket env mr addr msg).1 with
  | Exit.ret none => (splitLines msg).length
  | _ =>
    match (packetCalls env mr addr msg).getLast? with
    | some c => c.lineNo + 1
    | none => 0

/-- A lexer for the examples: a line starting with `m` is a metric with tag `a`, a
line starting with `e` is an event with tag `b` and no date, a line starting with
`z` gives neither a unit nor an error, and any other line is an error. -/
def exampleRun (line : List Byte) (ns : String) : LexResult :=
  if line.head? = some 109 then ⟨some ⟨ns, ["a"], []⟩, none, none⟩
  else if line.head? = some 101 then ⟨none, some ⟨ns, "text", 0, ["b"], []⟩, none⟩
  else if line.head? = some 122 then ⟨none, none, none⟩
  else ⟨none, none, some (GoError.other 1)⟩

/-- Collaborators for the examples: the lexer `exampleRun`, a handler that counts
its calls and fails on call number `failAt` (from zero), and a clock whose readings
are `clock`. -/
def exampleEnv (failAt : Nat) (clock : Nat → Time) : Env Nat where
  run := exampleRun
  DispatchMetric := fun n _ => (n + 1, if n = failAt then some (GoError.other 7) else none)
  DispatchEvent := fun n _ => (n + 1, if n = failAt then some (GoError.other 7) else none)
  now := clock

/-- A receiver for the examples, with namespace `ns` and the tag `env:prod`. -/
def exampleReceiver : metricReceiver Nat where
  lastPacket := 0
  badLines := 0
  packetsReceived := 0
  metricsReceived := 0
  eventsReceived := 0
  handler := 0
  namespace_ := "ns"
  tags := ["env:prod"]
  clockReads := 0
  trace := []

/-- The source address `1:2` of the examples. -/
def exampleAddr : List Byte := [49, 58, 50]

/-- The source IP of the unit a recorded handler call dispatches. -/
def Call.sourceIP : Call → IP
  | Call.parseLine _ _ _ => []
  | Call.DispatchMetric _ m _ => m.SourceIP
  | Call.DispatchEvent _ e _ => e.SourceIP

/-- The receiver after `Receive` has counted a packet it has read (lines 105-106):
packets-received is one more and the time of the last packet is a new reading of
the clock. -/
def countPacket (env : Env σ) (mr : metricReceiver σ) : metricReceiver σ :=
  { mr with packetsReceived := (mr.packetsReceived + 1) % 2 ^ 64,
            lastPacket := (env.now mr.clockReads).UnixNano,
            clockReads := mr.clockReads + 1 }

/-- Collaborators for the examples of cancellation: the lexer `exampleRun` and a
handler that counts its calls and returns `context.Canceled` on call number
`failAt` (from zero). -/
def cancelEnv (failAt : Nat) : Env Nat where
  run := exampleRun
  DispatchMetric := fun n _ => (n + 1, if n = failAt then some GoError.canceled else none)
  DispatchEvent := fun n _ => (n + 1, if n = failAt then some GoError.canceled else none)
  now := fun _ => ⟨5, 0⟩

/-- Whether a read of the socket succeeded. -/
def ReadFrom.isOk : ReadFrom → Bool
  | ReadFrom.ok _ _ => true
  | ReadFrom.fail _ _ => false

/-- The recorded calls made for the line of a given number. -/
def callsOnLine (cs : List Call) (i : Nat) : List Call :=
  cs.filter (fun c => decide (c.lineNo = i))

/-- A recorded call without its line number, which is set to zero. -/
def Call.eraseLineNo : Call → Call
  | Call.parseLine _ line res => Call.parseLine 0 line res
  | Call.DispatchMetric _ m res => Call.DispatchMetric 0 m res
  | Call.DispatchEvent _ e res => Call.DispatchEvent 0 e res

/-- Two states of the receiver are the same but for the line numbers recorded in
their traces. -/
def sameButLineNos (mr mr1 : metricReceiver σ) : Prop :=
  mr1 = { mr with trace := mr1.trace } ∧
    mr1.trace.map Call.eraseLineNo = mr.trace.map Call.eraseLineNo

/-- Two results of the loop are the same but for the line numbers recorded in
their traces. -/
def sameResult (r r1 : Exit × Nat × Nat × metricReceiver σ) : Prop :=
  r1.1 = r.1 ∧ r1.2.1 = r.2.1 ∧ r1.2.2.1 = r.2.2.1 ∧ sameButLineNos r.2.2.2 r1.2.2.2

/-- Whether `handlePacket` reads the clock after a recorded call (lines 163-165):
it does after a lexer call that returned no error, no metric and an event whose
date-happened is zero, and after no other call. -/
def Call.readsClock : Call → Bool
  | Call.parseLine _ _ res =>
    res.err.isNone && res.metric.isNone &&
      (match res.event with
       | some event => decide (event.DateHappened = 0)
       | none => false)
  | Call.DispatchMetric _ _ _ => false
  | Call.DispatchEvent _ _ _ => false

/-- The readings of the clock `handlePacket` has taken when it starts on line `i`:
the readings taken before the packet and one for each earlier call of the packet
after which it reads the clock. -/
def clockReadsAt (env : Env σ) (mr : metricReceiver σ) (addr msg : List Byte) (i : Nat) : Nat :=
  mr.clockReads +
    ((packetCalls env mr addr msg).filter (fun c => decide (c.lineNo < i))).countP Call.readsClock

/-! ## Reading lines from the buffer -/

theorem indexByte_of_not_mem (l : List Byte) (c : Byte) (h : c ∉ l) : indexByte l c = -1 := by
  induction l with
  | nil => rfl
  | cons b bs ih =>
    simp only [List.mem_cons, not_or] at h
    have hb : ¬ b = c := fun e => h.1 e.symm
    simp [indexByte, hb, ih h.2]

theorem indexByte_append (l rest : List Byte) (c : Byte) (h : c ∉ l) :
    indexByte (l ++ c :: rest) c = l.length := by
  induction l with
  | nil => simp [indexByte]
  | cons b bs ih =>
    simp only [List.mem_cons, not_or] at h
    have hb : ¬ b = c := fun e => h.1 e.symm
    have : ¬ ((bs.length : Int) < 0) := by omega
    simp [indexByte, hb, ih h.2, this]

theorem readBytes_eof (l : List Byte) (c : Byte) (h : c ∉ l) :
    readBytes l c = (l, some ReadErr.EOF, []) := by
  simp [readBytes, indexByte_of_not_mem l c h]

theorem readBytes_line (l rest : List Byte) (c : Byte) (h : c ∉ l) :
    readBytes (l ++ c :: rest) c = (l ++ [c], none, rest) := by
  have : ¬ ((l.length : Int) < 0) := by omega
  simp [readBytes, indexByte_append l rest c h, this, List.take_append_eq_append_take]

theorem exists_line (buf : List Byte) (c : Byte) :
    c ∉ buf ∨ ∃ l rest, c ∉ l ∧ buf = l ++ c :: rest := by
  induction buf with
  | nil => simp
  | cons b bs ih =>
    by_cases hb : b = c
    · right; exact ⟨[], bs, by simp, by simp [hb]⟩
    · rcases ih with h | ⟨l, rest, hl, rfl⟩
      · left; simp [h, Ne.symm hb]
      · right; exact ⟨b :: l, rest, by simp [hl, Ne.symm hb], by simp⟩

theorem splitLines_ne_nil (buf : List Byte) : splitLines buf ≠ [] := by
  cases buf with
  | nil => simp [splitLines]
  | cons b bs =>
    simp only [splitLines]
    split
    · simp
    · split <;> simp

theorem splitLines_eof (l : List Byte) (h : LF ∉ l) : splitLines l = [l] := by
  induction l with
  | nil => rfl
  | cons b bs ih =>
    simp only [List.mem_cons, not_or] at h
    have hb : ¬ b = LF := fun e => h.1 e.symm
    simp [splitLines, hb, ih h.2]

theorem splitLines_line (l rest : List Byte) (h : LF ∉ l) :
    splitLines (l ++ LF :: rest) = l :: splitLines rest := by
  induction l with
  | nil => simp [splitLines]
  | cons b bs ih =>
    simp only [List.mem_cons, not_or] at h
    have hb : ¬ b = LF := fun e => h.1 e.symm
    simp [splitLines, hb, ih h.2]


theorem handleLoop_nil (env : Env σ) (ip : IP) (fuel lineNo nm ne : Nat) (mr : metricReceiver σ) :
    handleLoop env ip (fuel + 1) [] lineNo nm ne mr = (Exit.ret none, nm, ne, mr) := by
  simp [handleLoop, readBytes, indexByte]

theorem handleLoop_line (env : Env σ) (ip : IP) (fuel lineNo nm ne : Nat) (mr : metricReceiver σ)
    (l rest : List Byte) (h : LF ∉ l) :
    handleLoop env ip (fuel + 1) (l ++ LF :: rest) lineNo nm ne mr =
      match lineStep env ip lineNo l nm ne mr with
      | (some e, nm, ne, mr) => (e, nm, ne, mr)
      | (none, nm, ne, mr) => handleLoop env ip fuel rest (lineNo + 1) nm ne mr := by
  rw [handleLoop, readBytes_line l rest LF h]
  simp only [lineStep]
  by_cases hlen : 1 < l.length
  · rcases hres : parseLine env mr l with ⟨m, e, err⟩
    rcases err with _ | err
    · rcases m with _ | m
      · rcases e with _ | e
        · simp [hlen, hres]
        · by_cases hd : e.DateHappened = 0 <;> simp [hlen, hres, hd] <;> split <;> simp_all
      · simp [hlen, hres]; split <;> simp_all
    · simp [hlen, hres]
  · simp [hlen]

theorem handleLoop_eof (env : Env σ) (ip : IP) (fuel lineNo nm ne : Nat) (mr : metricReceiver σ)
    (l : List Byte) (h : LF ∉ l) :
    handleLoop env ip (fuel + 2) l lineNo nm ne mr =
      match lineStep env ip lineNo l nm ne mr with
      | (some e, nm, ne, mr) => (e, nm, ne, mr)
      | (none, nm, ne, mr) => (Exit.ret none, nm, ne, mr) := by
  rw [handleLoop, readBytes_eof l LF h]
  simp only [lineStep]
  by_cases hlen : 1 < l.length
  · rcases hres : parseLine env mr l with ⟨m, e, err⟩
    rcases err with _ | err
    · rcases m with _ | m
      · rcases e with _ | e
        · simp [hlen, hres]
        · by_cases hd : e.DateHappened = 0 <;> simp [hlen, hres, hd] <;> split <;> simp_all
      · simp [hlen, hres]; split <;> simp_all
    · simp [hlen, hres, handleLoop_nil]
  · simp [hlen]

theorem handleLoop_eq_processLines (env : Env σ) (ip : IP) (fuel : Nat) :
    ∀ (buf : List Byte) (lineNo nm ne : Nat) (mr : metricReceiver σ), buf.length + 2 ≤ fuel →
      handleLoop env ip fuel buf lineNo nm ne mr =
        processLines env ip (splitLines buf) lineNo nm ne mr := by
  induction fuel with
  | zero => intro buf lineNo nm ne mr h; omega
  | succ fuel ih =>
    intro buf lineNo nm ne mr hf
    rcases exists_line buf LF with h | ⟨l, rest, hl, rfl⟩
    · obtain ⟨f, rfl⟩ : ∃ f, fuel = f + 1 := ⟨fuel - 1, by omega⟩
      rw [handleLoop_eof env ip f lineNo nm ne mr buf h, splitLines_eof buf h]
      simp only [processLines]
    · rw [handleLoop_line env ip fuel lineNo nm ne mr l rest hl, splitLines_line l rest hl]
      simp only [processLines]
      split
      · rfl
      · apply ih
        simp at hf
        omega


/-! ## The trace of the loop -/

theorem lineStep_trace (env : Env σ) (ip : IP) (lineNo : Nat) (line : List Byte)
    (nm ne : Nat) (mr : metricReceiver σ) :
    (lineStep env ip lineNo line nm ne mr).2.2.2.trace =
      mr.trace ++ lineCalls env ip lineNo line nm ne mr := by
  unfold lineCalls lineStep
  by_cases hlen : 1 < line.length
  · rcases hres : parseLine env mr line with ⟨m, e, err⟩
    rcases err with _ | err
    · rcases m with _ | m
      · rcases e with _ | e
        · simp [hlen, hres]
        · by_cases hd : e.DateHappened = 0 <;> simp [hlen, hres, hd]
      · simp [hlen, hres]
    · simp [hlen, hres]
  · simp [hlen]

theorem lineStep_config (env : Env σ) (ip : IP) (lineNo : Nat) (line : List Byte)
    (nm ne : Nat) (mr : metricReceiver σ) :
    (lineStep env ip lineNo line nm ne mr).2.2.2.tags = mr.tags ∧
    (lineStep env ip lineNo line nm ne mr).2.2.2.namespace_ = mr.namespace_ := by
  unfold lineStep
  by_cases hlen : 1 < line.length
  · rcases hres : parseLine env mr line with ⟨m, e, err⟩
    rcases err with _ | err
    · rcases m with _ | m
      · rcases e with _ | e
        · simp [hlen, hres]
        · by_cases hd : e.DateHappened = 0 <;> simp [hlen, hres, hd]
      · simp [hlen, hres]
    · simp [hlen, hres]
  · simp [hlen]

theorem processLines_nil (env : Env σ) (ip : IP) (lineNo nm ne : Nat) (mr : metricReceiver σ) :
    processLines env ip [] lineNo nm ne mr = (Exit.ret none, nm, ne, mr) := rfl

theorem processLines_cons (env : Env σ) (ip : IP) (line : List Byte) (lines : List (List Byte))
    (lineNo nm ne : Nat) (mr : metricReceiver σ) :
    processLines env ip (line :: lines) lineNo nm ne mr =
      match (lineStep env ip lineNo line nm ne mr).1 with
      | some e => (e, (lineStep env ip lineNo line nm ne mr).2)
      | none => processLines env ip lines (lineNo + 1)
          (lineStep env ip lineNo line nm ne mr).2.1
          (lineStep env ip lineNo line nm ne mr).2.2.1
          (lineStep env ip lineNo line nm ne mr).2.2.2 := by
  simp only [processLines]
  rcases h : lineStep env ip lineNo line nm ne mr with ⟨_ | e, nm1, ne1, mr1⟩ <;> simp

theorem processLines_trace (env : Env σ) (ip : IP) (lines : List (List Byte)) :
    ∀ (lineNo nm ne : Nat) (mr : metricReceiver σ),
    (processLines env ip lines lineNo nm ne mr).2.2.2.trace =
      mr.trace ++ linesCalls env ip lines lineNo nm ne mr := by
  induction lines with
  | nil => intro lineNo nm ne mr; simp [linesCalls, processLines_nil]
  | cons line lines ih =>
    intro lineNo nm ne mr
    unfold linesCalls
    rw [processLines_cons]
    rcases h : (lineStep env ip lineNo line nm ne mr).1 with _ | e
    · simp only [ih, lineStep_trace]
      simp
    · simp only [lineStep_trace]
      simp

theorem linesCalls_nil (env : Env σ) (ip : IP) (lineNo nm ne : Nat) (mr : metricReceiver σ) :
    linesCalls env ip [] lineNo nm ne mr = [] := by
  simp [linesCalls, processLines_nil]

theorem linesCalls_cons (env : Env σ) (ip : IP) (line : List Byte) (lines : List (List Byte))
    (lineNo nm ne : Nat) (mr : metricReceiver σ) :
    linesCalls env ip (line :: lines) lineNo nm ne mr =
      lineCalls env ip lineNo line nm ne mr ++
      match (lineStep env ip lineNo line nm ne mr).1 with
      | some _ => []
      | none => linesCalls env ip lines (lineNo + 1)
          (lineStep env ip lineNo line nm ne mr).2.1
          (lineStep env ip lineNo line nm ne mr).2.2.1
          (lineStep env ip lineNo line nm ne mr).2.2.2 := by
  conv_lhs => unfold linesCalls
  rw [processLines_cons]
  rcases h : (lineStep env ip lineNo line nm ne mr).1 with _ | e
  · simp only [processLines_trace, lineStep_trace]
    simp
  · simp only [lineStep_trace]
    simp


theorem Call.madeFor_mono (env : Env σ) (ns : String) (tags : Tags) (ip : IP)
    (lo hi lo1 hi1 : Nat) (line : List Byte) (c : Call) (hlo : lo1 ≤ lo) (hhi : hi ≤ hi1)
    (h : c.madeFor env ns tags ip lo hi line) : c.madeFor env ns tags ip lo1 hi1 line := by
  cases c with
  | parseLine i l res => exact h
  | DispatchMetric i m res => exact h
  | DispatchEvent i e res =>
    obtain ⟨h1, h2, e0, h3, h4, h5, h6, h7, h8, h9⟩ := h
    refine ⟨h1, h2, e0, h3, h4, h5, h6, h7, h8, fun hz => ?_⟩
    obtain ⟨k, hk1, hk2, hk3⟩ := h9 hz
    exact ⟨k, by omega, by omega, hk3⟩

theorem lineStep_clockReads (env : Env σ) (ip : IP) (lineNo : Nat) (line : List Byte)
    (nm ne : Nat) (mr : metricReceiver σ) :
    mr.clockReads ≤ (lineStep env ip lineNo line nm ne mr).2.2.2.clockReads := by
  unfold lineStep
  by_cases hlen : 1 < line.length
  · rcases hres : parseLine env mr line with ⟨m, e, err⟩
    rcases err with _ | err
    · rcases m with _ | m
      · rcases e with _ | e
        · simp [hlen, hres]
        · by_cases hd : e.DateHappened = 0 <;> simp [hlen, hres, hd]
      · simp [hlen, hres]
    · simp [hlen, hres]
  · simp [hlen]

theorem lineCalls_madeFor (env : Env σ) (ip : IP) (lineNo : Nat) (line : List Byte)
    (nm ne : Nat) (mr : metricReceiver σ) :
    ∀ c ∈ lineCalls env ip lineNo line nm ne mr,
      c.lineNo = lineNo ∧ 1 < line.length ∧
      c.madeFor env mr.namespace_ mr.tags ip mr.clockReads
        (lineStep env ip lineNo line nm ne mr).2.2.2.clockReads line := by
  unfold lineCalls lineStep
  by_cases hlen : 1 < line.length
  · rcases hres : parseLine env mr line with ⟨m, e, err⟩
    have hrun : env.run line mr.namespace_ = ⟨m, e, err⟩ := hres
    rcases err with _ | err
    · rcases m with _ | m
      · rcases e with _ | e
        · simp [hlen, hres, Call.lineNo, Call.madeFor, hrun]
        · by_cases hd : e.DateHappened = 0
          · simp [hlen, hres, hd, Call.lineNo, Call.madeFor, hrun]
            exact ⟨mr.clockReads, le_refl _, Nat.lt_succ_self _, rfl⟩
          · simp [hlen, hres, hd, Call.lineNo, Call.madeFor, hrun]
      · simp [hlen, hres, Call.lineNo, Call.madeFor, hrun]
    · simp [hlen, hres, Call.lineNo, Call.madeFor, hrun]
  · simp [hlen]

theorem processLines_config (env : Env σ) (ip : IP) (lines : List (List Byte)) :
    ∀ (lineNo nm ne : Nat) (mr : metricReceiver σ),
    (processLines env ip lines lineNo nm ne mr).2.2.2.tags = mr.tags ∧
    (processLines env ip lines lineNo nm ne mr).2.2.2.namespace_ = mr.namespace_ ∧
    mr.clockReads ≤ (processLines env ip lines lineNo nm ne mr).2.2.2.clockReads := by
  induction lines with
  | nil => intro lineNo nm ne mr; simp [processLines_nil]
  | cons line lines ih =>
    intro lineNo nm ne mr
    rw [processLines_cons]
    have hc := lineStep_config env ip lineNo line nm ne mr
    have hk := lineStep_clockReads env ip lineNo line nm ne mr
    rcases h : (lineStep env ip lineNo line nm ne mr).1 with _ | e
    · obtain ⟨h1, h2, h3⟩ := ih (lineNo + 1) (lineStep env ip lineNo line nm ne mr).2.1
        (lineStep env ip lineNo line nm ne mr).2.2.1 (lineStep env ip lineNo line nm ne mr).2.2.2
      exact ⟨h1.trans hc.1, h2.trans hc.2, hk.trans h3⟩
    · exact ⟨hc.1, hc.2, hk⟩

/-- Every call the loop makes over `lines` is made for one of the lines, the one
its line number says, and that line is longer than one byte. -/
theorem linesCalls_madeFor (env : Env σ) (ip : IP) (lines : List (List Byte)) :
    ∀ (lineNo nm ne : Nat) (mr : metricReceiver σ),
    ∀ c ∈ linesCalls env ip lines lineNo nm ne mr,
      ∃ j line, c.lineNo = lineNo + j ∧ lines.get? j = some line ∧ 1 < line.length ∧
        c.madeFor env mr.namespace_ mr.tags ip mr.clockReads
          (processLines env ip lines lineNo nm ne mr).2.2.2.clockReads line := by
  induction lines with
  | nil => intro lineNo nm ne mr c hc; simp [linesCalls_nil] at hc
  | cons line lines ih =>
    intro lineNo nm ne mr c hc
    rw [linesCalls_cons, List.mem_append] at hc
    have hcfg := lineStep_config env ip lineNo line nm ne mr
    have hk := lineStep_clockReads env ip lineNo line nm ne mr
    rw [processLines_cons]
    rcases hc with hc | hc
    · obtain ⟨h1, h2, h3⟩ := lineCalls_madeFor env ip lineNo line nm ne mr c hc
      refine ⟨0, line, by simpa using h1, rfl, h2, ?_⟩
      refine Call.madeFor_mono env _ _ ip _ _ _ _ line c (le_refl _) ?_ h3
      rcases h : (lineStep env ip lineNo line nm ne mr).1 with _ | e
      · exact (processLines_config env ip lines _ _ _ _).2.2
      · exact le_refl _
    · rcases h : (lineStep env ip lineNo line nm ne mr).1 with _ | e
      · rw [h] at hc
        obtain ⟨j, l, h1, h2, h3, h4⟩ := ih _ _ _ _ c hc
        refine ⟨j + 1, l, by omega, by simpa using h2, h3, ?_⟩
        rw [hcfg.1, hcfg.2] at h4
        exact Call.madeFor_mono env _ _ ip _ _ _ _ l c hk (le_refl _) h4
      · rw [h] at hc; simp at hc


/-- The five ways one iteration of the loop can go, with what each does to the
trace, the locals, the bad line counter and the handler. -/
theorem lineStep_cases (env : Env σ) (ip : IP) (lineNo : Nat) (line : List Byte)
    (nm ne : Nat) (mr : metricReceiver σ) :
    (¬ 1 < line.length ∧ lineCalls env ip lineNo line nm ne mr = [] ∧
      lineStep env ip lineNo line nm ne mr = (none, nm, ne, mr)) ∨
    (1 < line.length ∧ (env.run line mr.namespace_).err ≠ none ∧
      lineCalls env ip lineNo line nm ne mr =
        [Call.parseLine lineNo line (env.run line mr.namespace_)] ∧
      (lineStep env ip lineNo line nm ne mr).1 = none ∧
      (lineStep env ip lineNo line nm ne mr).2.1 = nm ∧
      (lineStep env ip lineNo line nm ne mr).2.2.1 = ne ∧
      (lineStep env ip lineNo line nm ne mr).2.2.2.badLines = (mr.badLines + 1) % 2 ^ 64 ∧
      (lineStep env ip lineNo line nm ne mr).2.2.2.handler = mr.handler) ∨
    (1 < line.length ∧ (env.run line mr.namespace_).err = none ∧
      ∃ d, d.isDispatch = true ∧ d.lineNo = lineNo ∧
      lineCalls env ip lineNo line nm ne mr =
        [Call.parseLine lineNo line (env.run line mr.namespace_), d] ∧
      (lineStep env ip lineNo line nm ne mr).1 =
        (if d.dispatchError ≠ none then some (Exit.ret d.dispatchError) else none) ∧
      (lineStep env ip lineNo line nm ne mr).2.1 =
        (if d.isDispatchMetric then (nm + 1) % 2 ^ 16 else nm) ∧
      (lineStep env ip lineNo line nm ne mr).2.2.1 =
        (if d.isDispatchEvent then (ne + 1) % 2 ^ 16 else ne) ∧
      (lineStep env ip lineNo line nm ne mr).2.2.2.badLines = mr.badLines ∧
      (lineStep env ip lineNo line nm ne mr).2.2.2.handler = d.replay env mr.handler) ∨
    (1 < line.length ∧ (env.run line mr.namespace_).err = none ∧
      (env.run line mr.namespace_).metric = none ∧ (env.run line mr.namespace_).event = none ∧
      lineCalls env ip lineNo line nm ne mr =
        [Call.parseLine lineNo line (env.run line mr.namespace_)] ∧
      lineStep env ip lineNo line nm ne mr =
        (some Exit.panic, nm, ne,
          { mr with trace := mr.trace ++
              [Call.parseLine lineNo line (env.run line mr.namespace_)] })) := by
  unfold lineCalls lineStep
  by_cases hlen : 1 < line.length
  · rcases hres : parseLine env mr line with ⟨m, e, err⟩
    have hrun : env.run line mr.namespace_ = ⟨m, e, err⟩ := hres
    rcases err with _ | err
    · rcases m with _ | m
      · rcases e with _ | e
        · simp [hlen, hres, hrun]
        · by_cases hd : e.DateHappened = 0
          · right; right; left
            simp [hlen, hres, hd, hrun]
            refine ⟨Call.DispatchEvent lineNo _ _, ?_, ?_, rfl, ?_⟩ <;>
              simp [Call.dispatchError, Call.isDispatchMetric, Call.isDispatchEvent, Call.replay,
                Call.isDispatch, Call.lineNo]
          · right; right; left
            simp [hlen, hres, hd, hrun]
            refine ⟨Call.DispatchEvent lineNo _ _, ?_, ?_, rfl, ?_⟩ <;>
              simp [Call.dispatchError, Call.isDispatchMetric, Call.isDispatchEvent, Call.replay,
                Call.isDispatch, Call.lineNo]
      · right; right; left
        simp [hlen, hres, hrun]
        refine ⟨Call.DispatchMetric lineNo _ _, ?_, ?_, rfl, ?_⟩ <;>
          simp [Call.dispatchError, Call.isDispatchMetric, Call.isDispatchEvent, Call.replay,
            Call.isDispatch, Call.lineNo]
    · simp [hlen, hres, hrun]
  · simp [hlen]


theorem linesDone_cons (env : Env σ) (ip : IP) (line : List Byte) (lines : List (List Byte))
    (lineNo nm ne : Nat) (mr : metricReceiver σ) :
    linesDone env ip (line :: lines) lineNo nm ne mr =
      match (lineStep env ip lineNo line nm ne mr).1 with
      | some _ => 1
      | none => linesDone env ip lines (lineNo + 1)
          (lineStep env ip lineNo line nm ne mr).2.1
          (lineStep env ip lineNo line nm ne mr).2.2.1
          (lineStep env ip lineNo line nm ne mr).2.2.2 + 1 := by
  simp only [linesDone]
  rcases h : lineStep env ip lineNo line nm ne mr with ⟨_ | e, nm1, ne1, mr1⟩ <;> simp

theorem linesDone_le (env : Env σ) (ip : IP) (lines : List (List Byte)) :
    ∀ (lineNo nm ne : Nat) (mr : metricReceiver σ),
    linesDone env ip lines lineNo nm ne mr ≤ lines.length := by
  induction lines with
  | nil => intro lineNo nm ne mr; simp [linesDone]
  | cons line lines ih =>
    intro lineNo nm ne mr
    rw [linesDone_cons]
    rcases h : (lineStep env ip lineNo line nm ne mr).1 with _ | e
    · simpa using ih _ _ _ _
    · simp

/-- The line numbers of the calls made over `lines` lie from the first line
number up to the number of lines read. -/
theorem linesCalls_lineNo (env : Env σ) (ip : IP) (lines : List (List Byte)) :
    ∀ (lineNo nm ne : Nat) (mr : metricReceiver σ),
    ∀ c ∈ linesCalls env ip lines lineNo nm ne mr,
      lineNo ≤ c.lineNo ∧ c.lineNo < lineNo + linesDone env ip lines lineNo nm ne mr := by
  induction lines with
  | nil => intro lineNo nm ne mr c hc; simp [linesCalls_nil] at hc
  | cons line lines ih =>
    intro lineNo nm ne mr c hc
    rw [linesCalls_cons, List.mem_append] at hc
    rw [linesDone_cons]
    rcases hc with hc | hc
    · have h1 := (lineCalls_madeFor env ip lineNo line nm ne mr c hc).1
      rcases h : (lineStep env ip lineNo line nm ne mr).1 with _ | e <;> dsimp only
      · generalize linesDone env ip lines _ _ _ _ = X
        show lineNo ≤ c.lineNo ∧ c.lineNo < lineNo + (X + 1)
        omega
      · show lineNo ≤ c.lineNo ∧ c.lineNo < lineNo + 1
        omega
    · rcases h : (lineStep env ip lineNo line nm ne mr).1 with _ | e
      · rw [h] at hc
        have := ih _ _ _ _ c hc
        dsimp only
        generalize linesDone env ip lines _ _ _ _ = X at this ⊢
        show lineNo ≤ c.lineNo ∧ c.lineNo < lineNo + (X + 1)
        omega
      · rw [h] at hc; simp at hc

theorem lineCalls_pairwise (env : Env σ) (ip : IP) (lineNo : Nat) (line : List Byte)
    (nm ne : Nat) (mr : metricReceiver σ) :
    (lineCalls env ip lineNo line nm ne mr).Pairwise Call.before := by
  rcases lineStep_cases env ip lineNo line nm ne mr with
    ⟨_, h, _⟩ | ⟨_, _, h, _⟩ | ⟨_, _, d, hd, hl, h, _⟩ | ⟨_, _, _, _, h, _⟩
  · simp [h]
  · simp [h]
  · rw [h]
    refine List.pairwise_pair.mpr (Or.inr ⟨?_, rfl, hd⟩)
    rw [hl]; rfl
  · simp [h]

/-- The calls made over `lines` come in the order of the lines, the lexer call of
a line before its dispatch. -/
theorem linesCalls_pairwise (env : Env σ) (ip : IP) (lines : List (List Byte)) :
    ∀ (lineNo nm ne : Nat) (mr : metricReceiver σ),
    (linesCalls env ip lines lineNo nm ne mr).Pairwise Call.before := by
  induction lines with
  | nil => intro lineNo nm ne mr; simp [linesCalls_nil]
  | cons line lines ih =>
    intro lineNo nm ne mr
    rw [linesCalls_cons, List.pairwise_append]
    refine ⟨lineCalls_pairwise env ip lineNo line nm ne mr, ?_, ?_⟩
    · rcases h : (lineStep env ip lineNo line nm ne mr).1 with _ | e
      · exact ih _ _ _ _
      · simp
    · intro a ha b hb
      rcases h : (lineStep env ip lineNo line nm ne mr).1 with _ | e
      · rw [h] at hb
        have h1 := (lineCalls_madeFor env ip lineNo line nm ne mr a ha).1
        have h2 := (linesCalls_lineNo env ip lines _ _ _ _ b hb).1
        left; omega
      · rw [h] at hb; simp at hb


theorem lineStep_frame (env : Env σ) (ip : IP) (lineNo : Nat) (line : List Byte)
    (nm ne : Nat) (mr : metricReceiver σ) :
    (lineStep env ip lineNo line nm ne mr).2.2.2.metricsReceived = mr.metricsReceived ∧
    (lineStep env ip lineNo line nm ne mr).2.2.2.eventsReceived = mr.eventsReceived ∧
    (lineStep env ip lineNo line nm ne mr).2.2.2.packetsReceived = mr.packetsReceived ∧
    (lineStep env ip lineNo line nm ne mr).2.2.2.lastPacket = mr.lastPacket := by
  unfold lineStep
  by_cases hlen : 1 < line.length
  · rcases hres : parseLine env mr line with ⟨m, e, err⟩
    rcases err with _ | err
    · rcases m with _ | m
      · rcases e with _ | e
        · simp [hlen, hres]
        · by_cases hd : e.DateHappened = 0 <;> simp [hlen, hres, hd]
      · simp [hlen, hres]
    · simp [hlen, hres]
  · simp [hlen]

theorem lineStep_counts (env : Env σ) (ip : IP) (lineNo : Nat) (line : List Byte)
    (nm ne : Nat) (mr : metricReceiver σ) :
    (lineStep env ip lineNo line nm ne mr).2.2.2.badLines % 2 ^ 64 =
      (mr.badLines + (lineCalls env ip lineNo line nm ne mr).countP Call.isBadLine) % 2 ^ 64 ∧
    (lineStep env ip lineNo line nm ne mr).2.1 % 2 ^ 16 =
      (nm + (lineCalls env ip lineNo line nm ne mr).countP Call.isDispatchMetric) % 2 ^ 16 ∧
    (lineStep env ip lineNo line nm ne mr).2.2.1 % 2 ^ 16 =
      (ne + (lineCalls env ip lineNo line nm ne mr).countP Call.isDispatchEvent) % 2 ^ 16 ∧
    (lineStep env ip lineNo line nm ne mr).2.2.2.handler =
      replayCalls env mr.handler (lineCalls env ip lineNo line nm ne mr) := by
  rcases lineStep_cases env ip lineNo line nm ne mr with
    ⟨_, h, hs⟩ | ⟨_, he, h, _, h1, h2, h3, h4⟩ | ⟨_, he, d, hd, _, h, _, h1, h2, h3, h4⟩ |
    ⟨_, he, _, _, h, hs⟩
  · simp [h, hs, replayCalls]
  · have hb : (env.run line mr.namespace_).err.isSome = true := by
      cases hx : (env.run line mr.namespace_).err with
      | none => exact absurd hx he
      | some v => rfl
    simp [h, h1, h2, h3, h4, replayCalls, Call.isBadLine, Call.isDispatchMetric,
      Call.isDispatchEvent, Call.replay, hb]
  · rw [h, h1, h2, h3, h4]
    cases d with
    | parseLine i l r => simp [Call.isDispatch] at hd
    | DispatchMetric i m r =>
      simp [replayCalls, Call.isBadLine, Call.isDispatchMetric, Call.isDispatchEvent,
        Call.replay, he, List.countP_cons]
    | DispatchEvent i e r =>
      simp [replayCalls, Call.isBadLine, Call.isDispatchMetric, Call.isDispatchEvent,
        Call.replay, he, List.countP_cons]
  · simp [h, hs, replayCalls, Call.isBadLine, Call.isDispatchMetric, Call.isDispatchEvent,
      Call.replay, he]

/-- What the loop does to the counters and to the handler, in terms of the calls
it makes: the bad line counter goes up by the number of lexer calls that returned
an error, `numMetrics` and `numEvents` by the numbers of `DispatchMetric` and
`DispatchEvent` calls, and the handler has taken the calls in order. -/
theorem processLines_counts (env : Env σ) (ip : IP) (lines : List (List Byte)) :
    ∀ (lineNo nm ne : Nat) (mr : metricReceiver σ),
    (processLines env ip lines lineNo nm ne mr).2.2.2.badLines % 2 ^ 64 =
      (mr.badLines + (linesCalls env ip lines lineNo nm ne mr).countP Call.isBadLine) % 2 ^ 64 ∧
    (processLines env ip lines lineNo nm ne mr).2.1 % 2 ^ 16 =
      (nm + (linesCalls env ip lines lineNo nm ne mr).countP Call.isDispatchMetric) % 2 ^ 16 ∧
    (processLines env ip lines lineNo nm ne mr).2.2.1 % 2 ^ 16 =
      (ne + (linesCalls env ip lines lineNo nm ne mr).countP Call.isDispatchEvent) % 2 ^ 16 ∧
    (processLines env ip lines lineNo nm ne mr).2.2.2.handler =
      replayCalls env mr.handler (linesCalls env ip lines lineNo nm ne mr) := by
  induction lines with
  | nil => intro lineNo nm ne mr; simp [processLines_nil, linesCalls_nil, replayCalls]
  | cons line lines ih =>
    intro lineNo nm ne mr
    rw [processLines_cons, linesCalls_cons]
    obtain ⟨s1, s2, s3, s4⟩ := lineStep_counts env ip lineNo line nm ne mr
    rcases h : (lineStep env ip lineNo line nm ne mr).1 with _ | e
    · obtain ⟨i1, i2, i3, i4⟩ := ih (lineNo + 1) (lineStep env ip lineNo line nm ne mr).2.1
        (lineStep env ip lineNo line nm ne mr).2.2.1 (lineStep env ip lineNo line nm ne mr).2.2.2
      dsimp only
      refine ⟨?_, ?_, ?_, ?_⟩
      · rw [i1, List.countP_append, Nat.add_mod, s1]; omega
      · rw [i2, List.countP_append, Nat.add_mod, s2]; omega
      · rw [i3, List.countP_append, Nat.add_mod, s3]; omega
      · rw [i4, s4, replayCalls, replayCalls, replayCalls, List.foldl_append]
    · dsimp only
      simpa using ⟨s1, s2, s3, s4⟩

theorem processLines_frame (env : Env σ) (ip : IP) (lines : List (List Byte)) :
    ∀ (lineNo nm ne : Nat) (mr : metricReceiver σ),
    (processLines env ip lines lineNo nm ne mr).2.2.2.metricsReceived = mr.metricsReceived ∧
    (processLines env ip lines lineNo nm ne mr).2.2.2.eventsReceived = mr.eventsReceived ∧
    (processLines env ip lines lineNo nm ne mr).2.2.2.packetsReceived = mr.packetsReceived ∧
    (processLines env ip lines lineNo nm ne mr).2.2.2.lastPacket = mr.lastPacket := by
  induction lines with
  | nil => intro lineNo nm ne mr; simp [processLines_nil]
  | cons line lines ih =>
    intro lineNo nm ne mr
    rw [processLines_cons]
    obtain ⟨s1, s2, s3, s4⟩ := lineStep_frame env ip lineNo line nm ne mr
    rcases h : (lineStep env ip lineNo line nm ne mr).1 with _ | e
    · obtain ⟨i1, i2, i3, i4⟩ := ih (lineNo + 1) (lineStep env ip lineNo line nm ne mr).2.1
        (lineStep env ip lineNo line nm ne mr).2.2.1 (lineStep env ip lineNo line nm ne mr).2.2.2
      exact ⟨i1.trans s1, i2.trans s2, i3.trans s3, i4.trans s4⟩
    · exact ⟨s1, s2, s3, s4⟩


/-- The lines passed to the lexer are the lines read that are longer than a byte. -/
theorem linesCalls_lexedLine (env : Env σ) (ip : IP) (lines : List (List Byte)) :
    ∀ (lineNo nm ne : Nat) (mr : metricReceiver σ),
    (linesCalls env ip lines lineNo nm ne mr).filterMap Call.lexedLine =
      (lines.take (linesDone env ip lines lineNo nm ne mr)).filter (fun l => 1 < l.length) := by
  induction lines with
  | nil => intro lineNo nm ne mr; simp [linesCalls_nil]
  | cons line lines ih =>
    intro lineNo nm ne mr
    rw [linesCalls_cons, linesDone_cons, List.filterMap_append]
    have hl : (lineCalls env ip lineNo line nm ne mr).filterMap Call.lexedLine =
        [line].filter (fun l => 1 < l.length) := by
      rcases lineStep_cases env ip lineNo line nm ne mr with
        ⟨hlen, h, _⟩ | ⟨hlen, _, h, _⟩ | ⟨hlen, _, d, hd, _, h, _⟩ | ⟨hlen, _, _, _, h, _⟩
      · simp [h, hlen]
      · simp [h, hlen, Call.lexedLine]
      · rw [h]
        cases d with
        | parseLine i l r => simp [Call.isDispatch] at hd
        | DispatchMetric i m r => simp [hlen, Call.lexedLine]
        | DispatchEvent i e r => simp [hlen, Call.lexedLine]
      · simp [h, hlen, Call.lexedLine]
    rw [hl]
    rcases h : (lineStep env ip lineNo line nm ne mr).1 with _ | e
    · dsimp only
      rw [ih, List.take_succ_cons, ← List.filter_append]
      rfl
    · simp

theorem lineStep_none_dispatchError (env : Env σ) (ip : IP) (lineNo : Nat) (line : List Byte)
    (nm ne : Nat) (mr : metricReceiver σ)
    (hs : (lineStep env ip lineNo line nm ne mr).1 = none) :
    ∀ c ∈ lineCalls env ip lineNo line nm ne mr, c.dispatchError = none := by
  intro c hc
  rcases lineStep_cases env ip lineNo line nm ne mr with
    ⟨_, h, _⟩ | ⟨_, _, h, _⟩ | ⟨_, _, d, hd, _, h, hs1, _⟩ | ⟨_, _, _, _, _, hs1⟩
  · simp [h] at hc
  · rw [h, List.mem_singleton] at hc
    rw [hc]; rfl
  · rw [h] at hc
    simp only [List.mem_cons, List.mem_singleton, List.not_mem_nil, or_false] at hc
    rcases hc with rfl | rfl
    · rfl
    · rw [hs] at hs1
      by_contra hne
      simp [hne] at hs1
  · rw [hs1] at hs
    simp at hs

/-- How the loop over `lines` ends: it reads every line and returns nil, no
dispatch having failed; or its last call is a dispatch that failed, the only one,
whose error it returns; or its last call is a lexer call that returned nothing,
and it panics. -/
theorem processLines_exit (env : Env σ) (ip : IP) (lines : List (List Byte)) :
    ∀ (lineNo nm ne : Nat) (mr : metricReceiver σ),
    ((processLines env ip lines lineNo nm ne mr).1 = Exit.ret none ∧
      linesDone env ip lines lineNo nm ne mr = lines.length ∧
      ∀ c ∈ linesCalls env ip lines lineNo nm ne mr, c.dispatchError = none) ∨
    (∃ pre c err, linesCalls env ip lines lineNo nm ne mr = pre ++ [c] ∧
      c.isDispatch = true ∧ c.dispatchError = some err ∧
      (processLines env ip lines lineNo nm ne mr).1 = Exit.ret (some err) ∧
      c.lineNo + 1 = lineNo + linesDone env ip lines lineNo nm ne mr ∧
      ∀ c1 ∈ pre, c1.dispatchError = none) ∨
    (∃ pre i l res, linesCalls env ip lines lineNo nm ne mr = pre ++ [Call.parseLine i l res] ∧
      res.err = none ∧ res.metric = none ∧ res.event = none ∧
      (processLines env ip lines lineNo nm ne mr).1 = Exit.panic ∧
      i + 1 = lineNo + linesDone env ip lines lineNo nm ne mr ∧
      ∀ c1 ∈ pre, c1.dispatchError = none) := by
  induction lines with
  | nil => intro lineNo nm ne mr; simp [processLines_nil, linesCalls_nil, linesDone]
  | cons line lines ih =>
    intro lineNo nm ne mr
    rw [processLines_cons, linesCalls_cons, linesDone_cons]
    rcases hs : (lineStep env ip lineNo line nm ne mr).1 with _ | ex
    · have hall := lineStep_none_dispatchError env ip lineNo line nm ne mr hs
      dsimp only
      rcases ih (lineNo + 1) (lineStep env ip lineNo line nm ne mr).2.1
        (lineStep env ip lineNo line nm ne mr).2.2.1 (lineStep env ip lineNo line nm ne mr).2.2.2
        with ⟨e1, e2, e3⟩ | ⟨pre, c, err, e1, e2, e3, e4, e5, e6⟩ |
          ⟨pre, i, l, res, e1, e2, e3, e4, e5, e6, e7⟩
      · refine Or.inl ⟨e1, by rw [e2]; rfl, ?_⟩
        intro c hc
        rcases List.mem_append.mp hc with hc | hc
        · exact hall c hc
        · exact e3 c hc
      · refine Or.inr (Or.inl ⟨lineCalls env ip lineNo line nm ne mr ++ pre, c, err,
          by rw [e1, List.append_assoc], e2, e3, e4, ?_, ?_⟩)
        · generalize linesDone env ip lines _ _ _ _ = X at e5 ⊢
          show c.lineNo + 1 = lineNo + (X + 1)
          omega
        · intro c1 hc1
          rcases List.mem_append.mp hc1 with hc1 | hc1
          · exact hall c1 hc1
          · exact e6 c1 hc1
      · refine Or.inr (Or.inr ⟨lineCalls env ip lineNo line nm ne mr ++ pre, i, l, res,
          by rw [e1, List.append_assoc], e2, e3, e4, e5, ?_, ?_⟩)
        · generalize linesDone env ip lines _ _ _ _ = X at e6 ⊢
          show i + 1 = lineNo + (X + 1)
          omega
        · intro c1 hc1
          rcases List.mem_append.mp hc1 with hc1 | hc1
          · exact hall c1 hc1
          · exact e7 c1 hc1
    · dsimp only
      rcases lineStep_cases env ip lineNo line nm ne mr with
        ⟨hlen, h, hs1⟩ | ⟨hlen, _, h, hs1, _⟩ | ⟨hlen, _, d, hd, hdl, h, hs1, _⟩ |
        ⟨hlen, h1, h2, h3, h, hs1⟩
      · rw [hs1] at hs; simp at hs
      · rw [hs1] at hs; simp at hs
      · cases hde : d.dispatchError with
        | none => rw [hs1, hde] at hs; simp at hs
        | some err =>
          rw [hs1, hde] at hs
          simp only [ne_eq, reduceCtorEq, not_false_eq_true, if_true, Option.some.injEq] at hs
          subst hs
          refine Or.inr (Or.inl ⟨[Call.parseLine lineNo line (env.run line mr.namespace_)], d,
            err, by rw [h]; rfl, hd, hde, rfl, by rw [hdl], ?_⟩)
          intro c1 hc1
          simp only [List.mem_singleton] at hc1
          rw [hc1]; rfl
      · rw [hs1] at hs
        simp only [Option.some.injEq] at hs
        subst hs
        exact Or.inr (Or.inr ⟨[], lineNo, line, env.run line mr.namespace_, by rw [h]; rfl,
          h1, h2, h3, rfl, rfl, by simp⟩)


/-- The dispatch calls made over `lines` are one for each line read that yields a
unit, but for the line on which the loop panics. -/
theorem linesCalls_dispatch_count (env : Env σ) (ip : IP) (lines : List (List Byte)) :
    ∀ (lineNo nm ne : Nat) (mr : metricReceiver σ),
    (linesCalls env ip lines lineNo nm ne mr).countP Call.isDispatch +
        (if (processLines env ip lines lineNo nm ne mr).1 = Exit.panic then 1 else 0) =
      (lines.take (linesDone env ip lines lineNo nm ne mr)).countP
        (yieldsUnit env mr.namespace_) := by
  induction lines with
  | nil => intro lineNo nm ne mr; simp [linesCalls_nil, processLines_nil]
  | cons line lines ih =>
    intro lineNo nm ne mr
    rw [linesCalls_cons, linesDone_cons, processLines_cons, List.countP_append]
    have hl : (lineCalls env ip lineNo line nm ne mr).countP Call.isDispatch +
        (if (lineStep env ip lineNo line nm ne mr).1 = some Exit.panic then 1 else 0) =
        [line].countP (yieldsUnit env mr.namespace_) := by
      rcases lineStep_cases env ip lineNo line nm ne mr with
        ⟨hlen, h, hs⟩ | ⟨hlen, he, h, hs, _⟩ | ⟨hlen, he, d, hd, _, h, hs, _⟩ |
        ⟨hlen, he, _, _, h, hs⟩
      · simp [h, hs, hlen, yieldsUnit]
      · have hb : (env.run line mr.namespace_).err.isNone = false := by
          cases hx : (env.run line mr.namespace_).err with
          | none => exact absurd hx he
          | some v => rfl
        simp [h, hs, hlen, yieldsUnit, Call.isDispatch, hb]
      · have hp : (lineStep env ip lineNo line nm ne mr).1 ≠ some Exit.panic := by
          rw [hs]; split <;> simp
        have hp0 : (Call.parseLine lineNo line (env.run line mr.namespace_)).isDispatch = false :=
          rfl
        simp [h, hp, hlen, yieldsUnit, hp0, hd, he, List.countP_cons]
      · simp [h, hs, hlen, yieldsUnit, Call.isDispatch, he]
    rcases h : (lineStep env ip lineNo line nm ne mr).1 with _ | e
    · rw [h] at hl
      dsimp only
      have := ih (lineNo + 1) (lineStep env ip lineNo line nm ne mr).2.1
        (lineStep env ip lineNo line nm ne mr).2.2.1 (lineStep env ip lineNo line nm ne mr).2.2.2
      rw [(lineStep_config env ip lineNo line nm ne mr).2] at this
      rw [List.take_succ_cons, List.countP_cons, ← this]
      simp only [List.countP_cons, List.countP_nil] at hl
      simp at hl
      generalize List.countP Call.isDispatch (lineCalls env ip lineNo line nm ne mr) = A at hl ⊢
      generalize List.countP Call.isDispatch (linesCalls env ip lines _ _ _ _) = B
      split <;> split <;> simp_all <;> omega
    · rw [h] at hl
      dsimp only
      simp only [List.countP_nil, Nat.add_zero]
      have : (List.take 1 (line :: lines)) = [line] := rfl
      rw [this, ← hl]
      simp

/-- The lexer calls that returned an error are one for each bad line read. -/
theorem linesCalls_badLine_count (env : Env σ) (ip : IP) (lines : List (List Byte)) :
    ∀ (lineNo nm ne : Nat) (mr : metricReceiver σ),
    (linesCalls env ip lines lineNo nm ne mr).countP Call.isBadLine =
      (lines.take (linesDone env ip lines lineNo nm ne mr)).countP
        (isBadLine env mr.namespace_) := by
  induction lines with
  | nil => intro lineNo nm ne mr; simp [linesCalls_nil]
  | cons line lines ih =>
    intro lineNo nm ne mr
    rw [linesCalls_cons, linesDone_cons, List.countP_append]
    have hl : (lineCalls env ip lineNo line nm ne mr).countP Call.isBadLine =
        [line].countP (isBadLine env mr.namespace_) := by
      rcases lineStep_cases env ip lineNo line nm ne mr with
        ⟨hlen, h, hs⟩ | ⟨hlen, he, h, hs, _⟩ | ⟨hlen, he, d, hd, _, h, hs, _⟩ |
        ⟨hlen, he, _, _, h, hs⟩
      · simp [h, hlen, isBadLine]
      · have hb : (env.run line mr.namespace_).err.isSome = true := by
          cases hx : (env.run line mr.namespace_).err with
          | none => exact absurd hx he
          | some v => rfl
        simp [h, hlen, isBadLine, Call.isBadLine, hb]
      · rw [h]
        cases d with
        | parseLine i l r => simp [Call.isDispatch] at hd
        | DispatchMetric i m r => simp [hlen, isBadLine, Call.isBadLine, he, List.countP_cons]
        | DispatchEvent i e r => simp [hlen, isBadLine, Call.isBadLine, he, List.countP_cons]
      · simp [h, hlen, isBadLine, Call.isBadLine, he]
    rw [hl]
    rcases h : (lineStep env ip lineNo line nm ne mr).1 with _ | e
    · dsimp only
      rw [ih, (lineStep_config env ip lineNo line nm ne mr).2, List.take_succ_cons,
        List.countP_cons, List.countP_cons, List.countP_nil]
      omega
    · simp


theorem lineStep_bounds (env : Env σ) (ip : IP) (lineNo : Nat) (line : List Byte)
    (nm ne : Nat) (mr : metricReceiver σ)
    (h1 : nm < 2 ^ 16) (h2 : ne < 2 ^ 16) (h3 : mr.badLines < 2 ^ 64) :
    (lineStep env ip lineNo line nm ne mr).2.1 < 2 ^ 16 ∧
    (lineStep env ip lineNo line nm ne mr).2.2.1 < 2 ^ 16 ∧
    (lineStep env ip lineNo line nm ne mr).2.2.2.badLines < 2 ^ 64 := by
  rcases lineStep_cases env ip lineNo line nm ne mr with
    ⟨_, _, hs⟩ | ⟨_, _, _, _, e1, e2, e3, _⟩ | ⟨_, _, d, _, _, _, _, e1, e2, e3, _⟩ |
    ⟨_, _, _, _, _, hs⟩
  · rw [hs]; exact ⟨h1, h2, h3⟩
  · rw [e1, e2, e3]
    exact ⟨h1, h2, Nat.mod_lt _ (by norm_num)⟩
  · rw [e1, e2, e3]
    refine ⟨?_, ?_, h3⟩
    · split
      · exact Nat.mod_lt _ (by norm_num)
      · exact h1
    · split
      · exact Nat.mod_lt _ (by norm_num)
      · exact h2
  · rw [hs]; exact ⟨h1, h2, h3⟩

theorem processLines_bounds (env : Env σ) (ip : IP) (lines : List (List Byte)) :
    ∀ (lineNo nm ne : Nat) (mr : metricReceiver σ),
    nm < 2 ^ 16 → ne < 2 ^ 16 → mr.badLines < 2 ^ 64 →
    (processLines env ip lines lineNo nm ne mr).2.1 < 2 ^ 16 ∧
    (processLines env ip lines lineNo nm ne mr).2.2.1 < 2 ^ 16 ∧
    (processLines env ip lines lineNo nm ne mr).2.2.2.badLines < 2 ^ 64 := by
  induction lines with
  | nil => intro lineNo nm ne mr h1 h2 h3; exact ⟨h1, h2, h3⟩
  | cons line lines ih =>
    intro lineNo nm ne mr h1 h2 h3
    rw [processLines_cons]
    obtain ⟨s1, s2, s3⟩ := lineStep_bounds env ip lineNo line nm ne mr h1 h2 h3
    rcases h : (lineStep env ip lineNo line nm ne mr).1 with _ | e
    · exact ih _ _ _ _ s1 s2 s3
    · exact ⟨s1, s2, s3⟩

/-- The bytes of a datagram are the bytes of its lines and one line feed between
two lines. -/
theorem splitLines_length (msg : List Byte) :
    ((splitLines msg).map List.length).sum + (splitLines msg).length = msg.length + 1 := by
  induction msg with
  | nil => rfl
  | cons b bs ih =>
    by_cases hb : b = LF
    · simp only [splitLines, hb, if_true, List.map_cons, List.sum_cons, List.length_cons,
        List.length_nil]
      omega
    · simp only [splitLines, hb, if_false]
      cases hsp : splitLines bs with
      | nil => exact absurd hsp (splitLines_ne_nil bs)
      | cons l ls =>
        rw [hsp] at ih
        simp only [List.map_cons, List.sum_cons, List.length_cons] at ih ⊢
        omega

theorem two_mul_countP_le_sum (ls : List (List Byte)) :
    2 * ls.countP (fun l => decide (1 < l.length)) ≤ (ls.map List.length).sum := by
  induction ls with
  | nil => simp
  | cons l ls ih =>
    rw [List.countP_cons, List.map_cons, List.sum_cons]
    by_cases h : 1 < l.length
    · simp only [h, decide_True, if_true]; omega
    · simp only [h, decide_False, Bool.false_eq_true, if_false]; omega

/-- A datagram has at most half as many lines longer than one byte as it has
bytes. -/
theorem long_lines_le (msg : List Byte) :
    2 * (splitLines msg).countP (fun l => decide (1 < l.length)) ≤ msg.length := by
  have h1 := two_mul_countP_le_sum (splitLines msg)
  have h2 := splitLines_length msg
  have h3 : 0 < (splitLines msg).length := List.length_pos.mpr (splitLines_ne_nil msg)
  omega

/-! ## From the loop to `handlePacket` -/

theorem handlePacket_eq (env : Env σ) (mr : metricReceiver σ) (addr msg : List Byte) :
    handlePacket env mr addr msg =
      match processLines env (sourceIP addr) (splitLines msg) 0 0 0 mr with
      | (Exit.ret exitError, numMetrics, numEvents, mr) =>
        (Exit.ret exitError,
          { mr with metricsReceived := (mr.metricsReceived + numMetrics) % 2 ^ 64,
                    eventsReceived := (mr.eventsReceived + numEvents) % 2 ^ 64 })
      | (e, _, _, mr) => (e, mr) := by
  unfold handlePacket
  dsimp only
  rw [handleLoop_eq_processLines env (sourceIP addr) (msg.length + 2) msg 0 0 0 mr (le_refl _)]

theorem handlePacket_exit (env : Env σ) (mr : metricReceiver σ) (addr msg : List Byte) :
    (handlePacket env mr addr msg).1 =
      (processLines env (sourceIP addr) (splitLines msg) 0 0 0 mr).1 := by
  rw [handlePacket_eq]
  rcases processLines env (sourceIP addr) (splitLines msg) 0 0 0 mr with ⟨e, nm, ne, mr1⟩
  cases e <;> rfl

theorem handlePacket_fields (env : Env σ) (mr : metricReceiver σ) (addr msg : List Byte) :
    (handlePacket env mr addr msg).2.trace =
      (processLines env (sourceIP addr) (splitLines msg) 0 0 0 mr).2.2.2.trace ∧
    (handlePacket env mr addr msg).2.badLines =
      (processLines env (sourceIP addr) (splitLines msg) 0 0 0 mr).2.2.2.badLines ∧
    (handlePacket env mr addr msg).2.handler =
      (processLines env (sourceIP addr) (splitLines msg) 0 0 0 mr).2.2.2.handler ∧
    (handlePacket env mr addr msg).2.clockReads =
      (processLines env (sourceIP addr) (splitLines msg) 0 0 0 mr).2.2.2.clockReads ∧
    (handlePacket env mr addr msg).2.tags =
      (processLines env (sourceIP addr) (splitLines msg) 0 0 0 mr).2.2.2.tags ∧
    (handlePacket env mr addr msg).2.namespace_ =
      (processLines env (sourceIP addr) (splitLines msg) 0 0 0 mr).2.2.2.namespace_ ∧
    (handlePacket env mr addr msg).2.packetsReceived =
      (processLines env (sourceIP addr) (splitLines msg) 0 0 0 mr).2.2.2.packetsReceived ∧
    (handlePacket env mr addr msg).2.lastPacket =
      (processLines env (sourceIP addr) (splitLines msg) 0 0 0 mr).2.2.2.lastPacket := by
  rw [handlePacket_eq]
  rcases processLines env (sourceIP addr) (splitLines msg) 0 0 0 mr with ⟨e, nm, ne, mr1⟩
  cases e <;> simp


theorem packetCalls_eq (env : Env σ) (mr : metricReceiver σ) (addr msg : List Byte) :
    packetCalls env mr addr msg = linesCalls env (sourceIP addr) (splitLines msg) 0 0 0 mr := by
  unfold packetCalls linesCalls
  rw [(handlePacket_fields env mr addr msg).1]

theorem handlePacket_trace (env : Env σ) (mr : metricReceiver σ) (addr msg : List Byte) :
    (handlePacket env mr addr msg).2.trace = mr.trace ++ packetCalls env mr addr msg := by
  rw [packetCalls_eq, (handlePacket_fields env mr addr msg).1, processLines_trace]

theorem linesRead_eq (env : Env σ) (mr : metricReceiver σ) (addr msg : List Byte) :
    linesRead env mr addr msg = linesDone env (sourceIP addr) (splitLines msg) 0 0 0 mr := by
  unfold linesRead
  rw [handlePacket_exit, packetCalls_eq]
  rcases processLines_exit env (sourceIP addr) (splitLines msg) 0 0 0 mr with
    ⟨e1, e2, _⟩ | ⟨pre, c, err, e1, _, _, e4, e5, _⟩ | ⟨pre, i, l, res, e1, _, _, _, e5, e6, _⟩
  · rw [e1, e2]
  · rw [e4, e1]
    simp only [List.getLast?_append, List.getLast?_singleton, Option.or]
    omega
  · rw [e5, e1]
    simp only [List.getLast?_append, List.getLast?_singleton, Option.or, Call.lineNo]
    omega


theorem packetCalls_madeFor (env : Env σ) (mr : metricReceiver σ) (addr msg : List Byte) :
    ∀ c ∈ packetCalls env mr addr msg,
      ∃ line, (splitLines msg).get? c.lineNo = some line ∧ 1 < line.length ∧
        c.madeFor env mr.namespace_ mr.tags (sourceIP addr) mr.clockReads
          (handlePacket env mr addr msg).2.clockReads line := by
  intro c hc
  rw [packetCalls_eq] at hc
  obtain ⟨j, line, h1, h2, h3, h4⟩ :=
    linesCalls_madeFor env (sourceIP addr) (splitLines msg) 0 0 0 mr c hc
  rw [Nat.zero_add] at h1
  rw [(handlePacket_fields env mr addr msg).2.2.2.1]
  exact ⟨line, by rw [h1]; exact h2, h3, h4⟩


theorem packetCalls_pairwise (env : Env σ) (mr : metricReceiver σ) (addr msg : List Byte) :
    (packetCalls env mr addr msg).Pairwise Call.before := by
  rw [packetCalls_eq]
  exact linesCalls_pairwise env (sourceIP addr) (splitLines msg) 0 0 0 mr

theorem isParseLine_of_isDispatch (c : Call) (h : c.isDispatch = true) :
    c.isParseLine = false := by
  cases c <;> simp_all [Call.isDispatch, Call.isParseLine]

theorem dispatchCalls_pairwise (env : Env σ) (mr : metricReceiver σ) (addr msg : List Byte) :
    (dispatchCalls env mr addr msg).Pairwise (fun a b => a.lineNo < b.lineNo) := by
  unfold dispatchCalls
  refine List.Pairwise.imp_of_mem ?_
    (List.Pairwise.filter Call.isDispatch (packetCalls_pairwise env mr addr msg))
  intro a b ha _ hab
  rcases hab with h | ⟨_, h, _⟩
  · exact h
  · have := isParseLine_of_isDispatch a (List.mem_filter.mp ha).2
    rw [this] at h
    exact absurd h (by simp)

/-! ## Order, lines and tags of the calls -/

/-- C1. The calls of the handler that `handlePacket` makes for a datagram come in
the textual order of the lines their units were lexed from: along the sequence of
`DispatchMetric` and `DispatchEvent` calls the line numbers increase strictly, so
of two dispatched lines the earlier one is dispatched first, and each call carries
the unit the lexer returned for the line of its number. -/
theorem handlePacket_dispatch_order (env : Env σ) (mr : metricReceiver σ)
    (addr msg : List Byte) :
    (dispatchCalls env mr addr msg).Pairwise (fun a b => a.lineNo < b.lineNo) ∧
    (∀ p q : Fin (dispatchCalls env mr addr msg).length,
      ((dispatchCalls env mr addr msg).get p).lineNo <
        ((dispatchCalls env mr addr msg).get q).lineNo → p < q) ∧
    ∀ c ∈ dispatchCalls env mr addr msg,
      ∃ line, (splitLines msg).get? c.lineNo = some line ∧
        c.madeFor env mr.namespace_ mr.tags (sourceIP addr) mr.clockReads
          (handlePacket env mr addr msg).2.clockReads line := by
  have hp := dispatchCalls_pairwise env mr addr msg
  refine ⟨hp, ?_, ?_⟩
  · intro p q hlt
    by_contra hnot
    rcases Nat.eq_or_lt_of_le (Nat.le_of_not_lt (fun h => hnot (Fin.lt_def.mpr h))) with h | h
    · have : q = p := Fin.ext h
      rw [this] at hlt
      exact Nat.lt_irrefl _ hlt
    · have := List.pairwise_iff_get.mp hp q p (Fin.lt_def.mpr h)
      exact Nat.lt_asymm hlt this
  · intro c hc
    obtain ⟨line, h1, _, h3⟩ :=
      packetCalls_madeFor env mr addr msg c (List.mem_filter.mp hc).1
    exact ⟨line, h1, h3⟩

theorem splitLines_append_LF (msg : List Byte) :
    splitLines (msg ++ [LF]) = splitLines msg ++ [[]] := by
  induction msg with
  | nil => simp [splitLines]
  | cons b bs ih =>
    by_cases hb : b = LF
    · simp [splitLines, hb, ih]
    · cases hsp : splitLines bs with
      | nil => exact absurd hsp (splitLines_ne_nil bs)
      | cons l ls =>
        rw [hsp] at ih
        simp [splitLines, hb, ih, hsp]

theorem processLines_append_empty (env : Env σ) (ip : IP) (lines : List (List Byte)) :
    ∀ (lineNo nm ne : Nat) (mr : metricReceiver σ),
    processLines env ip (lines ++ [[]]) lineNo nm ne mr =
      processLines env ip lines lineNo nm ne mr := by
  induction lines with
  | nil => intro lineNo nm ne mr; simp [processLines, lineStep]
  | cons line lines ih =>
    intro lineNo nm ne mr
    rw [List.cons_append, processLines_cons, processLines_cons]
    rcases h : (lineStep env ip lineNo line nm ne mr).1 with _ | e
    · exact ih _ _ _ _
    · rfl

/-- C4. A datagram and the same datagram followed by one line feed are handled
alike: `handlePacket` returns the same error and leaves the receiver, the handler,
the clock and the trace of lexer and handler calls (with the units dispatched) in
the same state. This holds for every datagram, so for the non-empty ones that do
not end in a line feed. -/
theorem handlePacket_trailing_line_feed (env : Env σ) (mr : metricReceiver σ)
    (addr msg : List Byte) :
    handlePacket env mr addr (msg ++ [LF]) = handlePacket env mr addr msg := by
  rw [handlePacket_eq, handlePacket_eq, splitLines_append_LF, processLines_append_empty]

/-- C5. Every metric and every event `handlePacket` dispatches carries the tags
the lexer produced for its line followed by the tags of the receiver, in that
order and nothing else. -/
theorem handlePacket_tags (env : Env σ) (mr : metricReceiver σ) (addr msg : List Byte) :
    (∀ i m res, Call.DispatchMetric i m res ∈ packetCalls env mr addr msg →
      ∃ line m0, (splitLines msg).get? i = some line ∧
        (parseLine env mr line).metric = some m0 ∧ m.Tags = m0.Tags ++ mr.tags) ∧
    (∀ i e res, Call.DispatchEvent i e res ∈ packetCalls env mr addr msg →
      ∃ line e0, (splitLines msg).get? i = some line ∧
        (parseLine env mr line).event = some e0 ∧ e.Tags = e0.Tags ++ mr.tags) := by
  constructor
  · intro i m res hc
    obtain ⟨line, h1, _, _, m0, h3, h4⟩ := packetCalls_madeFor env mr addr msg _ hc
    exact ⟨line, m0, h1, h3, by rw [h4]⟩
  · intro i e res hc
    obtain ⟨line, h1, _, _, _, e0, h3, _, _, h6, _⟩ := packetCalls_madeFor env mr addr msg _ hc
    exact ⟨line, e0, h1, h3, h6⟩


theorem replayCalls_filter (env : Env σ) (cs : List Call) :
    ∀ h : σ, replayCalls env h (cs.filter Call.isDispatch) = replayCalls env h cs := by
  induction cs with
  | nil => intro h; rfl
  | cons c cs ih =>
    intro h
    cases c with
    | parseLine i l r =>
      simp only [List.filter_cons, Call.isDispatch, Bool.false_eq_true, if_false]
      rw [ih]
      rfl
    | DispatchMetric i m r =>
      simp only [List.filter_cons, Call.isDispatch, if_true]
      unfold replayCalls at ih ⊢
      simp only [List.foldl_cons]
      exact ih _
    | DispatchEvent i e r =>
      simp only [List.filter_cons, Call.isDispatch, if_true]
      unfold replayCalls at ih ⊢
      simp only [List.foldl_cons]
      exact ih _

theorem handlePacket_handler (env : Env σ) (mr : metricReceiver σ) (addr msg : List Byte) :
    (handlePacket env mr addr msg).2.handler =
      replayCalls env mr.handler (dispatchCalls env mr addr msg) := by
  unfold dispatchCalls
  rw [replayCalls_filter, packetCalls_eq, (handlePacket_fields env mr addr msg).2.2.1]
  exact (processLines_counts env (sourceIP addr) (splitLines msg) 0 0 0 mr).2.2.2

theorem lexedLines_eq (env : Env σ) (mr : metricReceiver σ) (addr msg : List Byte) :
    lexedLines env mr addr msg =
      ((splitLines msg).take (linesRead env mr addr msg)).filter (fun l => 1 < l.length) := by
  unfold lexedLines
  rw [packetCalls_eq, linesRead_eq]
  exact linesCalls_lexedLine env (sourceIP addr) (splitLines msg) 0 0 0 mr

theorem linesRead_le (env : Env σ) (mr : metricReceiver σ) (addr msg : List Byte) :
    linesRead env mr addr msg ≤ (splitLines msg).length := by
  rw [linesRead_eq]
  exact linesDone_le env (sourceIP addr) (splitLines msg) 0 0 0 mr

/-- What a failed dispatch does to the packet: it is the last call, its error is
returned, and the lines read are those up to its line. -/
theorem dispatch_error_last (env : Env σ) (mr : metricReceiver σ) (addr msg : List Byte)
    (c : Call) (err : GoError) (hc : c ∈ packetCalls env mr addr msg)
    (herr : c.dispatchError = some err) :
    (handlePacket env mr addr msg).1 = Exit.ret (some err) ∧
    (packetCalls env mr addr msg).getLast? = some c ∧
    linesRead env mr addr msg = c.lineNo + 1 := by
  rw [linesRead_eq, handlePacket_exit]
  rw [packetCalls_eq] at hc ⊢
  rcases processLines_exit env (sourceIP addr) (splitLines msg) 0 0 0 mr with
    ⟨_, _, e3⟩ | ⟨pre, c1, err1, e1, _, e3, e4, e5, e6⟩ | ⟨pre, i, l, res, e1, _, _, _, _, _, e7⟩
  · rw [e3 c hc] at herr; exact absurd herr (by simp)
  · rw [e1] at hc ⊢
    rcases List.mem_append.mp hc with h | h
    · rw [e6 c h] at herr; exact absurd herr (by simp)
    · rw [List.mem_singleton] at h
      subst h
      rw [e3] at herr
      have : err1 = err := Option.some.inj herr
      subst this
      refine ⟨e4, by simp, by omega⟩
  · rw [e1] at hc
    rcases List.mem_append.mp hc with h | h
    · rw [e7 c h] at herr; exact absurd herr (by simp)
    · rw [List.mem_singleton] at h
      subst h
      exact absurd herr (by simp [Call.dispatchError])

/-- C2, amended. If the handler returns an error for the unit of a line of a
packet, line number `k` counted from one, `handlePacket` returns that same error
and that dispatch is its last call: it has read `k` lines, no call is made for a
later line, the lines it has lexed are the lines longer than one byte among the
first `k`, and it has made one dispatch call for each of the first `k` lines that
is longer than one byte and that the lexer did not reject, hence exactly `k` calls
when every one of them is such a line. The handler is in the state the dispatch
calls made, the failing one included, have put it in. -/
theorem handlePacket_dispatch_error (env : Env σ) (mr : metricReceiver σ)
    (addr msg : List Byte) (c : Call) (err : GoError)
    (hc : c ∈ dispatchCalls env mr addr msg) (herr : c.dispatchError = some err) :
    (handlePacket env mr addr msg).1 = Exit.ret (some err) ∧
    (packetCalls env mr addr msg).getLast? = some c ∧
    (∀ c1 ∈ packetCalls env mr addr msg, c1.lineNo ≤ c.lineNo) ∧
    linesRead env mr addr msg = c.lineNo + 1 ∧
    lexedLines env mr addr msg =
      ((splitLines msg).take (c.lineNo + 1)).filter (fun l => 1 < l.length) ∧
    (dispatchCalls env mr addr msg).length =
      ((splitLines msg).take (c.lineNo + 1)).countP (yieldsUnit env mr.namespace_) ∧
    (((splitLines msg).take (c.lineNo + 1)).all (yieldsUnit env mr.namespace_) = true →
      (dispatchCalls env mr addr msg).length = c.lineNo + 1) ∧
    (handlePacket env mr addr msg).2.handler =
      replayCalls env mr.handler (dispatchCalls env mr addr msg) := by
  have hc1 : c ∈ packetCalls env mr addr msg := (List.mem_filter.mp hc).1
  obtain ⟨h1, h2, h3⟩ := dispatch_error_last env mr addr msg c err hc1 herr
  have hcount : (dispatchCalls env mr addr msg).length =
      ((splitLines msg).take (c.lineNo + 1)).countP (yieldsUnit env mr.namespace_) := by
    have := linesCalls_dispatch_count env (sourceIP addr) (splitLines msg) 0 0 0 mr
    rw [← handlePacket_exit, h1, ← linesRead_eq, h3, ← packetCalls_eq] at this
    simp only [reduceCtorEq, if_false, Nat.add_zero] at this
    unfold dispatchCalls
    rw [← List.countP_eq_length_filter]
    exact this
  have hle := linesRead_le env mr addr msg
  refine ⟨h1, h2, ?_, h3, ?_, hcount, ?_, handlePacket_handler env mr addr msg⟩
  · intro c1 h
    rw [packetCalls_eq] at h
    have := (linesCalls_lineNo env (sourceIP addr) (splitLines msg) 0 0 0 mr c1 h).2
    rw [← linesRead_eq, h3] at this
    omega
  · rw [lexedLines_eq, h3]
  · intro hall
    rw [hcount, List.countP_eq_length.mpr]
    · rw [List.length_take]
      omega
    · intro a ha
      exact List.all_eq_true.mp hall a ha

/-- Witness of `handlePacket_dispatch_error`: the handler fails on the second of
three metric lines; two dispatch calls are made and the error is returned. -/
theorem handlePacket_dispatch_error_witness :
    Call.DispatchMetric 1 ⟨"ns", ["a", "env:prod"], [49]⟩ (some (GoError.other 7)) ∈
      dispatchCalls (exampleEnv 1 (fun _ => ⟨0, 0⟩)) exampleReceiver exampleAddr
        [109, 49, 10, 109, 50, 10, 109, 51] ∧
    (handlePacket (exampleEnv 1 (fun _ => ⟨0, 0⟩)) exampleReceiver exampleAddr
        [109, 49, 10, 109, 50, 10, 109, 51]).1 = Exit.ret (some (GoError.other 7)) ∧
    (dispatchCalls (exampleEnv 1 (fun _ => ⟨0, 0⟩)) exampleReceiver exampleAddr
        [109, 49, 10, 109, 50, 10, 109, 51]).length = 2 :=
  have h := handlePacket_dispatch_error (exampleEnv 1 (fun _ => ⟨0, 0⟩)) exampleReceiver
    exampleAddr [109, 49, 10, 109, 50, 10, 109, 51]
    (Call.DispatchMetric 1 ⟨"ns", ["a", "env:prod"], [49]⟩ (some (GoError.other 7)))
    (GoError.other 7) (by decide) rfl
  ⟨by decide, h.1, h.2.2.2.2.2.2.1 (by decide)⟩

/-- C2, counterexample. The packet has the two lines `xx` and `mm`; the lexer
rejects the first and the handler fails on the unit of the second, so `k = 2`, but
one dispatch call is made and not two. -/
theorem dispatch_error_call_count_counterexample :
    splitLines [120, 120, 10, 109, 109] = [[120, 120], [109, 109]] ∧
    dispatchCalls (exampleEnv 0 (fun _ => ⟨0, 0⟩)) exampleReceiver exampleAddr
        [120, 120, 10, 109, 109] =
      [Call.DispatchMetric 1 ⟨"ns", ["a", "env:prod"], [49]⟩ (some (GoError.other 7))] ∧
    (dispatchCalls (exampleEnv 0 (fun _ => ⟨0, 0⟩)) exampleReceiver exampleAddr
        [120, 120, 10, 109, 109]).length ≠ 2 := by
  decide


/-- C3, counterexample. The datagram has the two lines `mm` and `mm`, both longer
than one byte; the handler fails on the first, and the lexer is called for the
first line only. -/
theorem lexer_not_called_after_abort_counterexample :
    (splitLines [109, 109, 10, 109, 109]).filter (fun l => 1 < l.length) =
      [[109, 109], [109, 109]] ∧
    lexedLines (exampleEnv 0 (fun _ => ⟨0, 0⟩)) exampleReceiver exampleAddr
      [109, 109, 10, 109, 109] = [[109, 109]] := by
  decide

/-- C6. `handlePacket` raises the bad line counter, a `uint64`, by the number of
lexer calls that return an error, which is the number of lines it reads that are
longer than one byte and that the lexer rejects, and of all such lines of the
datagram when it returns nil. -/
theorem handlePacket_badLines (env : Env σ) (mr : metricReceiver σ) (addr msg : List Byte)
    (hwf : mr.badLines < 2 ^ 64) :
    (handlePacket env mr addr msg).2.badLines =
      (mr.badLines + (packetCalls env mr addr msg).countP Call.isBadLine) % 2 ^ 64 ∧
    (packetCalls env mr addr msg).countP Call.isBadLine =
      ((splitLines msg).take (linesRead env mr addr msg)).countP
        (isBadLine env mr.namespace_) ∧
    ((handlePacket env mr addr msg).1 = Exit.ret none →
      (packetCalls env mr addr msg).countP Call.isBadLine =
        (splitLines msg).countP (isBadLine env mr.namespace_)) := by
  have hcount : (packetCalls env mr addr msg).countP Call.isBadLine =
      ((splitLines msg).take (linesRead env mr addr msg)).countP
        (isBadLine env mr.namespace_) := by
    rw [packetCalls_eq, linesRead_eq]
    exact linesCalls_badLine_count env (sourceIP addr) (splitLines msg) 0 0 0 mr
  refine ⟨?_, hcount, ?_⟩
  · rw [(handlePacket_fields env mr addr msg).2.1, packetCalls_eq]
    have h1 := (processLines_counts env (sourceIP addr) (splitLines msg) 0 0 0 mr).1
    have h2 := (processLines_bounds env (sourceIP addr) (splitLines msg) 0 0 0 mr
      (by norm_num) (by norm_num) hwf).2.2
    rw [Nat.mod_eq_of_lt h2] at h1
    exact h1
  · intro h
    have : linesRead env mr addr msg = (splitLines msg).length := by
      unfold linesRead
      rw [h]
    rw [hcount, this, List.take_length]

/-- Witness of `handlePacket_badLines`: of the five lines of the datagram the
lexer rejects two, and the counter goes from zero to two. -/
theorem handlePacket_badLines_witness :
    exampleReceiver.badLines < 2 ^ 64 ∧
    (handlePacket (exampleEnv 9 (fun _ => ⟨0, 0⟩)) exampleReceiver exampleAddr
        [120, 120, 10, 109, 109, 10, 10, 121, 121, 10, 120]).2.badLines = 2 :=
  have h := handlePacket_badLines (exampleEnv 9 (fun _ => ⟨0, 0⟩)) exampleReceiver exampleAddr
    [120, 120, 10, 109, 109, 10, 10, 121, 121, 10, 120] (by decide)
  ⟨by decide, h.1.trans (by decide)⟩


theorem handlePacket_received_eq (env : Env σ) (mr : metricReceiver σ) (addr msg : List Byte)
    (h : (handlePacket env mr addr msg).1 ≠ Exit.panic) :
    (handlePacket env mr addr msg).2.metricsReceived =
      (mr.metricsReceived +
        (processLines env (sourceIP addr) (splitLines msg) 0 0 0 mr).2.1) % 2 ^ 64 ∧
    (handlePacket env mr addr msg).2.eventsReceived =
      (mr.eventsReceived +
        (processLines env (sourceIP addr) (splitLines msg) 0 0 0 mr).2.2.1) % 2 ^ 64 := by
  have hx := handlePacket_exit env mr addr msg
  have hf := processLines_frame env (sourceIP addr) (splitLines msg) 0 0 0 mr
  have he := processLines_exit env (sourceIP addr) (splitLines msg) 0 0 0 mr
  rw [hx] at h
  rw [handlePacket_eq]
  rcases hp : processLines env (sourceIP addr) (splitLines msg) 0 0 0 mr with ⟨e, nm, ne, mr1⟩
  rw [hp] at h hf he
  cases e with
  | ret e1 => simp only at hf ⊢; rw [hf.1, hf.2.1]; exact ⟨rfl, rfl⟩
  | panic => exact absurd rfl h
  | outOfFuel =>
    rcases he with ⟨e1, _⟩ | ⟨_, _, _, _, _, _, e1, _⟩ | ⟨_, _, _, _, _, _, _, _, e1, _⟩ <;>
      simp at e1

theorem isDispatch_of_isDispatchMetric (c : Call) (h : c.isDispatchMetric = true) :
    c.isDispatch = true := by
  cases c <;> simp_all [Call.isDispatch, Call.isDispatchMetric]

theorem isDispatch_of_isDispatchEvent (c : Call) (h : c.isDispatchEvent = true) :
    c.isDispatch = true := by
  cases c <;> simp_all [Call.isDispatch, Call.isDispatchEvent]

/-- A packet has at most half as many dispatch calls as the datagram has bytes. -/
theorem dispatch_count_le (env : Env σ) (mr : metricReceiver σ) (addr msg : List Byte) :
    2 * (packetCalls env mr addr msg).countP Call.isDispatch ≤ msg.length := by
  have h1 := linesCalls_dispatch_count env (sourceIP addr) (splitLines msg) 0 0 0 mr
  rw [← packetCalls_eq] at h1
  have h2 : ((splitLines msg).take
      (linesDone env (sourceIP addr) (splitLines msg) 0 0 0 mr)).countP
        (yieldsUnit env mr.namespace_) ≤
      ((splitLines msg).take
        (linesDone env (sourceIP addr) (splitLines msg) 0 0 0 mr)).countP
          (fun l => decide (1 < l.length)) := by
    apply List.countP_mono_left
    intro l _ hl
    unfold yieldsUnit at hl
    exact (Bool.and_eq_true _ _ ▸ hl).1
  have h3 := List.Sublist.countP_le (fun l : List Byte => decide (1 < l.length))
    (List.take_sublist (linesDone env (sourceIP addr) (splitLines msg) 0 0 0 mr) (splitLines msg))
  have h4 := long_lines_le msg
  omega

theorem lineStep_locals_lt (env : Env σ) (ip : IP) (lineNo : Nat) (line : List Byte)
    (nm ne : Nat) (mr : metricReceiver σ) (h1 : nm < 2 ^ 16) (h2 : ne < 2 ^ 16) :
    (lineStep env ip lineNo line nm ne mr).2.1 < 2 ^ 16 ∧
    (lineStep env ip lineNo line nm ne mr).2.2.1 < 2 ^ 16 := by
  rcases lineStep_cases env ip lineNo line nm ne mr with
    ⟨_, _, hs⟩ | ⟨_, _, _, _, e1, e2, _⟩ | ⟨_, _, d, _, _, _, _, e1, e2, _⟩ |
    ⟨_, _, _, _, _, hs⟩
  · rw [hs]; exact ⟨h1, h2⟩
  · rw [e1, e2]; exact ⟨h1, h2⟩
  · rw [e1, e2]
    constructor
    · split
      · exact Nat.mod_lt _ (by norm_num)
      · exact h1
    · split
      · exact Nat.mod_lt _ (by norm_num)
      · exact h2
  · rw [hs]; exact ⟨h1, h2⟩

theorem processLines_locals_lt (env : Env σ) (ip : IP) (lines : List (List Byte)) :
    ∀ (lineNo nm ne : Nat) (mr : metricReceiver σ), nm < 2 ^ 16 → ne < 2 ^ 16 →
    (processLines env ip lines lineNo nm ne mr).2.1 < 2 ^ 16 ∧
    (processLines env ip lines lineNo nm ne mr).2.2.1 < 2 ^ 16 := by
  induction lines with
  | nil => intro lineNo nm ne mr h1 h2; exact ⟨h1, h2⟩
  | cons line lines ih =>
    intro lineNo nm ne mr h1 h2
    rw [processLines_cons]
    obtain ⟨s1, s2⟩ := lineStep_locals_lt env ip lineNo line nm ne mr h1 h2
    rcases h : (lineStep env ip lineNo line nm ne mr).1 with _ | e
    · exact ih _ _ _ _ s1 s2
    · exact ⟨s1, s2⟩

/-- C7. For a datagram of at most 65535 bytes that `handlePacket` handles to the
end or aborts on a dispatch error, metrics-received goes up by the number of
`DispatchMetric` calls made and events-received by the number of `DispatchEvent`
calls made, the failing one included; the 16-bit locals `numMetrics` and
`numEvents` hold these numbers when the loop is left and have not wrapped around,
as the lines longer than one byte of such a datagram are fewer than 65536. -/
theorem handlePacket_received (env : Env σ) (mr : metricReceiver σ) (addr msg : List Byte)
    (hsize : msg.length ≤ packetSizeUDP)
    (hret : (handlePacket env mr addr msg).1 ≠ Exit.panic) :
    (handlePacket env mr addr msg).2.metricsReceived =
      (mr.metricsReceived +
        (packetCalls env mr addr msg).countP Call.isDispatchMetric) % 2 ^ 64 ∧
    (handlePacket env mr addr msg).2.eventsReceived =
      (mr.eventsReceived +
        (packetCalls env mr addr msg).countP Call.isDispatchEvent) % 2 ^ 64 ∧
    (handleLoop env (sourceIP addr) (msg.length + 2) msg 0 0 0 mr).2.1 =
      (packetCalls env mr addr msg).countP Call.isDispatchMetric ∧
    (handleLoop env (sourceIP addr) (msg.length + 2) msg 0 0 0 mr).2.2.1 =
      (packetCalls env mr addr msg).countP Call.isDispatchEvent ∧
    (packetCalls env mr addr msg).countP Call.isDispatchMetric < 2 ^ 16 ∧
    (packetCalls env mr addr msg).countP Call.isDispatchEvent < 2 ^ 16 ∧
    (splitLines msg).countP (fun l => decide (1 < l.length)) < 2 ^ 16 := by
  have hd := dispatch_count_le env mr addr msg
  have hm : (packetCalls env mr addr msg).countP Call.isDispatchMetric ≤
      (packetCalls env mr addr msg).countP Call.isDispatch :=
    List.countP_mono_left (fun c _ h => isDispatch_of_isDispatchMetric c h)
  have hv : (packetCalls env mr addr msg).countP Call.isDispatchEvent ≤
      (packetCalls env mr addr msg).countP Call.isDispatch :=
    List.countP_mono_left (fun c _ h => isDispatch_of_isDispatchEvent c h)
  have hl := long_lines_le msg
  unfold packetSizeUDP at hsize
  have hm1 : (packetCalls env mr addr msg).countP Call.isDispatchMetric < 2 ^ 16 := by omega
  have hv1 : (packetCalls env mr addr msg).countP Call.isDispatchEvent < 2 ^ 16 := by omega
  obtain ⟨_, c2, c3, _⟩ := processLines_counts env (sourceIP addr) (splitLines msg) 0 0 0 mr
  obtain ⟨b1, b2⟩ := processLines_locals_lt env (sourceIP addr) (splitLines msg) 0 0 0 mr
    (by norm_num) (by norm_num)
  rw [← packetCalls_eq, Nat.mod_eq_of_lt b1, Nat.zero_add, Nat.mod_eq_of_lt hm1] at c2
  rw [← packetCalls_eq, Nat.mod_eq_of_lt b2, Nat.zero_add, Nat.mod_eq_of_lt hv1] at c3
  obtain ⟨r1, r2⟩ := handlePacket_received_eq env mr addr msg hret
  rw [c2] at r1
  rw [c3] at r2
  rw [handleLoop_eq_processLines env (sourceIP addr) (msg.length + 2) msg 0 0 0 mr (le_refl _)]
  exact ⟨r1, r2, c2, c3, hm1, hv1, by omega⟩

/-- Witness of `handlePacket_received`: two metrics and an event are dispatched,
the second metric failing. -/
theorem handlePacket_received_witness :
    ([109, 49, 10, 101, 10, 101, 50, 10, 109, 51, 10, 109, 52] : List Byte).length ≤
      packetSizeUDP ∧
    (handlePacket (exampleEnv 2 (fun _ => ⟨5, 0⟩)) exampleReceiver exampleAddr
      [109, 49, 10, 101, 10, 101, 50, 10, 109, 51, 10, 109, 52]).1 ≠ Exit.panic ∧
    (handlePacket (exampleEnv 2 (fun _ => ⟨5, 0⟩)) exampleReceiver exampleAddr
      [109, 49, 10, 101, 10, 101, 50, 10, 109, 51, 10, 109, 52]).2.metricsReceived = 2 ∧
    (handlePacket (exampleEnv 2 (fun _ => ⟨5, 0⟩)) exampleReceiver exampleAddr
      [109, 49, 10, 101, 10, 101, 50, 10, 109, 51, 10, 109, 52]).2.eventsReceived = 1 :=
  have h := handlePacket_received (exampleEnv 2 (fun _ => ⟨5, 0⟩)) exampleReceiver exampleAddr
    [109, 49, 10, 101, 10, 101, 50, 10, 109, 51, 10, 109, 52] (by decide) (by decide)
  ⟨by decide, by decide, h.1.trans (by decide), h.2.1.trans (by decide)⟩


/-! ## Source IP, event dates and the receive loop -/

theorem lastIndexByteFrom_of_not_mem (s : List Byte) (c : Byte) (h : c ∉ s) :
    ∀ n, lastIndexByteFrom s c n = -1 := by
  intro n
  induction n with
  | zero => rfl
  | succ i ih =>
    have : ¬ s.get? i = some c := fun hg => h (List.get?_mem hg)
    rw [lastIndexByteFrom, if_neg this]
    exact ih

theorem lastIndexByteFrom_last (pre post : List Byte) (c : Byte) (h : c ∉ post) :
    ∀ k, k ≤ post.length →
      lastIndexByteFrom (pre ++ c :: post) c (pre.length + 1 + k) = pre.length := by
  intro k
  induction k with
  | zero =>
    intro _
    have hget : (pre ++ c :: post).get? pre.length = some c := by
      simp only [List.get?_eq_getElem?]
      rw [List.getElem?_append_right (le_refl _), Nat.sub_self, List.getElem?_cons_zero]
    rw [show pre.length + 1 + 0 = pre.length + 1 from rfl, lastIndexByteFrom, if_pos hget]
  | succ k ih =>
    intro hk
    have hlt : k < post.length := hk
    have hget : (pre ++ c :: post).get? (pre.length + 1 + k) = post.get? k := by
      simp only [List.get?_eq_getElem?]
      rw [List.getElem?_append_right (by omega)]
      have : pre.length + 1 + k - pre.length = k + 1 := by omega
      rw [this, List.getElem?_cons_succ]
    have hne : ¬ (pre ++ c :: post).get? (pre.length + 1 + k) = some c := by
      rw [hget]
      intro hg
      exact h (List.get?_mem hg)
    rw [show pre.length + 1 + (k + 1) = (pre.length + 1 + k) + 1 from rfl, lastIndexByteFrom,
      if_neg hne]
    exact ih (Nat.le_of_lt hlt)

/-- The source IP is the part of the address before its last colon. -/
theorem sourceIP_last_colon (pre post : List Byte) (h : COLON ∉ post) :
    sourceIP (pre ++ COLON :: post) = pre := by
  have hl : lastIndexByte (pre ++ COLON :: post) COLON = pre.length := by
    unfold lastIndexByte
    have := lastIndexByteFrom_last pre post COLON h post.length (le_refl _)
    rw [List.length_append, List.length_cons]
    rw [show pre.length + (post.length + 1) = pre.length + 1 + post.length from by omega]
    exact this
  unfold sourceIP
  simp only [hl]
  cases pre with
  | nil => simp
  | cons b bs =>
    have : ¬ (((b :: bs).length : Int) ≤ 0) := by
      simp only [List.length_cons]; omega
    rw [if_neg this]
    simp

/-- The source IP is unset for an address without a colon. -/
theorem sourceIP_no_colon (addr : List Byte) (h : COLON ∉ addr) : sourceIP addr = [] := by
  unfold sourceIP lastIndexByte
  simp [lastIndexByteFrom_of_not_mem addr COLON h]

theorem dispatchCalls_sourceIP (env : Env σ) (mr : metricReceiver σ) (addr msg : List Byte) :
    ∀ c ∈ dispatchCalls env mr addr msg, c.sourceIP = sourceIP addr := by
  intro c hc
  obtain ⟨hc1, hc2⟩ := List.mem_filter.mp hc
  obtain ⟨line, _, _, h⟩ := packetCalls_madeFor env mr addr msg c hc1
  cases c with
  | parseLine i l r => simp [Call.isDispatch] at hc2
  | DispatchMetric i m r =>
    obtain ⟨_, m0, _, h4⟩ := h
    rw [h4]; rfl
  | DispatchEvent i e r =>
    obtain ⟨_, _, e0, _, _, _, _, h7, _⟩ := h
    exact h7

/-- C8. The source IP stamped on every unit `handlePacket` dispatches is the part
of the source address before its last colon when the address has a colon, and the
unset, empty value when it has none; it is a function of the address alone, so
the units of two packets from one address carry the same source IP whatever the
lines, the receiver and the collaborators are. -/
theorem handlePacket_sourceIP (env : Env σ) (mr : metricReceiver σ) (addr msg : List Byte) :
    (∀ c ∈ dispatchCalls env mr addr msg, c.sourceIP = sourceIP addr) ∧
    (∀ pre post, addr = pre ++ COLON :: post → COLON ∉ post → sourceIP addr = pre) ∧
    (COLON ∉ addr → sourceIP addr = []) ∧
    (∀ (env2 : Env σ) (mr2 : metricReceiver σ) (msg2 : List Byte),
      ∀ c ∈ dispatchCalls env mr addr msg, ∀ c2 ∈ dispatchCalls env2 mr2 addr msg2,
        c.sourceIP = c2.sourceIP) := by
  refine ⟨dispatchCalls_sourceIP env mr addr msg, ?_, sourceIP_no_colon addr, ?_⟩
  · intro pre post h1 h2
    rw [h1]
    exact sourceIP_last_colon pre post h2
  · intro env2 mr2 msg2 c hc c2 hc2
    rw [dispatchCalls_sourceIP env mr addr msg c hc,
      dispatchCalls_sourceIP env2 mr2 addr msg2 c2 hc2]

/-- C9, counterexample. The lexer returns an event without date for the line `ee`
and the clock reads the epoch, zero seconds: the event is dispatched with
date-happened zero. -/
theorem event_date_zero_counterexample :
    (parseLine (exampleEnv 9 (fun _ => ⟨0, 0⟩)) exampleReceiver [101, 101]).event =
      some ⟨"ns", "text", 0, ["b"], []⟩ ∧
    dispatchCalls (exampleEnv 9 (fun _ => ⟨0, 0⟩)) exampleReceiver exampleAddr [101, 101] =
      [Call.DispatchEvent 0 ⟨"ns", "text", 0, ["b", "env:prod"], [49]⟩ none] := by
  decide

theorem Receive_append (env : Env σ) (rest : List ReadFrom) (pre : List ReadFrom) :
    ∀ (mr mr1 : metricReceiver σ), Receive env pre mr = (ReceiveExit.reading, mr1) →
      Receive env (pre ++ rest) mr = Receive env rest mr1 := by
  induction pre with
  | nil =>
    intro mr mr1 h
    simp only [Receive, Prod.mk.injEq, true_and] at h
    rw [h]; rfl
  | cons r pre ih =>
    intro mr mr1 h
    cases r with
    | fail err ctxDone =>
      simp only [List.cons_append, Receive] at h ⊢
      split at h
      · split at h <;> simp at h
      · rename_i hc
        rw [if_neg hc]
        exact ih _ _ h
    | ok data addr =>
      simp only [List.cons_append, Receive] at h ⊢
      split at h
      · split at h
        · simp at h
        · rename_i hc
          rw [if_neg hc]
          exact ih _ _ h
      · exact ih _ _ h
      · simp at h

/-- C10, amended. Once the cancellation signal has fired, a read error that is a
`net.Error` whose `Temporary()` is false makes `Receive` return nil, whatever it
has received before and whatever would be read after. A read error that is not a
`net.Error` does not make `Receive` return, with the signal fired as without: the
read is retried. -/
theorem Receive_fatal_after_cancel (env : Env σ) (pre rest : List ReadFrom)
    (mr mr1 : metricReceiver σ) (err : ReadError)
    (hrun : Receive env pre mr = (ReceiveExit.reading, mr1))
    (hnet : err.isNetError = true) (hfatal : err.temporary = false) :
    Receive env (pre ++ ReadFrom.fail err true :: rest) mr = (ReceiveExit.ret none, mr1) ∧
    ∀ (err2 : ReadError), err2.isNetError = false →
      Receive env (pre ++ ReadFrom.fail err2 true :: rest) mr = Receive env rest mr1 := by
  rw [Receive_append env _ pre mr mr1 hrun]
  refine ⟨by simp [Receive, hnet, hfatal], fun err2 h2 => ?_⟩
  rw [Receive_append env _ pre mr mr1 hrun]
  simp [Receive, h2]

/-- Witness of `Receive_fatal_after_cancel`: after a transient error and a packet,
the socket is closed with the context cancelled, and `Receive` returns nil. -/
theorem Receive_fatal_after_cancel_witness :
    (Receive (exampleEnv 9 (fun _ => ⟨5, 0⟩))
      [ReadFrom.fail ⟨true, true⟩ false, ReadFrom.ok [109, 49] exampleAddr]
      exampleReceiver).1 = ReceiveExit.reading ∧
    (Receive (exampleEnv 9 (fun _ => ⟨5, 0⟩))
      ([ReadFrom.fail ⟨true, true⟩ false, ReadFrom.ok [109, 49] exampleAddr] ++
        ReadFrom.fail ⟨true, false⟩ true :: [ReadFrom.ok [109, 50] exampleAddr])
      exampleReceiver).1 = ReceiveExit.ret none :=
  ⟨by decide,
    congrArg Prod.fst
      (Receive_fatal_after_cancel (exampleEnv 9 (fun _ => ⟨5, 0⟩))
        [ReadFrom.fail ⟨true, true⟩ false, ReadFrom.ok [109, 49] exampleAddr]
        [ReadFrom.ok [109, 50] exampleAddr] exampleReceiver
        (Receive (exampleEnv 9 (fun _ => ⟨5, 0⟩))
          [ReadFrom.fail ⟨true, true⟩ false, ReadFrom.ok [109, 49] exampleAddr]
          exampleReceiver).2
        ⟨true, false⟩ rfl rfl rfl).1⟩

/-- C10, counterexample. The cancellation signal has fired and the read fails
with an error that is not a `net.Error`, so that it is not transient: `Receive`
does not return nil, it reads again, takes the next packet and counts it. -/
theorem Receive_cancelled_not_net_error_counterexample :
    (Receive (exampleEnv 9 (fun _ => ⟨5, 0⟩))
      [ReadFrom.fail ⟨false, false⟩ true, ReadFrom.ok [109, 49] exampleAddr]
      exampleReceiver).1 = ReceiveExit.reading ∧
    (Receive (exampleEnv 9 (fun _ => ⟨5, 0⟩))
      [ReadFrom.fail ⟨false, false⟩ true, ReadFrom.ok [109, 49] exampleAddr]
      exampleReceiver).1 ≠ ReceiveExit.ret none ∧
    (Receive (exampleEnv 9 (fun _ => ⟨5, 0⟩))
      [ReadFrom.fail ⟨false, false⟩ true, ReadFrom.ok [109, 49] exampleAddr]
      exampleReceiver).2.packetsReceived = 1 := by
  decide

/-! ## The receive loop: read failures, packet errors and the packet counter -/

theorem Receive_ok (env : Env σ) (data addr : List Byte) (rest : List ReadFrom)
    (mr : metricReceiver σ) :
    Receive env (ReadFrom.ok data addr :: rest) mr =
      match handlePacket env (countPacket env mr) addr (data.take packetSizeUDP) with
      | (Exit.ret (some err), mr) =>
        if err = GoError.canceled ∨ err = GoError.deadlineExceeded then
          (ReceiveExit.ret (some err), mr)
        else Receive env rest mr
      | (Exit.ret none, mr) => Receive env rest mr
      | (_, mr) => (ReceiveExit.panic, mr) := rfl

theorem Receive_fail (env : Env σ) (err : ReadError) (ctxDone : Bool) (rest : List ReadFrom)
    (mr : metricReceiver σ) :
    Receive env (ReadFrom.fail err ctxDone :: rest) mr =
      if err.isNetError ∧ ¬ err.temporary then
        if ctxDone then (ReceiveExit.ret none, mr)
        else (ReceiveExit.ret (some (GoError.errorf "non-temporary error reading from socket")),
          mr)
      else Receive env rest mr := rfl

theorem Receive_append_ret (env : Env σ) (rest : List ReadFrom) (pre : List ReadFrom) :
    ∀ (mr : metricReceiver σ), (Receive env pre mr).1 ≠ ReceiveExit.reading →
      Receive env (pre ++ rest) mr = Receive env pre mr := by
  induction pre with
  | nil => intro mr h; exact absurd rfl h
  | cons r pre ih =>
    intro mr h
    cases r with
    | fail err ctxDone =>
      rw [List.cons_append, Receive_fail env err ctxDone (pre ++ rest),
        Receive_fail env err ctxDone pre]
      rw [Receive_fail] at h
      split
      · rfl
      · rename_i hc
        rw [if_neg hc] at h
        exact ih _ h
    | ok data addr =>
      rw [List.cons_append, Receive_ok env data addr (pre ++ rest),
        Receive_ok env data addr pre]
      rw [Receive_ok] at h
      rcases hp : handlePacket env (countPacket env mr) addr (data.take packetSizeUDP) with
        ⟨e, mr2⟩
      rw [hp] at h
      cases e with
      | ret e1 =>
        cases e1 with
        | none => exact ih _ h
        | some e2 =>
          by_cases hc : e2 = GoError.canceled ∨ e2 = GoError.deadlineExceeded
          · simp only [hc, if_true]
          · simp only [hc, if_false] at h ⊢
            exact ih _ h
      | panic => rfl
      | outOfFuel => rfl

/-- C11, amended. A read failure that is a `net.Error` and whose `Temporary()` is
false, met while the cancellation signal has not fired, makes `Receive` stop: it
returns the wrapped error built by `fmt.Errorf`, which is not nil, and reads no
further. A read failure that is not a `net.Error` is not taken as fatal: `Receive`
reads again. -/
theorem Receive_fatal (env : Env σ) (pre rest : List ReadFrom) (mr mr1 : metricReceiver σ)
    (err : ReadError) (hrun : Receive env pre mr = (ReceiveExit.reading, mr1))
    (hnet : err.isNetError = true) (hfatal : err.temporary = false) :
    Receive env (pre ++ ReadFrom.fail err false :: rest) mr =
      (ReceiveExit.ret (some (GoError.errorf "non-temporary error reading from socket")), mr1) ∧
    (Receive env (pre ++ ReadFrom.fail err false :: rest) mr).1 ≠ ReceiveExit.ret none ∧
    ∀ (err2 : ReadError) (ctxDone : Bool), err2.isNetError = false →
      Receive env (pre ++ ReadFrom.fail err2 ctxDone :: rest) mr = Receive env rest mr1 := by
  have h1 : Receive env (pre ++ ReadFrom.fail err false :: rest) mr =
      (ReceiveExit.ret (some (GoError.errorf "non-temporary error reading from socket")),
        mr1) := by
    rw [Receive_append env _ pre mr mr1 hrun, Receive_fail]
    simp [hnet, hfatal]
  refine ⟨h1, by rw [h1]; simp, ?_⟩
  intro err2 ctxDone h2
  rw [Receive_append env _ pre mr mr1 hrun, Receive_fail]
  simp [h2]

/-- Witness of `Receive_fatal`: after a packet, the socket fails for good with the
context not cancelled, and `Receive` returns the wrapped error. -/
theorem Receive_fatal_witness :
    (Receive (exampleEnv 9 (fun _ => ⟨5, 0⟩)) [ReadFrom.ok [109, 49] exampleAddr]
      exampleReceiver).1 = ReceiveExit.reading ∧
    (Receive (exampleEnv 9 (fun _ => ⟨5, 0⟩))
      ([ReadFrom.ok [109, 49] exampleAddr] ++
        ReadFrom.fail ⟨true, false⟩ false :: [ReadFrom.ok [109, 50] exampleAddr])
      exampleReceiver).1 =
      ReceiveExit.ret (some (GoError.errorf "non-temporary error reading from socket")) :=
  ⟨by decide,
    congrArg Prod.fst
      (Receive_fatal (exampleEnv 9 (fun _ => ⟨5, 0⟩)) [ReadFrom.ok [109, 49] exampleAddr]
        [ReadFrom.ok [109, 50] exampleAddr] exampleReceiver
        (Receive (exampleEnv 9 (fun _ => ⟨5, 0⟩)) [ReadFrom.ok [109, 49] exampleAddr]
          exampleReceiver).2
        ⟨true, false⟩ rfl rfl rfl).1⟩

/-- C11, counterexample. The read fails with an error that is not a `net.Error`,
so that it does not report itself as transient, and the context is not cancelled:
`Receive` does not return, it reads the next packet and counts it. -/
theorem Receive_not_net_error_counterexample :
    (Receive (exampleEnv 9 (fun _ => ⟨5, 0⟩))
      [ReadFrom.fail ⟨false, false⟩ false, ReadFrom.ok [109, 49] exampleAddr]
      exampleReceiver).1 = ReceiveExit.reading ∧
    (Receive (exampleEnv 9 (fun _ => ⟨5, 0⟩))
      [ReadFrom.fail ⟨false, false⟩ false, ReadFrom.ok [109, 49] exampleAddr]
      exampleReceiver).2.packetsReceived = 1 := by
  decide

/-- C12. When `handlePacket` returns `context.Canceled` or
`context.DeadlineExceeded`, `Receive` returns that same error and reads no further
packet; when it returns any other error, `Receive` does not return and goes on
with the next read. -/
theorem Receive_handlePacket_error (env : Env σ) (pre rest : List ReadFrom)
    (mr mr1 mr2 : metricReceiver σ) (data addr : List Byte) (err : GoError)
    (hrun : Receive env pre mr = (ReceiveExit.reading, mr1))
    (hpkt : handlePacket env (countPacket env mr1) addr (data.take packetSizeUDP) =
      (Exit.ret (some err), mr2)) :
    (err = GoError.canceled ∨ err = GoError.deadlineExceeded →
      Receive env (pre ++ ReadFrom.ok data addr :: rest) mr = (ReceiveExit.ret (some err), mr2)) ∧
    (¬ (err = GoError.canceled ∨ err = GoError.deadlineExceeded) →
      Receive env (pre ++ ReadFrom.ok data addr :: rest) mr = Receive env rest mr2) := by
  rw [Receive_append env _ pre mr mr1 hrun, Receive_ok, hpkt]
  constructor
  · intro h; simp only [h, if_true]
  · intro h; simp only [h, if_false]

/-- Witness of `Receive_handlePacket_error`: the handler returns
`context.Canceled` for the first unit of the second packet; `Receive` returns it
and the third packet is not read. -/
theorem Receive_handlePacket_error_witness :
    (Receive (cancelEnv 1) [ReadFrom.ok [109, 49] exampleAddr] exampleReceiver).1 =
      ReceiveExit.reading ∧
    (handlePacket (cancelEnv 1)
      (countPacket (cancelEnv 1)
        (Receive (cancelEnv 1) [ReadFrom.ok [109, 49] exampleAddr] exampleReceiver).2)
      exampleAddr (([109, 50, 10, 109, 51] : List Byte).take packetSizeUDP)).1 =
      Exit.ret (some GoError.canceled) ∧
    (Receive (cancelEnv 1)
      ([ReadFrom.ok [109, 49] exampleAddr] ++
        ReadFrom.ok [109, 50, 10, 109, 51] exampleAddr :: [ReadFrom.ok [109, 52] exampleAddr])
      exampleReceiver).1 = ReceiveExit.ret (some GoError.canceled) ∧
    (Receive (cancelEnv 1)
      ([ReadFrom.ok [109, 49] exampleAddr] ++
        ReadFrom.ok [109, 50, 10, 109, 51] exampleAddr :: [ReadFrom.ok [109, 52] exampleAddr])
      exampleReceiver).2.packetsReceived = 2 :=
  have h := (Receive_handlePacket_error (cancelEnv 1) [ReadFrom.ok [109, 49] exampleAddr]
    [ReadFrom.ok [109, 52] exampleAddr] exampleReceiver
    (Receive (cancelEnv 1) [ReadFrom.ok [109, 49] exampleAddr] exampleReceiver).2
    (handlePacket (cancelEnv 1)
      (countPacket (cancelEnv 1)
        (Receive (cancelEnv 1) [ReadFrom.ok [109, 49] exampleAddr] exampleReceiver).2)
      exampleAddr (([109, 50, 10, 109, 51] : List Byte).take packetSizeUDP)).2
    [109, 50, 10, 109, 51] exampleAddr GoError.canceled rfl rfl).1 (Or.inl rfl)
  ⟨by decide, by decide, congrArg Prod.fst h,
    (congrArg (fun r => r.2.packetsReceived) h).trans (by decide)⟩

/-- C17. A read failure that reports itself as transient (a `net.Error` whose
`Temporary()` is true) is never surfaced: wherever it comes in the sequence of
reads, `Receive` ends as it does without it, with the same result and the same
receiver, counters, handler, clock and trace of lexer and handler calls
included; after it `Receive` just reads again. -/
theorem Receive_transient (env : Env σ) (pre rest : List ReadFrom) (mr : metricReceiver σ)
    (err : ReadError) (ctxDone : Bool)
    (hnet : err.isNetError = true) (htemp : err.temporary = true) :
    Receive env (pre ++ ReadFrom.fail err ctxDone :: rest) mr = Receive env (pre ++ rest) mr ∧
    Receive env (ReadFrom.fail err ctxDone :: rest) mr = Receive env rest mr := by
  have h0 : ∀ m : metricReceiver σ,
      Receive env (ReadFrom.fail err ctxDone :: rest) m = Receive env rest m := by
    intro m
    rw [Receive_fail]
    simp [hnet, htemp]
  refine ⟨?_, h0 mr⟩
  by_cases h : (Receive env pre mr).1 = ReceiveExit.reading
  · have h1 : Receive env pre mr = (ReceiveExit.reading, (Receive env pre mr).2) := by
      rw [← h]
    rw [Receive_append env _ pre mr _ h1, Receive_append env _ pre mr _ h1, h0]
  · rw [Receive_append_ret env _ pre mr h, Receive_append_ret env _ pre mr h]

/-- Witness of `Receive_transient`: a transient failure between two packets. -/
theorem Receive_transient_witness :
    (Receive (exampleEnv 9 (fun _ => ⟨5, 0⟩))
      ([ReadFrom.ok [109, 49] exampleAddr] ++
        ReadFrom.fail ⟨true, true⟩ false :: [ReadFrom.ok [109, 50] exampleAddr])
      exampleReceiver).2.packetsReceived = 2 ∧
    (Receive (exampleEnv 9 (fun _ => ⟨5, 0⟩))
      ([ReadFrom.ok [109, 49] exampleAddr] ++
        ReadFrom.fail ⟨true, true⟩ false :: [ReadFrom.ok [109, 50] exampleAddr])
      exampleReceiver).1 = ReceiveExit.reading :=
  have h := (Receive_transient (exampleEnv 9 (fun _ => ⟨5, 0⟩))
    [ReadFrom.ok [109, 49] exampleAddr] [ReadFrom.ok [109, 50] exampleAddr] exampleReceiver
    ⟨true, true⟩ false rfl rfl).1
  ⟨(congrArg (fun r => r.2.packetsReceived) h).trans (by decide),
    (congrArg Prod.fst h).trans (by decide)⟩

theorem handlePacket_packetsReceived (env : Env σ) (mr : metricReceiver σ)
    (addr msg : List Byte) :
    (handlePacket env mr addr msg).2.packetsReceived = mr.packetsReceived := by
  rw [(handlePacket_fields env mr addr msg).2.2.2.2.2.2.1]
  exact (processLines_frame env (sourceIP addr) (splitLines msg) 0 0 0 mr).2.2.1

theorem Receive_nil (env : Env σ) (mr : metricReceiver σ) :
    Receive env [] mr = (ReceiveExit.reading, mr) := rfl

/-- One read either leaves `Receive` in its loop, and the reads after it are taken
from the state it leaves, or makes `Receive` end, and the reads after it are not
taken. -/
theorem Receive_cons_cases (env : Env σ) (r : ReadFrom) (rs : List ReadFrom)
    (mr : metricReceiver σ) :
    ((Receive env [r] mr).1 = ReceiveExit.reading ∧
      Receive env (r :: rs) mr = Receive env rs (Receive env [r] mr).2) ∨
    ((Receive env [r] mr).1 ≠ ReceiveExit.reading ∧
      Receive env (r :: rs) mr = Receive env [r] mr) := by
  by_cases h : (Receive env [r] mr).1 = ReceiveExit.reading
  · left
    have h1 : Receive env [r] mr = (ReceiveExit.reading, (Receive env [r] mr).2) := by
      rw [← h]
    exact ⟨h, Receive_append env rs [r] mr _ h1⟩
  · right
    exact ⟨h, Receive_append_ret env rs [r] mr h⟩

theorem Receive_one_packetsReceived (env : Env σ) (r : ReadFrom) (mr : metricReceiver σ) :
    (Receive env [r] mr).2.packetsReceived =
      if r.isOk then (mr.packetsReceived + 1) % 2 ^ 64 else mr.packetsReceived := by
  cases r with
  | fail err ctxDone =>
    rw [Receive_fail]
    simp only [ReadFrom.isOk, Bool.false_eq_true, if_false]
    split
    · split <;> rfl
    · rfl
  | ok data addr =>
    rw [Receive_ok]
    simp only [ReadFrom.isOk, if_true]
    have hp := handlePacket_packetsReceived env (countPacket env mr) addr
      (data.take packetSizeUDP)
    rcases hq : handlePacket env (countPacket env mr) addr (data.take packetSizeUDP) with
      ⟨e, mr2⟩
    rw [hq] at hp
    have hp2 : mr2.packetsReceived = (mr.packetsReceived + 1) % 2 ^ 64 := hp
    cases e with
    | ret e1 =>
      cases e1 with
      | none => exact hp2
      | some e2 =>
        by_cases hc : e2 = GoError.canceled ∨ e2 = GoError.deadlineExceeded
        · simp only [hc, if_true]; exact hp2
        · simp only [hc, if_false]; exact hp2
    | panic => exact hp2
    | outOfFuel => exact hp2

/-- C14. Over any sequence of reads that `Receive` takes (the reads before the
last leave it in its loop), packets-received, a `uint64`, goes up by one for each
read that succeeds, whatever the datagram holds and however `handlePacket` ends
on it, and by nothing for a read that fails. -/
theorem Receive_packetsReceived (env : Env σ) (reads : List ReadFrom) :
    ∀ mr : metricReceiver σ, mr.packetsReceived < 2 ^ 64 →
      (Receive env reads.dropLast mr).1 = ReceiveExit.reading →
      (Receive env reads mr).2.packetsReceived =
        (mr.packetsReceived + reads.countP ReadFrom.isOk) % 2 ^ 64 := by
  induction reads with
  | nil =>
    intro mr hwf _
    rw [Receive_nil, List.countP_nil, Nat.add_zero, Nat.mod_eq_of_lt hwf]
  | cons r rs ih =>
    intro mr hwf hproc
    have h1 := Receive_one_packetsReceived env r mr
    cases rs with
    | nil =>
      rw [h1, List.countP_cons, List.countP_nil]
      by_cases hr : r.isOk = true
      · simp only [hr, if_true, Nat.zero_add]
      · simp only [hr, Bool.false_eq_true, if_false, Nat.add_zero, Nat.mod_eq_of_lt hwf]
    | cons r2 rs2 =>
      have hd : (r :: r2 :: rs2).dropLast = r :: (r2 :: rs2).dropLast := rfl
      rw [hd] at hproc
      rcases Receive_cons_cases env r (r2 :: rs2).dropLast mr with ⟨g1, e2⟩ | ⟨e1, e2⟩
      · rw [e2] at hproc
        rcases Receive_cons_cases env r (r2 :: rs2) mr with ⟨_, f2⟩ | ⟨f1, _⟩
        · have hwf2 : (Receive env [r] mr).2.packetsReceived < 2 ^ 64 := by
            rw [h1]
            split
            · exact Nat.mod_lt _ (by norm_num)
            · exact hwf
          rw [f2, ih _ hwf2 hproc, h1, List.countP_cons (l := r2 :: rs2)]
          by_cases hr : r.isOk = true
          · simp only [hr, if_true]
            rw [Nat.mod_add_mod]
            congr 1
            omega
          · simp only [hr, Bool.false_eq_true, if_false, Nat.add_zero]
        · exact absurd g1 f1
      · rw [e2] at hproc
        exact absurd hproc e1

/-- Witness of `Receive_packetsReceived`: a packet of one line, a transient
failure, an empty packet and a packet on which `handlePacket` panics are three
packets. -/
theorem Receive_packetsReceived_witness :
    exampleReceiver.packetsReceived < 2 ^ 64 ∧
    (Receive (exampleEnv 9 (fun _ => ⟨5, 0⟩))
      ([ReadFrom.ok [109, 49] exampleAddr, ReadFrom.fail ⟨true, true⟩ false,
        ReadFrom.ok [] exampleAddr, ReadFrom.ok [122, 122] exampleAddr] : List ReadFrom).dropLast
      exampleReceiver).1 = ReceiveExit.reading ∧
    (Receive (exampleEnv 9 (fun _ => ⟨5, 0⟩))
      [ReadFrom.ok [109, 49] exampleAddr, ReadFrom.fail ⟨true, true⟩ false,
        ReadFrom.ok [] exampleAddr, ReadFrom.ok [122, 122] exampleAddr]
      exampleReceiver).2.packetsReceived = 3 :=
  ⟨by decide, by decide,
    (Receive_packetsReceived (exampleEnv 9 (fun _ => ⟨5, 0⟩))
      [ReadFrom.ok [109, 49] exampleAddr, ReadFrom.fail ⟨true, true⟩ false,
        ReadFrom.ok [] exampleAddr, ReadFrom.ok [122, 122] exampleAddr]
      exampleReceiver (by decide) (by decide)).trans (by decide)⟩

/-! ## A lexer result without unit and without error -/

/-- A lexer call that returned neither unit nor error is the last call of the
loop, which panics on it. -/
theorem linesCalls_nothing (env : Env σ) (ip : IP) (lines : List (List Byte)) :
    ∀ (lineNo nm ne : Nat) (mr : metricReceiver σ) (i : Nat) (l : List Byte) (res : LexResult),
    Call.parseLine i l res ∈ linesCalls env ip lines lineNo nm ne mr →
    res.err = none → res.metric = none → res.event = none →
    (processLines env ip lines lineNo nm ne mr).1 = Exit.panic ∧
    (∃ pre, linesCalls env ip lines lineNo nm ne mr = pre ++ [Call.parseLine i l res]) ∧
    i + 1 = lineNo + linesDone env ip lines lineNo nm ne mr := by
  induction lines with
  | nil => intro lineNo nm ne mr i l res hc; simp [linesCalls_nil] at hc
  | cons line lines ih =>
    intro lineNo nm ne mr i l res hc herr hm he
    rw [linesCalls_cons, List.mem_append] at hc
    rw [processLines_cons, linesCalls_cons, linesDone_cons]
    rcases hc with hc | hc
    · rcases lineStep_cases env ip lineNo line nm ne mr with
        ⟨_, h, _⟩ | ⟨_, e1, h, _⟩ | ⟨_, _, d, hd, _, h, _⟩ | ⟨_, _, _, _, h, hs⟩
      · rw [h] at hc; simp at hc
      · rw [h, List.mem_singleton] at hc
        injection hc with _ _ h3
        rw [h3] at herr
        exact absurd herr e1
      · have hdm := lineCalls_madeFor env ip lineNo line nm ne mr d (by rw [h]; simp)
        rw [h] at hc
        simp only [List.mem_cons, List.mem_singleton, List.not_mem_nil, or_false] at hc
        rcases hc with hc | hc
        · injection hc with _ _ h3
          rw [h3] at hm he
          cases d with
          | parseLine j l2 r2 => simp [Call.isDispatch] at hd
          | DispatchMetric j m r2 =>
            obtain ⟨_, m0, hm0, _⟩ := hdm.2.2
            rw [hm] at hm0
            exact absurd hm0 (by simp)
          | DispatchEvent j e r2 =>
            obtain ⟨_, _, e0, he0, _⟩ := hdm.2.2
            rw [he] at he0
            exact absurd he0 (by simp)
        · rw [← hc] at hd
          simp [Call.isDispatch] at hd
      · have hs1 : (lineStep env ip lineNo line nm ne mr).1 = some Exit.panic := by rw [hs]
        rw [h, List.mem_singleton] at hc
        injection hc with h1 h2 h3
        subst h1 h2 h3
        rw [hs1, h]
        exact ⟨rfl, ⟨[], rfl⟩, rfl⟩
    · rcases hs : (lineStep env ip lineNo line nm ne mr).1 with _ | ex
      · rw [hs] at hc
        obtain ⟨i1, ⟨pre, i2⟩, i3⟩ := ih _ _ _ _ i l res hc herr hm he
        dsimp only
        refine ⟨i1, ⟨lineCalls env ip lineNo line nm ne mr ++ pre, ?_⟩, ?_⟩
        · rw [i2, List.append_assoc]
        · generalize linesDone env ip lines _ _ _ _ = X at i3 ⊢
          show i + 1 = lineNo + (X + 1)
          omega
      · rw [hs] at hc; simp at hc

theorem handlePacket_panic_state (env : Env σ) (mr : metricReceiver σ) (addr msg : List Byte)
    (h : (handlePacket env mr addr msg).1 = Exit.panic) :
    (handlePacket env mr addr msg).2.metricsReceived = mr.metricsReceived ∧
    (handlePacket env mr addr msg).2.eventsReceived = mr.eventsReceived := by
  have hx := handlePacket_exit env mr addr msg
  have hf := processLines_frame env (sourceIP addr) (splitLines msg) 0 0 0 mr
  rw [hx] at h
  rw [handlePacket_eq]
  rcases hp : processLines env (sourceIP addr) (splitLines msg) 0 0 0 mr with ⟨e, nm, ne, mr1⟩
  rw [hp] at h hf
  simp only at h
  subst h
  exact ⟨hf.1, hf.2.1⟩

theorem Receive_panic (env : Env σ) (data addr : List Byte) (rest : List ReadFrom)
    (mr : metricReceiver σ)
    (h : (handlePacket env (countPacket env mr) addr (data.take packetSizeUDP)).1 = Exit.panic) :
    (Receive env (ReadFrom.ok data addr :: rest) mr).1 = ReceiveExit.panic := by
  rw [Receive_ok]
  rcases hp : handlePacket env (countPacket env mr) addr (data.take packetSizeUDP) with ⟨e, mr2⟩
  rw [hp] at h
  simp only at h
  subst h
  rfl

/-- C13, amended. When the lexer returns neither a metric, nor an event, nor an
error for a line, `handlePacket` does not silently proceed: it abandons the packet
there by panicking (`log.Panic`). It returns no error to its caller, the lexer
call on that line is its last call, the line is not dispatched, no later line is
read, and metrics-received and events-received are left as they were. The panic
goes through `Receive`, which has no `recover`. -/
theorem handlePacket_lexer_nothing (env : Env σ) (mr : metricReceiver σ) (addr msg : List Byte)
    (i : Nat) (l : List Byte) (res : LexResult)
    (hc : Call.parseLine i l res ∈ packetCalls env mr addr msg)
    (herr : res.err = none) (hm : res.metric = none) (he : res.event = none) :
    (handlePacket env mr addr msg).1 = Exit.panic ∧
    (∀ e, (handlePacket env mr addr msg).1 ≠ Exit.ret e) ∧
    (packetCalls env mr addr msg).getLast? = some (Call.parseLine i l res) ∧
    linesRead env mr addr msg = i + 1 ∧
    (∀ c ∈ packetCalls env mr addr msg, c.lineNo = i → c.isDispatch = false) ∧
    (handlePacket env mr addr msg).2.metricsReceived = mr.metricsReceived ∧
    (handlePacket env mr addr msg).2.eventsReceived = mr.eventsReceived ∧
    (∀ (mr0 : metricReceiver σ) (data : List Byte) (rest : List ReadFrom),
      mr = countPacket env mr0 → msg = data.take packetSizeUDP →
      (Receive env (ReadFrom.ok data addr :: rest) mr0).1 = ReceiveExit.panic) := by
  have hc1 := hc
  rw [packetCalls_eq] at hc1
  obtain ⟨h1, ⟨pre, h2⟩, h3⟩ :=
    linesCalls_nothing env (sourceIP addr) (splitLines msg) 0 0 0 mr i l res hc1 herr hm he
  rw [← handlePacket_exit] at h1
  rw [← packetCalls_eq] at h2
  rw [← linesRead_eq, Nat.zero_add] at h3
  have hst := handlePacket_panic_state env mr addr msg h1
  refine ⟨h1, ?_, ?_, h3.symm, ?_, hst.1, hst.2, ?_⟩
  · intro e; rw [h1]; simp
  · rw [h2]; simp
  · intro c hcm hci
    have hpw := packetCalls_pairwise env mr addr msg
    rw [h2] at hpw hcm
    rcases List.mem_append.mp hcm with hin | hin
    · have := (List.pairwise_append.mp hpw).2.2 c hin (Call.parseLine i l res) (by simp)
      rcases this with hlt | ⟨_, _, hd⟩
      · have hi : (Call.parseLine i l res).lineNo = i := rfl
        rw [hi] at hlt
        omega
      · simp [Call.isDispatch] at hd
    · rw [List.mem_singleton] at hin
      rw [hin]; rfl
  · intro mr0 data rest hmr hmsg
    subst hmr hmsg
    exact Receive_panic env data addr rest mr0 h1

/-- Witness of `handlePacket_lexer_nothing`: the lexer returns nothing for the
second line `zz`, and `handlePacket` panics. -/
theorem handlePacket_lexer_nothing_witness :
    Call.parseLine 1 [122, 122] ⟨none, none, none⟩ ∈
      packetCalls (exampleEnv 9 (fun _ => ⟨5, 0⟩)) exampleReceiver exampleAddr
        [109, 49, 10, 122, 122, 10, 109, 50] ∧
    (handlePacket (exampleEnv 9 (fun _ => ⟨5, 0⟩)) exampleReceiver exampleAddr
      [109, 49, 10, 122, 122, 10, 109, 50]).1 = Exit.panic :=
  ⟨by decide,
    (handlePacket_lexer_nothing (exampleEnv 9 (fun _ => ⟨5, 0⟩)) exampleReceiver exampleAddr
      [109, 49, 10, 122, 122, 10, 109, 50] 1 [122, 122] ⟨none, none, none⟩ (by decide)
      rfl rfl rfl).1⟩

/-- C13, counterexample. The lexer returns neither unit nor error for the line
`zz`: `handlePacket` returns no error, distinguished or other, it panics, and so
does `Receive`. -/
theorem lexer_nothing_panics_counterexample :
    parseLine (exampleEnv 9 (fun _ => ⟨5, 0⟩)) exampleReceiver [122, 122] =
      ⟨none, none, none⟩ ∧
    (handlePacket (exampleEnv 9 (fun _ => ⟨5, 0⟩)) exampleReceiver exampleAddr [122, 122]).1 =
      Exit.panic ∧
    (Receive (exampleEnv 9 (fun _ => ⟨5, 0⟩)) [ReadFrom.ok [122, 122] exampleAddr]
      exampleReceiver).1 = ReceiveExit.panic := by
  decide

/-! ## Termination of the loop -/

theorem lineStep_exit_ne (env : Env σ) (ip : IP) (lineNo : Nat) (line : List Byte)
    (nm ne : Nat) (mr : metricReceiver σ) :
    (lineStep env ip lineNo line nm ne mr).1 ≠ some Exit.outOfFuel := by
  rcases lineStep_cases env ip lineNo line nm ne mr with
    ⟨_, _, hs⟩ | ⟨_, _, _, hs, _⟩ | ⟨_, _, d, _, _, _, hs, _⟩ | ⟨_, _, _, _, _, hs⟩
  · rw [hs]; simp
  · rw [hs]; simp
  · rw [hs]; split <;> simp
  · rw [hs]; simp

theorem processLines_exit_ne (env : Env σ) (ip : IP) (lines : List (List Byte))
    (lineNo nm ne : Nat) (mr : metricReceiver σ) :
    (processLines env ip lines lineNo nm ne mr).1 ≠ Exit.outOfFuel := by
  rcases processLines_exit env ip lines lineNo nm ne mr with
    ⟨e1, _⟩ | ⟨_, _, _, _, _, _, e1, _⟩ | ⟨_, _, _, _, _, _, _, _, e1, _⟩ <;>
    rw [e1] <;> simp

/-- The iteration of the loop that reads the last line, one without line feed: the
loop is left in this iteration, unless the lexer rejects the line, in which case
`continue` leads to one more iteration, on the empty buffer. -/
theorem handleLoop_eof_step (env : Env σ) (ip : IP) (fuel lineNo nm ne : Nat)
    (mr : metricReceiver σ) (l : List Byte) (h : LF ∉ l) :
    handleLoop env ip (fuel + 1) l lineNo nm ne mr =
      if 1 < l.length ∧ (parseLine env mr l).err ≠ none then
        handleLoop env ip fuel [] (lineNo + 1) nm ne
          { mr with trace := mr.trace ++ [Call.parseLine lineNo l (parseLine env mr l)],
                    badLines := (mr.badLines + 1) % 2 ^ 64 }
      else
        match lineStep env ip lineNo l nm ne mr with
        | (some e, nm, ne, mr) => (e, nm, ne, mr)
        | (none, nm, ne, mr) => (Exit.ret none, nm, ne, mr) := by
  rw [handleLoop, readBytes_eof l LF h]
  simp only [lineStep]
  by_cases hlen : 1 < l.length
  · rcases hres : parseLine env mr l with ⟨m, e, err⟩
    rcases err with _ | err
    · rcases m with _ | m
      · rcases e with _ | e
        · simp [hlen, hres]
        · by_cases hd : e.DateHappened = 0 <;> simp [hlen, hres, hd] <;> split <;> simp_all
      · simp [hlen, hres]; split <;> simp_all
    · simp [hlen, hres]
  · simp [hlen]

/-- C19. `handlePacket` terminates on every datagram, whatever the lexer and the
handler return: the loop, given two units of fuel more than the buffer has bytes,
never runs out of fuel, and more fuel does not change what it does. Each
iteration either leaves the loop or goes on with a strictly shorter buffer. When
the last line has no line feed and the lexer rejects it, the iteration that reads
it does not leave the loop (`continue` skips the test of the end of the buffer),
and the next one, which reads the empty buffer, does. -/
theorem handlePacket_terminates (env : Env σ) (ip : IP) :
    (∀ (mr : metricReceiver σ) (addr msg : List Byte),
      (handlePacket env mr addr msg).1 ≠ Exit.outOfFuel) ∧
    (∀ (fuel : Nat) (buf : List Byte) (lineNo nm ne : Nat) (mr : metricReceiver σ),
      buf.length + 2 ≤ fuel →
      (handleLoop env ip fuel buf lineNo nm ne mr).1 ≠ Exit.outOfFuel ∧
      handleLoop env ip fuel buf lineNo nm ne mr =
        handleLoop env ip (buf.length + 2) buf lineNo nm ne mr) ∧
    (∀ (buf : List Byte) (lineNo nm ne : Nat) (mr : metricReceiver σ),
      (∃ r : Exit × Nat × Nat × metricReceiver σ, r.1 ≠ Exit.outOfFuel ∧
        ∀ fuel, handleLoop env ip (fuel + 1) buf lineNo nm ne mr = r) ∨
      (∃ (buf1 : List Byte) (nm1 ne1 : Nat) (mr1 : metricReceiver σ),
        buf1.length < buf.length ∧
        ∀ fuel, handleLoop env ip (fuel + 1) buf lineNo nm ne mr =
          handleLoop env ip fuel buf1 (lineNo + 1) nm1 ne1 mr1)) ∧
    (∀ (l : List Byte) (lineNo nm ne : Nat) (mr : metricReceiver σ),
      LF ∉ l → 1 < l.length → (parseLine env mr l).err ≠ none →
      (handleLoop env ip 1 l lineNo nm ne mr).1 = Exit.outOfFuel ∧
      ∀ fuel, handleLoop env ip (fuel + 2) l lineNo nm ne mr =
        (Exit.ret none, nm, ne,
          { mr with trace := mr.trace ++ [Call.parseLine lineNo l (parseLine env mr l)],
                    badLines := (mr.badLines + 1) % 2 ^ 64 })) := by
  refine ⟨?_, ?_, ?_, ?_⟩
  · intro mr addr msg
    rw [handlePacket_exit]
    exact processLines_exit_ne env (sourceIP addr) (splitLines msg) 0 0 0 mr
  · intro fuel buf lineNo nm ne mr hf
    rw [handleLoop_eq_processLines env ip fuel buf lineNo nm ne mr hf,
      handleLoop_eq_processLines env ip (buf.length + 2) buf lineNo nm ne mr (le_refl _)]
    exact ⟨processLines_exit_ne env ip (splitLines buf) lineNo nm ne mr, rfl⟩
  · intro buf lineNo nm ne mr
    have hne := lineStep_exit_ne env ip lineNo
    rcases exists_line buf LF with h | ⟨l, rest, hl, rfl⟩
    · by_cases hbad : 1 < buf.length ∧ (parseLine env mr buf).err ≠ none
      · right
        refine ⟨[], nm, ne,
          { mr with trace := mr.trace ++ [Call.parseLine lineNo buf (parseLine env mr buf)],
                    badLines := (mr.badLines + 1) % 2 ^ 64 },
          by rw [List.length_nil]; omega, fun fuel => ?_⟩
        rw [handleLoop_eof_step env ip fuel lineNo nm ne mr buf h, if_pos hbad]
      · left
        rcases hs : lineStep env ip lineNo buf nm ne mr with ⟨_ | e, nm1, ne1, mr1⟩
        · refine ⟨(Exit.ret none, nm1, ne1, mr1), by simp, fun fuel => ?_⟩
          rw [handleLoop_eof_step env ip fuel lineNo nm ne mr buf h, if_neg hbad, hs]
        · refine ⟨(e, nm1, ne1, mr1), ?_, fun fuel => ?_⟩
          · have := hne buf nm ne mr
            rw [hs] at this
            exact fun he => this (congrArg some he)
          · rw [handleLoop_eof_step env ip fuel lineNo nm ne mr buf h, if_neg hbad, hs]
    · rcases hs : lineStep env ip lineNo l nm ne mr with ⟨_ | e, nm1, ne1, mr1⟩
      · right
        refine ⟨rest, nm1, ne1, mr1, by rw [List.length_append, List.length_cons]; omega,
          fun fuel => ?_⟩
        rw [handleLoop_line env ip fuel lineNo nm ne mr l rest hl, hs]
      · left
        refine ⟨(e, nm1, ne1, mr1), ?_, fun fuel => ?_⟩
        · have := hne l nm ne mr
          rw [hs] at this
          exact fun he => this (congrArg some he)
        · rw [handleLoop_line env ip fuel lineNo nm ne mr l rest hl, hs]
  · intro l lineNo nm ne mr hl hlen herr
    constructor
    · rw [handleLoop_eof_step env ip 0 lineNo nm ne mr l hl, if_pos ⟨hlen, herr⟩]
      rfl
    · intro fuel
      rw [handleLoop_eof_step env ip (fuel + 1) lineNo nm ne mr l hl, if_pos ⟨hlen, herr⟩,
        handleLoop_nil]

/-! ## One outcome for a lexed line, and parse errors -/

/-- The calls made for a line are: none when the line is not longer than a byte;
else the lexer call alone when the lexer returns an error, the lexer call and one
`DispatchMetric` when it returns no error and a metric, the lexer call and one
`DispatchEvent` when it returns no error, no metric and an event, and the lexer
call alone when it returns nothing. -/
theorem lineCalls_shape (env : Env σ) (ip : IP) (lineNo : Nat) (line : List Byte)
    (nm ne : Nat) (mr : metricReceiver σ) :
    (¬ 1 < line.length ∧ lineCalls env ip lineNo line nm ne mr = []) ∨
    (1 < line.length ∧
      (((env.run line mr.namespace_).err ≠ none ∧
        lineCalls env ip lineNo line nm ne mr =
          [Call.parseLine lineNo line (env.run line mr.namespace_)]) ∨
      ((env.run line mr.namespace_).err = none ∧ (env.run line mr.namespace_).metric ≠ none ∧
        ∃ m r, lineCalls env ip lineNo line nm ne mr =
          [Call.parseLine lineNo line (env.run line mr.namespace_),
            Call.DispatchMetric lineNo m r]) ∨
      ((env.run line mr.namespace_).err = none ∧ (env.run line mr.namespace_).metric = none ∧
        (env.run line mr.namespace_).event ≠ none ∧
        ∃ e r, lineCalls env ip lineNo line nm ne mr =
          [Call.parseLine lineNo line (env.run line mr.namespace_),
            Call.DispatchEvent lineNo e r]) ∨
      ((env.run line mr.namespace_).err = none ∧ (env.run line mr.namespace_).metric = none ∧
        (env.run line mr.namespace_).event = none ∧
        lineCalls env ip lineNo line nm ne mr =
          [Call.parseLine lineNo line (env.run line mr.namespace_)]))) := by
  rcases lineStep_cases env ip lineNo line nm ne mr with
    ⟨hlen, h, _⟩ | ⟨hlen, e1, h, _⟩ | ⟨hlen, e1, d, hd, hdl, h, _⟩ | ⟨hlen, e1, e2, e3, h, _⟩
  · exact Or.inl ⟨hlen, h⟩
  · exact Or.inr ⟨hlen, Or.inl ⟨e1, h⟩⟩
  · have hdm := (lineCalls_madeFor env ip lineNo line nm ne mr d (by rw [h]; simp)).2.2
    refine Or.inr ⟨hlen, Or.inr ?_⟩
    cases d with
    | parseLine j l2 r2 => simp [Call.isDispatch] at hd
    | DispatchMetric j m r2 =>
      obtain ⟨_, m0, hm0, _⟩ := hdm
      have hj : j = lineNo := hdl
      subst hj
      exact Or.inl ⟨e1, by rw [hm0]; simp, m, r2, h⟩
    | DispatchEvent j e r2 =>
      obtain ⟨_, hm, e0, he0, _⟩ := hdm
      have hj : j = lineNo := hdl
      subst hj
      exact Or.inr (Or.inl ⟨e1, hm, by rw [he0]; simp, e, r2, h⟩)
  · exact Or.inr ⟨hlen, Or.inr (Or.inr (Or.inr ⟨e1, e2, e3, h⟩))⟩

theorem callsOnLine_append (a b : List Call) (i : Nat) :
    callsOnLine (a ++ b) i = callsOnLine a i ++ callsOnLine b i := by
  simp [callsOnLine, List.filter_append]

theorem callsOnLine_of_eq (cs : List Call) (i : Nat) (h : ∀ c ∈ cs, c.lineNo = i) :
    callsOnLine cs i = cs := by
  unfold callsOnLine
  rw [List.filter_eq_self]
  intro c hc
  simp [h c hc]

theorem callsOnLine_of_ne (cs : List Call) (i : Nat) (h : ∀ c ∈ cs, c.lineNo ≠ i) :
    callsOnLine cs i = [] := by
  unfold callsOnLine
  rw [List.filter_eq_nil_iff]
  intro c hc
  simp [h c hc]

/-- The calls made over `lines` for the line of a lexer call are the calls one
iteration makes for it. -/
theorem linesCalls_onLine (env : Env σ) (ip : IP) (lines : List (List Byte)) :
    ∀ (lineNo nm ne : Nat) (mr : metricReceiver σ) (i : Nat) (l : List Byte) (res : LexResult),
    Call.parseLine i l res ∈ linesCalls env ip lines lineNo nm ne mr →
    ∃ (nm1 ne1 : Nat) (mr1 : metricReceiver σ), mr1.namespace_ = mr.namespace_ ∧
      1 < l.length ∧ res = env.run l mr.namespace_ ∧
      callsOnLine (linesCalls env ip lines lineNo nm ne mr) i =
        lineCalls env ip i l nm1 ne1 mr1 := by
  induction lines with
  | nil => intro lineNo nm ne mr i l res hc; simp [linesCalls_nil] at hc
  | cons line lines ih =>
    intro lineNo nm ne mr i l res hc
    rw [linesCalls_cons, List.mem_append] at hc
    rw [linesCalls_cons, callsOnLine_append]
    have hline : ∀ c ∈ lineCalls env ip lineNo line nm ne mr, c.lineNo = lineNo :=
      fun c h => (lineCalls_madeFor env ip lineNo line nm ne mr c h).1
    rcases hc with hc | hc
    · obtain ⟨h1, h2, h3⟩ := lineCalls_madeFor env ip lineNo line nm ne mr _ hc
      have hi : i = lineNo := h1
      obtain ⟨hl, hres⟩ : l = line ∧ res = env.run line mr.namespace_ := h3
      subst hi hl
      refine ⟨nm, ne, mr, rfl, h2, hres, ?_⟩
      rw [callsOnLine_of_eq _ i hline, callsOnLine_of_ne, List.append_nil]
      intro c hcr
      rcases hs : (lineStep env ip i l nm ne mr).1 with _ | ex
      · rw [hs] at hcr
        have := (linesCalls_lineNo env ip lines _ _ _ _ c hcr).1
        omega
      · rw [hs] at hcr; simp at hcr
    · rcases hs : (lineStep env ip lineNo line nm ne mr).1 with _ | ex
      · rw [hs] at hc
        dsimp only at hc ⊢
        obtain ⟨nm1, ne1, mr1, g1, g2, g3, g4⟩ := ih _ _ _ _ i l res hc
        have hge := (linesCalls_lineNo env ip lines _ _ _ _ _ hc).1
        have hi : (Call.parseLine i l res).lineNo = i := rfl
        rw [hi] at hge
        have hcfg := (lineStep_config env ip lineNo line nm ne mr).2
        refine ⟨nm1, ne1, mr1, g1.trans hcfg, g2, by rw [g3, hcfg], ?_⟩
        rw [callsOnLine_of_ne _ i (fun c h => by rw [hline c h]; omega), List.nil_append, g4]
      · rw [hs] at hc; simp at hc

/-- C18. Whatever the lexer returns for a line `handlePacket` lexes, also when it
populates more than one of metric, event and error, the calls made for that line
are the lexer call followed by at most one outcome: nothing more when there is an
error (the line is a bad line, counted once), one `DispatchMetric` when there is
no error and a metric, one `DispatchEvent` when there is no error, no metric and
an event, and nothing when all three are nil. So a lexed line gives at most one
of a bad line, a `DispatchMetric` and a `DispatchEvent`, and exactly one when one
of the three is populated; the bad line counter goes up by the number of bad
lines. -/
theorem handlePacket_one_outcome (env : Env σ) (mr : metricReceiver σ) (addr msg : List Byte)
    (i : Nat) (l : List Byte) (res : LexResult)
    (hc : Call.parseLine i l res ∈ packetCalls env mr addr msg) :
    ((res.err ≠ none ∧
        callsOnLine (packetCalls env mr addr msg) i = [Call.parseLine i l res]) ∨
      (res.err = none ∧ res.metric ≠ none ∧
        ∃ m r, callsOnLine (packetCalls env mr addr msg) i =
          [Call.parseLine i l res, Call.DispatchMetric i m r]) ∨
      (res.err = none ∧ res.metric = none ∧ res.event ≠ none ∧
        ∃ e r, callsOnLine (packetCalls env mr addr msg) i =
          [Call.parseLine i l res, Call.DispatchEvent i e r]) ∨
      (res.err = none ∧ res.metric = none ∧ res.event = none ∧
        callsOnLine (packetCalls env mr addr msg) i = [Call.parseLine i l res])) ∧
    (callsOnLine (packetCalls env mr addr msg) i).countP Call.isBadLine +
      (callsOnLine (packetCalls env mr addr msg) i).countP Call.isDispatchMetric +
      (callsOnLine (packetCalls env mr addr msg) i).countP Call.isDispatchEvent ≤ 1 ∧
    (res.err ≠ none ∨ res.metric ≠ none ∨ res.event ≠ none →
      (callsOnLine (packetCalls env mr addr msg) i).countP Call.isBadLine +
        (callsOnLine (packetCalls env mr addr msg) i).countP Call.isDispatchMetric +
        (callsOnLine (packetCalls env mr addr msg) i).countP Call.isDispatchEvent = 1) ∧
    (handlePacket env mr addr msg).2.badLines % 2 ^ 64 =
      (mr.badLines + (packetCalls env mr addr msg).countP Call.isBadLine) % 2 ^ 64 := by
  have hbad : (handlePacket env mr addr msg).2.badLines % 2 ^ 64 =
      (mr.badLines + (packetCalls env mr addr msg).countP Call.isBadLine) % 2 ^ 64 := by
    rw [(handlePacket_fields env mr addr msg).2.1, packetCalls_eq]
    exact (processLines_counts env (sourceIP addr) (splitLines msg) 0 0 0 mr).1
  rw [packetCalls_eq] at hbad hc ⊢
  obtain ⟨nm1, ne1, mr1, g1, _, g3, g4⟩ :=
    linesCalls_onLine env (sourceIP addr) (splitLines msg) 0 0 0 mr i l res hc
  rw [g4]
  rw [← g1] at g3
  rcases lineCalls_shape env (sourceIP addr) i l nm1 ne1 mr1 with
    ⟨_, h⟩ | ⟨_, ⟨e1, h⟩ | ⟨e1, e2, m, r, h⟩ | ⟨e1, e2, e3, e, r, h⟩ | ⟨e1, e2, e3, h⟩⟩
  · have : Call.parseLine i l res ∈ callsOnLine
        (linesCalls env (sourceIP addr) (splitLines msg) 0 0 0 mr) i := by
      unfold callsOnLine
      exact List.mem_filter.mpr ⟨hc, by simp [Call.lineNo]⟩
    rw [g4, h] at this
    simp at this
  · rw [← g3] at e1 h
    have hs : res.err.isSome = true := by
      cases hx : res.err with
      | none => exact absurd hx e1
      | some v => rfl
    rw [h]
    refine ⟨Or.inl ⟨e1, rfl⟩, ?_, ?_, hbad⟩
    · simp [Call.isBadLine, Call.isDispatchMetric, Call.isDispatchEvent, hs]
    · intro _
      simp [Call.isBadLine, Call.isDispatchMetric, Call.isDispatchEvent, hs]
  · rw [← g3] at e1 e2 h
    rw [h]
    refine ⟨Or.inr (Or.inl ⟨e1, e2, m, r, rfl⟩), ?_, ?_, hbad⟩
    · simp [Call.isBadLine, Call.isDispatchMetric, Call.isDispatchEvent, e1, List.countP_cons]
    · intro _
      simp [Call.isBadLine, Call.isDispatchMetric, Call.isDispatchEvent, e1, List.countP_cons]
  · rw [← g3] at e1 e2 e3 h
    rw [h]
    refine ⟨Or.inr (Or.inr (Or.inl ⟨e1, e2, e3, e, r, rfl⟩)), ?_, ?_, hbad⟩
    · simp [Call.isBadLine, Call.isDispatchMetric, Call.isDispatchEvent, e1, List.countP_cons]
    · intro _
      simp [Call.isBadLine, Call.isDispatchMetric, Call.isDispatchEvent, e1, List.countP_cons]
  · rw [← g3] at e1 e2 e3 h
    rw [h]
    refine ⟨Or.inr (Or.inr (Or.inr ⟨e1, e2, e3, rfl⟩)), ?_, ?_, hbad⟩
    · simp [Call.isBadLine, Call.isDispatchMetric, Call.isDispatchEvent, e1]
    · intro hp
      rcases hp with hp | hp | hp
      · exact absurd e1 hp
      · exact absurd e2 hp
      · exact absurd e3 hp

/-- Witness of `handlePacket_one_outcome`: the second line of the packet, `ee`,
gives an event and is dispatched once, by `DispatchEvent`. -/
theorem handlePacket_one_outcome_witness :
    Call.parseLine 1 [101, 101] ⟨none, some ⟨"ns", "text", 0, ["b"], []⟩, none⟩ ∈
      packetCalls (exampleEnv 9 (fun _ => ⟨5, 0⟩)) exampleReceiver exampleAddr
        [120, 120, 10, 101, 101, 10, 109, 109] ∧
    (callsOnLine (packetCalls (exampleEnv 9 (fun _ => ⟨5, 0⟩)) exampleReceiver exampleAddr
        [120, 120, 10, 101, 101, 10, 109, 109]) 1).countP Call.isBadLine +
      (callsOnLine (packetCalls (exampleEnv 9 (fun _ => ⟨5, 0⟩)) exampleReceiver exampleAddr
        [120, 120, 10, 101, 101, 10, 109, 109]) 1).countP Call.isDispatchMetric +
      (callsOnLine (packetCalls (exampleEnv 9 (fun _ => ⟨5, 0⟩)) exampleReceiver exampleAddr
        [120, 120, 10, 101, 101, 10, 109, 109]) 1).countP Call.isDispatchEvent = 1 :=
  ⟨by decide,
    (handlePacket_one_outcome (exampleEnv 9 (fun _ => ⟨5, 0⟩)) exampleReceiver exampleAddr
      [120, 120, 10, 101, 101, 10, 109, 109] 1 [101, 101]
      ⟨none, some ⟨"ns", "text", 0, ["b"], []⟩, none⟩ (by decide)).2.2.1
      (Or.inr (Or.inr (by simp)))⟩

/-- The lexer call of a line the lexer rejects is the only call made for it. -/
theorem bad_line_alone (env : Env σ) (ip : IP) (lines : List (List Byte))
    (lineNo nm ne : Nat) (mr : metricReceiver σ) (i : Nat) (l : List Byte) (res : LexResult)
    (hp : Call.parseLine i l res ∈ linesCalls env ip lines lineNo nm ne mr)
    (herr : res.err ≠ none) :
    ∀ c ∈ linesCalls env ip lines lineNo nm ne mr, c.lineNo = i → c = Call.parseLine i l res := by
  intro c hc hci
  obtain ⟨nm1, ne1, mr1, g1, _, g3, g4⟩ := linesCalls_onLine env ip lines lineNo nm ne mr i l res hp
  rw [← g1] at g3
  have hon : c ∈ callsOnLine (linesCalls env ip lines lineNo nm ne mr) i := by
    unfold callsOnLine
    exact List.mem_filter.mpr ⟨hc, by simp [hci]⟩
  have hpon : Call.parseLine i l res ∈ callsOnLine (linesCalls env ip lines lineNo nm ne mr) i := by
    unfold callsOnLine
    exact List.mem_filter.mpr ⟨hp, by simp [Call.lineNo]⟩
  rw [g4] at hon hpon
  rcases lineCalls_shape env ip i l nm1 ne1 mr1 with
    ⟨_, h⟩ | ⟨_, ⟨_, h⟩ | ⟨e1, _⟩ | ⟨e1, _⟩ | ⟨e1, _⟩⟩
  · rw [h] at hpon; simp at hpon
  · rw [h, List.mem_singleton] at hon
    rw [hon, g3]
  · rw [← g3] at e1; exact absurd e1 herr
  · rw [← g3] at e1; exact absurd e1 herr
  · rw [← g3] at e1; exact absurd e1 herr

/-- Every line read that is longer than a byte is lexed, and dispatched when the
lexer returns a unit and no error for it. -/
theorem linesCalls_complete (env : Env σ) (ip : IP) (lines : List (List Byte)) :
    ∀ (lineNo nm ne : Nat) (mr : metricReceiver σ) (j : Nat) (line : List Byte),
    lines.get? j = some line → j < linesDone env ip lines lineNo nm ne mr → 1 < line.length →
    Call.parseLine (lineNo + j) line (env.run line mr.namespace_) ∈
      linesCalls env ip lines lineNo nm ne mr ∧
    ((env.run line mr.namespace_).err = none →
      (env.run line mr.namespace_).metric ≠ none ∨ (env.run line mr.namespace_).event ≠ none →
      ∃ d ∈ linesCalls env ip lines lineNo nm ne mr, d.isDispatch = true ∧
        d.lineNo = lineNo + j) := by
  induction lines with
  | nil => intro lineNo nm ne mr j line hj; simp at hj
  | cons l0 lines ih =>
    intro lineNo nm ne mr j line hj hlt hlen
    rw [linesCalls_cons]
    cases j with
    | zero =>
      have hl : l0 = line := by simpa using hj
      subst hl
      rcases lineCalls_shape env ip lineNo l0 nm ne mr with
        ⟨h0, _⟩ | ⟨_, ⟨e1, h⟩ | ⟨_, _, m, r, h⟩ | ⟨_, _, _, e, r, h⟩ | ⟨e1, e2, e3, h⟩⟩
      · exact absurd hlen h0
      · rw [h]
        exact ⟨by simp, fun he => absurd he e1⟩
      · rw [h]
        exact ⟨by simp, fun _ _ => ⟨Call.DispatchMetric lineNo m r, by simp, rfl, rfl⟩⟩
      · rw [h]
        exact ⟨by simp, fun _ _ => ⟨Call.DispatchEvent lineNo e r, by simp, rfl, rfl⟩⟩
      · rw [h]
        refine ⟨by simp, fun _ hp => ?_⟩
        rcases hp with hp | hp
        · exact absurd e2 hp
        · exact absurd e3 hp
    | succ j =>
      rw [linesDone_cons] at hlt
      rcases hs : (lineStep env ip lineNo l0 nm ne mr).1 with _ | ex
      · rw [hs] at hlt
        dsimp only at hlt ⊢
        have hj2 : lines.get? j = some line := by simpa using hj
        have hlt2 : j < linesDone env ip lines (lineNo + 1)
            (lineStep env ip lineNo l0 nm ne mr).2.1 (lineStep env ip lineNo l0 nm ne mr).2.2.1
            (lineStep env ip lineNo l0 nm ne mr).2.2.2 := by
          generalize linesDone env ip lines _ _ _ _ = X at hlt ⊢
          have : j + 1 < X + 1 := hlt
          omega
        obtain ⟨i1, i2⟩ := ih _ _ _ _ j line hj2 hlt2 hlen
        rw [(lineStep_config env ip lineNo l0 nm ne mr).2] at i1 i2
        have hidx : lineNo + 1 + j = lineNo + (j + 1) := by omega
        rw [hidx] at i1 i2
        refine ⟨List.mem_append_right _ i1, fun h1 h2 => ?_⟩
        obtain ⟨d, hd1, hd2, hd3⟩ := i2 h1 h2
        exact ⟨d, List.mem_append_right _ hd1, hd2, hd3⟩
      · rw [hs] at hlt
        have : j + 1 < 1 := hlt
        omega

/-- C15, amended. A line parse error never aborts the packet. The line after a
line the lexer rejected is read, when there is one. Every line read that is longer
than one byte is lexed and, when the lexer returns a unit and no error for it,
dispatched; the lines after a rejected one are read until a dispatch fails or the
lexer returns nothing, and only these two stop the loop before the last line. When
every dispatch call succeeds and no lexer result is empty, `handlePacket` reads
every line and returns no error, however many lines the lexer rejected. -/
theorem handlePacket_parse_error (env : Env σ) (mr : metricReceiver σ) (addr msg : List Byte) :
    (∀ i l res, Call.parseLine i l res ∈ packetCalls env mr addr msg → res.err ≠ none →
      i + 1 < linesRead env mr addr msg ∨ i + 1 = (splitLines msg).length) ∧
    (∀ j line, (splitLines msg).get? j = some line → j < linesRead env mr addr msg →
      1 < line.length →
      Call.parseLine j line (parseLine env mr line) ∈ packetCalls env mr addr msg ∧
      ((parseLine env mr line).err = none →
        (parseLine env mr line).metric ≠ none ∨ (parseLine env mr line).event ≠ none →
        ∃ d ∈ dispatchCalls env mr addr msg, d.lineNo = j)) ∧
    (linesRead env mr addr msg < (splitLines msg).length →
      ∃ c, (packetCalls env mr addr msg).getLast? = some c ∧
        c.lineNo + 1 = linesRead env mr addr msg ∧
        (c.dispatchError ≠ none ∨
          ∃ i l res, c = Call.parseLine i l res ∧
            res.err = none ∧ res.metric = none ∧ res.event = none)) ∧
    ((∀ c ∈ packetCalls env mr addr msg, c.dispatchError = none) →
      (∀ i l res, Call.parseLine i l res ∈ packetCalls env mr addr msg →
        res.err ≠ none ∨ res.metric ≠ none ∨ res.event ≠ none) →
      (handlePacket env mr addr msg).1 = Exit.ret none ∧
      linesRead env mr addr msg = (splitLines msg).length) := by
  rw [handlePacket_exit, linesRead_eq]
  simp only [dispatchCalls, packetCalls_eq]
  have hex := processLines_exit env (sourceIP addr) (splitLines msg) 0 0 0 mr
  have hle := linesDone_le env (sourceIP addr) (splitLines msg) 0 0 0 mr
  refine ⟨?_, ?_, ?_, ?_⟩
  · intro i l res hp herr
    have hlt := (linesCalls_lineNo env (sourceIP addr) (splitLines msg) 0 0 0 mr _ hp).2
    have hi : (Call.parseLine i l res).lineNo = i := rfl
    rw [hi, Nat.zero_add] at hlt
    have halone := bad_line_alone env (sourceIP addr) (splitLines msg) 0 0 0 mr i l res hp herr
    rcases hex with ⟨_, e2, _⟩ | ⟨pre, c, err, e1, e2, _, _, e5, _⟩ |
      ⟨pre, i1, l1, res1, e1, e2, _, _, _, e6, _⟩
    · omega
    · left
      have hcm : c ∈ linesCalls env (sourceIP addr) (splitLines msg) 0 0 0 mr := by
        rw [e1]; simp
      by_cases hci : c.lineNo = i
      · have := halone c hcm hci
        rw [this] at e2
        simp [Call.isDispatch] at e2
      · omega
    · left
      have hcm : Call.parseLine i1 l1 res1 ∈
          linesCalls env (sourceIP addr) (splitLines msg) 0 0 0 mr := by
        rw [e1]; simp
      by_cases hci : i1 = i
      · have := halone _ hcm hci
        injection this with _ _ h3
        rw [h3] at e2
        exact absurd e2 herr
      · omega
  · intro j line hj hlt hlen
    obtain ⟨h1, h2⟩ := linesCalls_complete env (sourceIP addr) (splitLines msg) 0 0 0 mr j line
      hj hlt hlen
    rw [Nat.zero_add] at h1 h2
    refine ⟨h1, fun g1 g2 => ?_⟩
    obtain ⟨d, hd1, hd2, hd3⟩ := h2 g1 g2
    exact ⟨d, List.mem_filter.mpr ⟨hd1, hd2⟩, hd3⟩
  · intro hlt
    rcases hex with ⟨_, e2, _⟩ | ⟨pre, c, err, e1, _, e3, _, e5, _⟩ |
      ⟨pre, i1, l1, res1, e1, e2, e3, e4, _, e6, _⟩
    · omega
    · refine ⟨c, by rw [e1]; simp, by omega, Or.inl (by rw [e3]; simp)⟩
    · refine ⟨Call.parseLine i1 l1 res1, by rw [e1]; simp, ?_,
        Or.inr ⟨i1, l1, res1, rfl, e2, e3, e4⟩⟩
      have hi : (Call.parseLine i1 l1 res1).lineNo = i1 := rfl
      rw [hi]
      omega
  · intro hall hlex
    rcases hex with ⟨e1, e2, _⟩ | ⟨pre, c, err, e1, _, e3, _⟩ |
      ⟨pre, i1, l1, res1, e1, e2, e3, e4, _⟩
    · exact ⟨e1, e2⟩
    · have := hall c (by rw [e1]; simp)
      rw [e3] at this
      exact absurd this (by simp)
    · rcases hlex i1 l1 res1 (by rw [e1]; simp) with h | h | h
      · exact absurd e2 h
      · exact absurd e3 h
      · exact absurd e4 h

/-- C15, counterexample. The lexer rejects the first line `xx`; the handler fails
on the unit of the second line; the third line `mm`, which follows the rejected
line and is longer than one byte, is not lexed. -/
theorem line_after_rejected_not_lexed_counterexample :
    splitLines [120, 120, 10, 109, 109, 10, 109, 109] =
      [[120, 120], [109, 109], [109, 109]] ∧
    (parseLine (exampleEnv 0 (fun _ => ⟨5, 0⟩)) exampleReceiver [120, 120]).err =
      some (GoError.other 1) ∧
    lexedLines (exampleEnv 0 (fun _ => ⟨5, 0⟩)) exampleReceiver exampleAddr
      [120, 120, 10, 109, 109, 10, 109, 109] = [[120, 120], [109, 109]] := by
  decide

/-! ## Lines of at most one byte -/

theorem sameButLineNos_refl (mr : metricReceiver σ) : sameButLineNos mr mr :=
  ⟨rfl, rfl⟩

/-- One iteration of the loop does the same on two states that are the same but
for line numbers, whatever the numbers of the two iterations. -/
theorem lineStep_sameButLineNos (env : Env σ) (ip : IP) (n n1 : Nat) (line : List Byte)
    (nm ne : Nat) (mr mr1 : metricReceiver σ) (h : sameButLineNos mr mr1) :
    (lineStep env ip n1 line nm ne mr1).1 = (lineStep env ip n line nm ne mr).1 ∧
    (lineStep env ip n1 line nm ne mr1).2.1 = (lineStep env ip n line nm ne mr).2.1 ∧
    (lineStep env ip n1 line nm ne mr1).2.2.1 = (lineStep env ip n line nm ne mr).2.2.1 ∧
    sameButLineNos (lineStep env ip n line nm ne mr).2.2.2
      (lineStep env ip n1 line nm ne mr1).2.2.2 := by
  obtain ⟨h1, h2⟩ := h
  generalize mr1.trace = t1 at h1 h2
  subst h1
  unfold lineStep sameButLineNos
  by_cases hlen : 1 < line.length
  · have hpl : parseLine env { mr with trace := t1 } line = parseLine env mr line := rfl
    rcases hres : parseLine env mr line with ⟨m, e, err⟩
    rcases err with _ | err
    · rcases m with _ | m
      · rcases e with _ | e
        · simp [hlen, hpl, hres, h2, Call.eraseLineNo]
        · by_cases hd : e.DateHappened = 0 <;>
            simp [hlen, hpl, hres, hd, h2, Call.eraseLineNo]
      · simp [hlen, hpl, hres, h2, Call.eraseLineNo]
    · simp [hlen, hpl, hres, h2, Call.eraseLineNo]
  · simp [hlen, h2]

/-- The loop does the same on two states that are the same but for line numbers,
whatever the line numbers it starts from. -/
theorem processLines_sameButLineNos (env : Env σ) (ip : IP) (lines : List (List Byte)) :
    ∀ (n n1 nm ne : Nat) (mr mr1 : metricReceiver σ), sameButLineNos mr mr1 →
      sameResult (processLines env ip lines n nm ne mr)
        (processLines env ip lines n1 nm ne mr1) := by
  induction lines with
  | nil =>
    intro n n1 nm ne mr mr1 h
    exact ⟨rfl, rfl, rfl, h⟩
  | cons line lines ih =>
    intro n n1 nm ne mr mr1 h
    obtain ⟨s1, s2, s3, s4⟩ := lineStep_sameButLineNos env ip n n1 line nm ne mr mr1 h
    rw [processLines_cons, processLines_cons, s1]
    rcases hs : (lineStep env ip n line nm ne mr).1 with _ | ex
    · dsimp only
      rw [s2, s3]
      exact ih _ _ _ _ _ _ s4
    · exact ⟨rfl, s2, s3, s4⟩

theorem lineStep_short (env : Env σ) (ip : IP) (n : Nat) (line : List Byte) (nm ne : Nat)
    (mr : metricReceiver σ) (h : line.length ≤ 1) :
    lineStep env ip n line nm ne mr = (none, nm, ne, mr) := by
  unfold lineStep
  rw [if_neg (by omega)]

/-- Lines of at most one byte in front of the others change what the loop does
in the line numbers only. -/
theorem processLines_skip_short (env : Env σ) (ip : IP) (short lines : List (List Byte))
    (hshort : ∀ l ∈ short, l.length ≤ 1) :
    ∀ (n nm ne : Nat) (mr : metricReceiver σ),
      processLines env ip (short ++ lines) n nm ne mr =
        processLines env ip lines (n + short.length) nm ne mr := by
  induction short with
  | nil => intro n nm ne mr; rfl
  | cons l short ih =>
    intro n nm ne mr
    rw [List.cons_append, processLines_cons,
      lineStep_short env ip n l nm ne mr (hshort l (by simp))]
    dsimp only
    rw [ih (fun x hx => hshort x (by simp [hx]))]
    congr 1
    simp only [List.length_cons]
    omega

/-- Lines of at most one byte put between the lines change what the loop does in
the line numbers only. -/
theorem processLines_insert_short (env : Env σ) (ip : IP) (short after : List (List Byte))
    (hshort : ∀ l ∈ short, l.length ≤ 1) (before : List (List Byte)) :
    ∀ (n nm ne : Nat) (mr : metricReceiver σ),
      sameResult (processLines env ip (before ++ after) n nm ne mr)
        (processLines env ip (before ++ (short ++ after)) n nm ne mr) := by
  induction before with
  | nil =>
    intro n nm ne mr
    rw [List.nil_append, List.nil_append, processLines_skip_short env ip short after hshort]
    exact processLines_sameButLineNos env ip after _ _ _ _ _ _ (sameButLineNos_refl mr)
  | cons line before ih =>
    intro n nm ne mr
    rw [List.cons_append, List.cons_append, processLines_cons, processLines_cons]
    rcases hs : (lineStep env ip n line nm ne mr).1 with _ | ex
    · exact ih _ _ _ _
    · exact ⟨rfl, rfl, rfl, sameButLineNos_refl _⟩

theorem splitLines_append (x y : List Byte) :
    splitLines (x ++ LF :: y) = splitLines x ++ splitLines y := by
  induction x with
  | nil => simp [splitLines]
  | cons b bs ih =>
    by_cases hb : b = LF
    · simp [splitLines, hb, ih]
    · cases hsp : splitLines bs with
      | nil => exact absurd hsp (splitLines_ne_nil bs)
      | cons l ls =>
        rw [hsp] at ih
        simp [splitLines, hb, ih, hsp]

theorem splitLines_short (s : List Byte) (hs : s.length ≤ 1) :
    ∀ l ∈ splitLines s, l.length ≤ 1 := by
  cases s with
  | nil => simp [splitLines]
  | cons x xs =>
    cases xs with
    | nil =>
      by_cases hx : x = LF
      · simp [splitLines, hx]
      · simp [splitLines, hx]
    | cons y ys => simp at hs

/-- Putting a line of at most one byte, with its line feed, at a line boundary of
a datagram puts lines of at most one byte between its lines. -/
theorem splitLines_insert (a b s : List Byte) (hb : a = [] ∨ a.getLast? = some LF)
    (hs : s.length ≤ 1) :
    ∃ before after short, (∀ l ∈ short, l.length ≤ 1) ∧
      splitLines (a ++ b) = before ++ after ∧
      splitLines (a ++ s ++ LF :: b) = before ++ (short ++ after) := by
  rcases hb with rfl | hb
  · refine ⟨[], splitLines b, splitLines s, splitLines_short s hs, rfl, ?_⟩
    rw [List.nil_append, List.nil_append, splitLines_append]
  · obtain ⟨a1, rfl⟩ : ∃ a1, a = a1 ++ [LF] := by
      rcases List.eq_nil_or_concat a with h | ⟨a1, x, h⟩
      · rw [h] at hb; simp at hb
      · rw [h] at hb
        simp at hb
        exact ⟨a1, by rw [h, hb]; simp⟩
    refine ⟨splitLines a1, splitLines b, splitLines s, splitLines_short s hs, ?_, ?_⟩
    · rw [List.append_assoc, List.singleton_append, splitLines_append]
    · rw [List.append_assoc, List.append_assoc, List.singleton_append, splitLines_append,
        splitLines_append]

theorem handlePacket_sameResult (env : Env σ) (mr : metricReceiver σ) (addr msg msg1 : List Byte)
    (h : sameResult (processLines env (sourceIP addr) (splitLines msg) 0 0 0 mr)
      (processLines env (sourceIP addr) (splitLines msg1) 0 0 0 mr)) :
    (handlePacket env mr addr msg1).1 = (handlePacket env mr addr msg).1 ∧
    sameButLineNos (handlePacket env mr addr msg).2 (handlePacket env mr addr msg1).2 := by
  rw [handlePacket_eq env mr addr msg, handlePacket_eq env mr addr msg1]
  rcases hp : processLines env (sourceIP addr) (splitLines msg) 0 0 0 mr with ⟨e, nm, ne, m⟩
  rcases hp1 : processLines env (sourceIP addr) (splitLines msg1) 0 0 0 mr with
    ⟨e1, nm1, ne1, m1⟩
  rw [hp, hp1] at h
  obtain ⟨h1, h2, h3, h4, h5⟩ := h
  simp only at h1 h2 h3 h4 h5
  subst h1 h2 h3
  generalize m1.trace = t1 at h4 h5
  subst h4
  cases e1 with
  | ret x => exact ⟨rfl, rfl, h5⟩
  | panic => exact ⟨rfl, rfl, h5⟩
  | outOfFuel => exact ⟨rfl, rfl, h5⟩

theorem lexedLine_eraseLineNo (c : Call) : c.eraseLineNo.lexedLine = c.lexedLine := by
  cases c <;> rfl

theorem isDispatch_eraseLineNo (c : Call) : c.eraseLineNo.isDispatch = c.isDispatch := by
  cases c <;> rfl

theorem packetCalls_eraseLineNo (env : Env σ) (mr : metricReceiver σ)
    (addr msg msg1 : List Byte)
    (h : sameButLineNos (handlePacket env mr addr msg).2 (handlePacket env mr addr msg1).2) :
    (packetCalls env mr addr msg1).map Call.eraseLineNo =
      (packetCalls env mr addr msg).map Call.eraseLineNo := by
  unfold packetCalls
  rw [List.map_drop, List.map_drop, h.2]

/-- C16. Lines of at most one byte have no effect: putting an empty line or a
line of one byte, followed by a line feed, at the start of a datagram or right
after one of its line feeds leaves what `handlePacket` does unchanged. It returns
the same error, passes the same lines to the lexer in the same order, dispatches
the same units with the same results in the same order (the recorded calls are
the same but for their line numbers), and leaves the bad line, metric and event
counters, the handler and the clock as without the line. -/
theorem handlePacket_short_line (env : Env σ) (mr : metricReceiver σ) (addr a b s : List Byte)
    (hb : a = [] ∨ a.getLast? = some LF) (hs : s.length ≤ 1) :
    (handlePacket env mr addr (a ++ s ++ LF :: b)).1 = (handlePacket env mr addr (a ++ b)).1 ∧
    lexedLines env mr addr (a ++ s ++ LF :: b) = lexedLines env mr addr (a ++ b) ∧
    (dispatchCalls env mr addr (a ++ s ++ LF :: b)).map Call.eraseLineNo =
      (dispatchCalls env mr addr (a ++ b)).map Call.eraseLineNo ∧
    (packetCalls env mr addr (a ++ s ++ LF :: b)).map Call.eraseLineNo =
      (packetCalls env mr addr (a ++ b)).map Call.eraseLineNo ∧
    (handlePacket env mr addr (a ++ s ++ LF :: b)).2.badLines =
      (handlePacket env mr addr (a ++ b)).2.badLines ∧
    (handlePacket env mr addr (a ++ s ++ LF :: b)).2.metricsReceived =
      (handlePacket env mr addr (a ++ b)).2.metricsReceived ∧
    (handlePacket env mr addr (a ++ s ++ LF :: b)).2.eventsReceived =
      (handlePacket env mr addr (a ++ b)).2.eventsReceived ∧
    (handlePacket env mr addr (a ++ s ++ LF :: b)).2.handler =
      (handlePacket env mr addr (a ++ b)).2.handler ∧
    (handlePacket env mr addr (a ++ s ++ LF :: b)).2.clockReads =
      (handlePacket env mr addr (a ++ b)).2.clockReads := by
  obtain ⟨before, after, short, hshort, h1, h2⟩ := splitLines_insert a b s hb hs
  have hsame := processLines_insert_short env (sourceIP addr) short after hshort before 0 0 0 mr
  rw [← h1, ← h2] at hsame
  obtain ⟨hexit, hst⟩ := handlePacket_sameResult env mr addr (a ++ b) (a ++ s ++ LF :: b) hsame
  have hcalls := packetCalls_eraseLineNo env mr addr (a ++ b) (a ++ s ++ LF :: b) hst
  have hfields := hst.1
  refine ⟨hexit, ?_, ?_, hcalls, ?_, ?_, ?_, ?_, ?_⟩
  · unfold lexedLines
    have hl : ∀ cs : List Call, cs.filterMap Call.lexedLine =
        (cs.map Call.eraseLineNo).filterMap Call.lexedLine := by
      intro cs
      rw [List.filterMap_map]
      exact List.filterMap_congr (fun c _ => (lexedLine_eraseLineNo c).symm)
    rw [hl (packetCalls env mr addr (a ++ s ++ LF :: b)), hcalls, ← hl]
  · unfold dispatchCalls
    have hd : ∀ cs : List Call, (cs.filter Call.isDispatch).map Call.eraseLineNo =
        (cs.map Call.eraseLineNo).filter Call.isDispatch := by
      intro cs
      rw [List.filter_map]
      congr 1
      exact List.filter_congr (fun c _ => (isDispatch_eraseLineNo c).symm)
    rw [hd, hd, hcalls]
  · rw [hfields]
  · rw [hfields]
  · rw [hfields]
  · rw [hfields]
  · rw [hfields]

/-- Witness of `handlePacket_short_line`: the one-byte line `x` is put after the
first line feed of the datagram `mm`, `ee`. -/
theorem handlePacket_short_line_witness :
    (([109, 109, 10] : List Byte) = [] ∨ ([109, 109, 10] : List Byte).getLast? = some LF) ∧
    ([120] : List Byte).length ≤ 1 ∧
    lexedLines (exampleEnv 9 (fun _ => ⟨5, 0⟩)) exampleReceiver exampleAddr
      ([109, 109, 10] ++ [120] ++ LF :: [101, 101]) = [[109, 109], [101, 101]] ∧
    (handlePacket (exampleEnv 9 (fun _ => ⟨5, 0⟩)) exampleReceiver exampleAddr
      ([109, 109, 10] ++ [120] ++ LF :: [101, 101])).2.badLines = 0 :=
  have h := handlePacket_short_line (exampleEnv 9 (fun _ => ⟨5, 0⟩)) exampleReceiver
    exampleAddr [109, 109, 10] [101, 101] [120] (Or.inr (by decide)) (by decide)
  ⟨Or.inr (by decide), by decide, h.2.1.trans (by decide),
    h.2.2.2.2.1.trans (by decide)⟩

/-- C3, amended. `handlePacket` passes to the lexer, in order and once each, the
lines longer than one byte among the lines it reads, and never a line of at most
one byte. It reads the lines in order and stops only on the line on which a
dispatch call fails or the lexer returns neither unit nor error: when it reads
fewer lines than the datagram has, its last call is such a call and is made for
the last line read; a failed dispatch or an empty lexer result on a line makes
that line the last one read; and when it returns nil it has read every line. Each
lexer call is made on the line of its number, with the result the lexer gives for
it, each line read that is longer than one byte has its lexer call, and no call
is made for a line that is not read. -/
theorem handlePacket_lexed_lines (env : Env σ) (mr : metricReceiver σ) (addr msg : List Byte) :
    lexedLines env mr addr msg =
      ((splitLines msg).take (linesRead env mr addr msg)).filter (fun l => 1 < l.length) ∧
    linesRead env mr addr msg ≤ (splitLines msg).length ∧
    ((handlePacket env mr addr msg).1 = Exit.ret none →
      lexedLines env mr addr msg = (splitLines msg).filter (fun l => 1 < l.length)) ∧
    ((packetCalls env mr addr msg).filter Call.isParseLine).Pairwise
      (fun a b => a.lineNo < b.lineNo) ∧
    (∀ i l res, Call.parseLine i l res ∈ packetCalls env mr addr msg →
      (splitLines msg).get? i = some l ∧ 1 < l.length ∧ res = parseLine env mr l) ∧
    (linesRead env mr addr msg < (splitLines msg).length →
      ∃ c, (packetCalls env mr addr msg).getLast? = some c ∧
        c.lineNo + 1 = linesRead env mr addr msg ∧
        (c.dispatchError ≠ none ∨
          ∃ i l res, c = Call.parseLine i l res ∧
            res.err = none ∧ res.metric = none ∧ res.event = none)) ∧
    (∀ c ∈ packetCalls env mr addr msg, c.dispatchError ≠ none →
      linesRead env mr addr msg = c.lineNo + 1) ∧
    (∀ i l res, Call.parseLine i l res ∈ packetCalls env mr addr msg →
      res.err = none → res.metric = none → res.event = none →
      linesRead env mr addr msg = i + 1) ∧
    (∀ j line, (splitLines msg).get? j = some line → j < linesRead env mr addr msg →
      1 < line.length →
      Call.parseLine j line (parseLine env mr line) ∈ packetCalls env mr addr msg) ∧
    (∀ c ∈ packetCalls env mr addr msg, c.lineNo < linesRead env mr addr msg) := by
  have hex := processLines_exit env (sourceIP addr) (splitLines msg) 0 0 0 mr
  have hle := linesRead_le env mr addr msg
  refine ⟨lexedLines_eq env mr addr msg, hle, ?_, ?_, ?_, ?_, ?_, ?_, ?_, ?_⟩
  · intro h
    rw [lexedLines_eq]
    have : linesRead env mr addr msg = (splitLines msg).length := by
      unfold linesRead
      rw [h]
    rw [this, List.take_length]
  · refine List.Pairwise.imp_of_mem ?_
      (List.Pairwise.filter Call.isParseLine (packetCalls_pairwise env mr addr msg))
    intro a b _ hb hab
    rcases hab with h | ⟨_, _, h⟩
    · exact h
    · have h1 := (List.mem_filter.mp hb).2
      rw [isParseLine_of_isDispatch b h] at h1
      exact absurd h1 (by simp)
  · intro i l res hc
    obtain ⟨line, h1, h2, h3, h4⟩ := packetCalls_madeFor env mr addr msg _ hc
    subst h3
    exact ⟨h1, h2, h4⟩
  · intro hlt
    rw [linesRead_eq] at hlt ⊢
    rw [packetCalls_eq]
    rcases hex with ⟨_, e2, _⟩ | ⟨pre, c, err, e1, _, e3, _, e5, _⟩ |
      ⟨pre, i1, l1, res1, e1, e2, e3, e4, _, e6, _⟩
    · omega
    · refine ⟨c, by rw [e1]; simp, by omega, Or.inl (by rw [e3]; simp)⟩
    · refine ⟨Call.parseLine i1 l1 res1, by rw [e1]; simp, ?_,
        Or.inr ⟨i1, l1, res1, rfl, e2, e3, e4⟩⟩
      have hi : (Call.parseLine i1 l1 res1).lineNo = i1 := rfl
      rw [hi]
      omega
  · intro c hc herr
    cases hd : c.dispatchError with
    | none => exact absurd hd herr
    | some err => exact (dispatch_error_last env mr addr msg c err hc hd).2.2
  · intro i l res hc h1 h2 h3
    rw [packetCalls_eq] at hc
    have := (linesCalls_nothing env (sourceIP addr) (splitLines msg) 0 0 0 mr i l res hc
      h1 h2 h3).2.2
    rw [linesRead_eq]
    omega
  · intro j line hj hlt hlen
    rw [linesRead_eq] at hlt
    rw [packetCalls_eq]
    have := (linesCalls_complete env (sourceIP addr) (splitLines msg) 0 0 0 mr j line hj hlt
      hlen).1
    rw [Nat.zero_add] at this
    exact this
  · intro c hc
    rw [packetCalls_eq] at hc
    have := (linesCalls_lineNo env (sourceIP addr) (splitLines msg) 0 0 0 mr c hc).2
    rw [linesRead_eq]
    omega

/-! ## The clock -/

theorem lineStep_clock (env : Env σ) (ip : IP) (lineNo : Nat) (line : List Byte)
    (nm ne : Nat) (mr : metricReceiver σ) :
    (lineStep env ip lineNo line nm ne mr).2.2.2.clockReads =
      mr.clockReads + (lineCalls env ip lineNo line nm ne mr).countP Call.readsClock := by
  unfold lineCalls lineStep
  by_cases hlen : 1 < line.length
  · rcases hres : parseLine env mr line with ⟨m, e, err⟩
    rcases err with _ | err
    · rcases m with _ | m
      · rcases e with _ | e
        · simp [hlen, hres, Call.readsClock]
        · by_cases hd : e.DateHappened = 0 <;> simp [hlen, hres, hd, Call.readsClock]
      · simp [hlen, hres, Call.readsClock]
    · simp [hlen, hres, Call.readsClock]
  · simp [hlen]

theorem lineCalls_event_date (env : Env σ) (ip : IP) (lineNo : Nat) (line : List Byte)
    (nm ne : Nat) (mr : metricReceiver σ) :
    ∀ i e res, Call.DispatchEvent i e res ∈ lineCalls env ip lineNo line nm ne mr →
      ∀ e0, (env.run line mr.namespace_).event = some e0 → e0.DateHappened = 0 →
        e.DateHappened = (env.now mr.clockReads).Unix := by
  unfold lineCalls lineStep
  by_cases hlen : 1 < line.length
  · rcases hres : parseLine env mr line with ⟨m, e, err⟩
    have hrun : env.run line mr.namespace_ = ⟨m, e, err⟩ := hres
    rcases err with _ | err
    · rcases m with _ | m
      · rcases e with _ | e
        · simp [hlen, hres, hrun]
        · by_cases hd : e.DateHappened = 0
          · simp [hlen, hres, hd, hrun]
            intro i e1 res h1 h2 h3
            rw [h2]
          · simp [hlen, hres, hd, hrun]
      · simp [hlen, hres, hrun]
    · simp [hlen, hres, hrun]
  · simp [hlen]

theorem linesCalls_clock (env : Env σ) (ip : IP) (lines : List (List Byte)) :
    ∀ (lineNo nm ne : Nat) (mr : metricReceiver σ),
    (processLines env ip lines lineNo nm ne mr).2.2.2.clockReads =
      mr.clockReads + (linesCalls env ip lines lineNo nm ne mr).countP Call.readsClock := by
  induction lines with
  | nil => intro lineNo nm ne mr; simp [linesCalls_nil, processLines_nil]
  | cons line lines ih =>
    intro lineNo nm ne mr
    rw [linesCalls_cons, processLines_cons, List.countP_append]
    have hk := lineStep_clock env ip lineNo line nm ne mr
    rcases h : (lineStep env ip lineNo line nm ne mr).1 with _ | e
    · simp only []
      rw [ih, hk]
      omega
    · simp only [List.countP_nil]
      rw [hk]
      rfl

theorem linesCalls_event_date (env : Env σ) (ip : IP) (lines : List (List Byte)) :
    ∀ (lineNo nm ne : Nat) (mr : metricReceiver σ),
    ∀ i e res, Call.DispatchEvent i e res ∈ linesCalls env ip lines lineNo nm ne mr →
      ∀ line e0, lines.get? (i - lineNo) = some line →
        (env.run line mr.namespace_).event = some e0 → e0.DateHappened = 0 →
        e.DateHappened = (env.now (mr.clockReads +
          ((linesCalls env ip lines lineNo nm ne mr).filter
            (fun c => decide (c.lineNo < i))).countP Call.readsClock)).Unix := by
  induction lines with
  | nil => intro lineNo nm ne mr i e res hc; simp [linesCalls_nil] at hc
  | cons line lines ih =>
    intro lineNo nm ne mr i e res hc l e0 hl he0 hz
    have hcfg := lineStep_config env ip lineNo line nm ne mr
    have hk := lineStep_clock env ip lineNo line nm ne mr
    have hline : ∀ c ∈ lineCalls env ip lineNo line nm ne mr, c.lineNo = lineNo :=
      fun c hc => (lineCalls_madeFor env ip lineNo line nm ne mr c hc).1
    rw [linesCalls_cons, List.mem_append] at hc
    rw [linesCalls_cons, List.filter_append, List.countP_append]
    rcases hc with hc | hc
    · have hi : i = lineNo := hline _ hc
      subst hi
      rw [Nat.sub_self] at hl
      have hll : l = line := by
        simp at hl
        exact hl.symm
      subst hll
      have h1 : (lineCalls env ip i l nm ne mr).filter (fun c => decide (c.lineNo < i)) = [] := by
        rw [List.filter_eq_nil_iff]
        intro c hc1
        have := hline c hc1
        simp [this]
      rw [h1]
      rcases h : (lineStep env ip i l nm ne mr).1 with _ | ex
      · simp only []
        have h2 : (linesCalls env ip lines (i + 1)
              (lineStep env ip i l nm ne mr).2.1
              (lineStep env ip i l nm ne mr).2.2.1
              (lineStep env ip i l nm ne mr).2.2.2).filter
              (fun (c : Call) => decide (c.lineNo < i)) = [] := by
          rw [List.filter_eq_nil_iff]
          intro c hc1
          have := (linesCalls_lineNo env ip lines _ _ _ _ c hc1).1
          simp
          omega
        rw [h2]
        simp only [List.countP_nil, Nat.add_zero]
        exact lineCalls_event_date env ip i l nm ne mr i e res hc e0 he0 hz
      · simp only [List.filter_nil, List.countP_nil, Nat.add_zero]
        exact lineCalls_event_date env ip i l nm ne mr i e res hc e0 he0 hz
    · rcases h : (lineStep env ip lineNo line nm ne mr).1 with _ | ex
      · rw [h] at hc
        simp only []
        have hlo := (linesCalls_lineNo env ip lines _ _ _ _ _ hc).1
        have hi : lineNo + 1 ≤ i := hlo
        have h1 : (lineCalls env ip lineNo line nm ne mr).filter
            (fun c => decide (c.lineNo < i)) = lineCalls env ip lineNo line nm ne mr := by
          rw [List.filter_eq_self]
          intro c hc1
          have := hline c hc1
          simp
          omega
        have hl2 : lines.get? (i - (lineNo + 1)) = some l := by
          have : i - lineNo = (i - (lineNo + 1)) + 1 := by omega
          rw [this] at hl
          simpa using hl
        have := ih (lineNo + 1) (lineStep env ip lineNo line nm ne mr).2.1
          (lineStep env ip lineNo line nm ne mr).2.2.1
          (lineStep env ip lineNo line nm ne mr).2.2.2 i e res hc l e0 hl2
          (by rw [hcfg.2]; exact he0) hz
        rw [this, h1, hk, Nat.add_assoc]
      · rw [h] at hc; simp at hc

theorem countP_filter_succ_le (p q r : Call → Bool) (hqr : ∀ x, q x = true → r x = true)
    (a : Call) (hp : p a = true) (hq : q a = false) (hr : r a = true) :
    ∀ (cs : List Call), a ∈ cs →
      (cs.filter q).countP p + 1 ≤ (cs.filter r).countP p := by
  have mono : ∀ (cs : List Call), (cs.filter q).countP p ≤ (cs.filter r).countP p := by
    intro cs
    induction cs with
    | nil => simp
    | cons x cs ih =>
      by_cases hx : q x = true
      · have hx2 := hqr x hx
        simp only [List.filter_cons, hx, hx2, if_true, List.countP_cons]
        omega
      · by_cases hx2 : r x = true
        · simp only [List.filter_cons, hx, hx2, if_true, List.countP_cons]
          simp only [Bool.false_eq_true, if_false]
          omega
        · simp only [List.filter_cons, hx, hx2]
          simpa using ih
  intro cs
  induction cs with
  | nil => intro h; simp at h
  | cons x cs ih =>
    intro h
    rcases List.mem_cons.mp h with h | h
    · subst h
      have := mono cs
      simp only [List.filter_cons, hq, hr, if_true, List.countP_cons, hp]
      simp only [Bool.false_eq_true, if_false]
      omega
    · have ih := ih h
      by_cases hx : q x = true
      · have hx2 := hqr x hx
        simp only [List.filter_cons, hx, hx2, if_true, List.countP_cons]
        omega
      · by_cases hx2 : r x = true
        · simp only [List.filter_cons, hx, hx2, if_true, List.countP_cons]
          simp only [Bool.false_eq_true, if_false]
          omega
        · simp only [List.filter_cons, hx, hx2]
          simpa using ih

/-- A line whose event is dispatched has its lexer call in the trace. -/
theorem packetCalls_event_lexed (env : Env σ) (mr : metricReceiver σ) (addr msg : List Byte)
    (i : Nat) (e : Event) (res : Option GoError)
    (hc : Call.DispatchEvent i e res ∈ packetCalls env mr addr msg)
    (line : List Byte) (hl : (splitLines msg).get? i = some line) :
    Call.parseLine i line (parseLine env mr line) ∈ packetCalls env mr addr msg := by
  obtain ⟨l2, h1, h2, _⟩ := packetCalls_madeFor env mr addr msg _ hc
  have hl2 : l2 = line := by
    have h1a : (splitLines msg).get? i = some l2 := h1
    rw [hl] at h1a
    exact (Option.some.inj h1a).symm
  subst hl2
  rw [packetCalls_eq] at hc ⊢
  have hlt := (linesCalls_lineNo env (sourceIP addr) (splitLines msg) 0 0 0 mr _ hc).2
  have hi : (Call.DispatchEvent i e res).lineNo = i := rfl
  rw [hi, Nat.zero_add] at hlt
  have := (linesCalls_complete env (sourceIP addr) (splitLines msg) 0 0 0 mr i l2 hl hlt h2).1
  rw [Nat.zero_add] at this
  exact this

/-- C9, amended. An event whose lexed date-happened is zero is dispatched with
date-happened equal to the epoch seconds the clock gives when its line is handled:
the reading that comes after the readings taken before the packet and for its
earlier lines, one taken within the packet and before the loop is at any later
line. The dispatched value is zero only when that reading is zero epoch seconds.
An event with a date keeps its date, and the packet reads the clock once for each
event it stamps. -/
theorem handlePacket_event_date (env : Env σ) (mr : metricReceiver σ) (addr msg : List Byte) :
    (handlePacket env mr addr msg).2.clockReads =
      mr.clockReads + (packetCalls env mr addr msg).countP Call.readsClock ∧
    ∀ i e res, Call.DispatchEvent i e res ∈ packetCalls env mr addr msg →
      ∃ line e0, (splitLines msg).get? i = some line ∧
        (parseLine env mr line).event = some e0 ∧
        (e0.DateHappened ≠ 0 → e.DateHappened = e0.DateHappened) ∧
        (e0.DateHappened = 0 →
          e.DateHappened = (env.now (clockReadsAt env mr addr msg i)).Unix ∧
          (e.DateHappened = 0 ↔ (env.now (clockReadsAt env mr addr msg i)).Unix = 0) ∧
          mr.clockReads ≤ clockReadsAt env mr addr msg i ∧
          clockReadsAt env mr addr msg i < (handlePacket env mr addr msg).2.clockReads ∧
          ∀ j, i < j → clockReadsAt env mr addr msg i < clockReadsAt env mr addr msg j) := by
  have hfinal : (handlePacket env mr addr msg).2.clockReads =
      mr.clockReads + (packetCalls env mr addr msg).countP Call.readsClock := by
    rw [(handlePacket_fields env mr addr msg).2.2.2.1, packetCalls_eq]
    exact linesCalls_clock env (sourceIP addr) (splitLines msg) 0 0 0 mr
  refine ⟨hfinal, ?_⟩
  intro i e res hc
  obtain ⟨line, h1, _, hrun1, hrun2, e0, h3, _, _, _, _, h8, _⟩ :=
    packetCalls_madeFor env mr addr msg _ hc
  refine ⟨line, e0, h1, h3, h8, fun hz => ?_⟩
  have hd : e.DateHappened = (env.now (clockReadsAt env mr addr msg i)).Unix := by
    unfold clockReadsAt
    rw [packetCalls_eq] at hc ⊢
    exact linesCalls_event_date env (sourceIP addr) (splitLines msg) 0 0 0 mr i e res hc
      line e0 h1 h3 hz
  have hp := packetCalls_event_lexed env mr addr msg i e res hc line h1
  have hreads : (Call.parseLine i line (parseLine env mr line)).readsClock = true := by
    have a1 : (parseLine env mr line).err = none := hrun1
    have a2 : (parseLine env mr line).metric = none := hrun2
    have a3 : (parseLine env mr line).event = some e0 := h3
    simp [Call.readsClock, a1, a2, a3, hz]
  refine ⟨hd, by rw [hd], Nat.le_add_right _ _, ?_, ?_⟩
  · rw [hfinal]
    unfold clockReadsAt
    have := countP_filter_succ_le Call.readsClock (fun c => decide (c.lineNo < i))
      (fun _ => true) (fun _ _ => rfl) _ hreads (by simp [Call.lineNo]) rfl _ hp
    rw [List.filter_true] at this
    omega
  · intro j hij
    unfold clockReadsAt
    have := countP_filter_succ_le Call.readsClock (fun c => decide (c.lineNo < i))
      (fun c => decide (c.lineNo < j))
      (fun x hx => by
        have hx1 : x.lineNo < i := of_decide_eq_true hx
        exact decide_eq_true (by omega))
      _ hreads (by simp [Call.lineNo]) (by simp [Call.lineNo, hij]) _ hp
    omega

/-- Witness of `handlePacket_event_date`: the clock reads five seconds and then
six; of the two events lexed without date from the lines of the packet `ee\nee`,
the second one is dispatched with date six, the second reading. -/
theorem handlePacket_event_date_witness :
    Call.DispatchEvent 1 ⟨"ns", "text", 6, ["b", "env:prod"], [49]⟩ none ∈
      packetCalls (exampleEnv 9 (fun k => ⟨5 + k, 0⟩)) exampleReceiver exampleAddr
        [101, 101, 10, 101, 101] ∧
    clockReadsAt (exampleEnv 9 (fun k => ⟨5 + k, 0⟩)) exampleReceiver exampleAddr
      [101, 101, 10, 101, 101] 1 = exampleReceiver.clockReads + 1 ∧
    ∃ line e0, (splitLines [101, 101, 10, 101, 101]).get? 1 = some line ∧
      (parseLine (exampleEnv 9 (fun k => ⟨5 + k, 0⟩)) exampleReceiver line).event = some e0 ∧
      (e0.DateHappened ≠ 0 → (6 : Int) = e0.DateHappened) ∧
      (e0.DateHappened = 0 →
        (6 : Int) = ((exampleEnv 9 (fun k => ⟨5 + k, 0⟩)).now
          (clockReadsAt (exampleEnv 9 (fun k => ⟨5 + k, 0⟩)) exampleReceiver exampleAddr
            [101, 101, 10, 101, 101] 1)).Unix ∧
        ((6 : Int) = 0 ↔ ((exampleEnv 9 (fun k => ⟨5 + k, 0⟩)).now
          (clockReadsAt (exampleEnv 9 (fun k => ⟨5 + k, 0⟩)) exampleReceiver exampleAddr
            [101, 101, 10, 101, 101] 1)).Unix = 0) ∧
        exampleReceiver.clockReads ≤
          clockReadsAt (exampleEnv 9 (fun k => ⟨5 + k, 0⟩)) exampleReceiver exampleAddr
            [101, 101, 10, 101, 101] 1 ∧
        clockReadsAt (exampleEnv 9 (fun k => ⟨5 + k, 0⟩)) exampleReceiver exampleAddr
            [101, 101, 10, 101, 101] 1 <
          (handlePacket (exampleEnv 9 (fun k => ⟨5 + k, 0⟩)) exampleReceiver exampleAddr
            [101, 101, 10, 101, 101]).2.clockReads ∧
        ∀ j, 1 < j →
          clockReadsAt (exampleEnv 9 (fun k => ⟨5 + k, 0⟩)) exampleReceiver exampleAddr
            [101, 101, 10, 101, 101] 1 <
          clockReadsAt (exampleEnv 9 (fun k => ⟨5 + k, 0⟩)) exampleReceiver exampleAddr
            [101, 101, 10, 101, 101] j) :=
  ⟨by decide, by decide,
    (handlePacket_event_date (exampleEnv 9 (fun k => ⟨5 + k, 0⟩)) exampleReceiver exampleAddr
      [101, 101, 10, 101, 101]).2 1 ⟨"ns", "text", 6, ["b", "env:prod"], [49]⟩ none
      (by decide)⟩

end Gostatsd
